import Mathlib

/-!
# Weekly-Manager: the weekly report aggregator and the calendar parser

A shallow embedding of `frontend/src/utils/weeklyReport.js` (`generateWeeklyReport`,
`calculateTaskDuration`, `formatDuration`, `formatTimeDisplay`, `getWeekStart`) with the
properties of these functions, and a model of the calendar parser `parseIcsFile`, whose
source is not at hand, after section 4.1 of the specification.

## Modelling conventions

* A JavaScript `Date` is its time value: `some t` with `t` the milliseconds since the epoch
  (UTC), or `none` for an Invalid Date (time value `NaN`).
* The functions that depend on the host are given twice.  The first definitions take a time
  zone at a fixed offset `tz`, in minutes east of UTC (`LocalTime t = t + tz` minutes), and an
  engine that reads a date text of the shape `YYYY-MM-DD` (UTC midnight) or
  `YYYY-MM-DDTHH:mm[:ss]` (local time) and takes every other text for an Invalid Date.  The
  definitions in the namespace `Host` take a host with the transitions of its zone (daylight
  saving) and with the reading its engine has of every other text; the first definitions are
  the second on the host `Host.fixed tz` (`generateWeeklyReport_fixed`).
* Numbers that the code keeps integral (time values, minute counts, list lengths) are exact
  integers, `none` standing for `NaN`.  The completion rate and the average daily duration
  are quotients, which are modelled with their binary64 rounding (`F64`).
* An absent (`undefined`) property of a task is `none`.
-/

namespace WeeklyManager

/-! ## Calendar arithmetic of ECMAScript time values -/

/-- Milliseconds per day. -/
def msPerDay : Int := 86400000

/-- Milliseconds per minute. -/
def msPerMinute : Int := 60000

/-- A `Date` object: its time value, `none` for an Invalid Date. -/
abbrev JsDate := Option Int

/-- A number that is an integer or `NaN` (`none`). -/
abbrev JsInt := Option Int

/-- ECMAScript `Day(t)`: the day number of a time value. -/
def Day (t : Int) : Int := t / msPerDay

/-- ECMAScript `TimeWithinDay(t)`. -/
def TimeWithinDay (t : Int) : Int := t % msPerDay

/-- ECMAScript `LocalTime(t)` for a zone at the fixed offset of `tz` minutes east of UTC. -/
def LocalTime (tz : Int) (t : Int) : Int := t + tz * msPerMinute

/-- ECMAScript `UTC(t)`: the inverse of `LocalTime` for a fixed offset. -/
def UTC (tz : Int) (t : Int) : Int := t - tz * msPerMinute

/-- The year, `0..399`, of a day `0..146096` of a 400-year era that starts on 1 March:
the day is located in its century, its group of four years and its year. -/
def yearOfEra (doe : Int) : Int :=
  let cent := min 3 (doe / 36524)
  let doc := doe - cent * 36524
  let quad := doc / 1461
  let doq := doc - quad * 1461
  let yoq := min 3 (doq / 365)
  cent * 100 + quad * 4 + yoq

/-- The day, `0..365`, within its year (counted from 1 March) of a day of an era. -/
def dayOfYear (doe : Int) : Int :=
  let cent := min 3 (doe / 36524)
  let doc := doe - cent * 36524
  let quad := doc / 1461
  let doq := doc - quad * 1461
  let yoq := min 3 (doq / 365)
  doq - yoq * 365

/-- The proleptic Gregorian date `(year, month, day)`, month in `1..12`, of a day number
(day `0` is 1970-01-01). -/
def civilFromDays (z : Int) : Int × Int × Int :=
  let z := z + 719468
  let era := z / 146097
  let doe := z - era * 146097
  let yoe := yearOfEra doe
  let doy := dayOfYear doe
  let mp := (5 * doy + 2) / 153
  let d := doy - (153 * mp + 2) / 5 + 1
  let m := if mp < 10 then mp + 3 else mp - 9
  (if m ≤ 2 then yoe + era * 400 + 1 else yoe + era * 400, m, d)

/-- The day number of the proleptic Gregorian date `y-m-d`, month in `1..12`; `d` may lie
outside the month, later and earlier days being counted on from its first day. -/
def daysFromCivil (y m d : Int) : Int :=
  let y := if m ≤ 2 then y - 1 else y
  let era := y / 400
  let yoe := y - era * 400
  let mp := if m > 2 then m - 3 else m + 9
  let doy := (153 * mp + 2) / 5 + d - 1
  let doe := yoe * 365 + yoe / 4 - yoe / 100 + doy
  era * 146097 + doe - 719468

/-- ECMAScript `YearFromTime(t)`. -/
def YearFromTime (t : Int) : Int := (civilFromDays (Day t)).1

/-- ECMAScript `MonthFromTime(t)`, here in `1..12` (the engine counts from `0`). -/
def MonthFromTime (t : Int) : Int := (civilFromDays (Day t)).2.1

/-- ECMAScript `DateFromTime(t)`: the day of the month, `1..31`. -/
def DateFromTime (t : Int) : Int := (civilFromDays (Day t)).2.2

/-- ECMAScript `WeekDay(t)`: `0` is Sunday; day `0` of the epoch was a Thursday. -/
def WeekDay (t : Int) : Int := (Day t + 4) % 7

/-- ECMAScript `MakeDay(year, month, date)` for a month in `1..12`. -/
def MakeDay (y m dt : Int) : Int := daysFromCivil y m 1 + dt - 1

/-- ECMAScript `MakeDate(day, time)`. -/
def MakeDate (day time : Int) : Int := day * msPerDay + time

/-- `Date.prototype.getDate()`: the local day of the month, `NaN` for an Invalid Date. -/
def getDate (tz : Int) (d : JsDate) : JsInt :=
  d.map fun t => DateFromTime (LocalTime tz t)

/-- `Date.prototype.getDay()`: the local weekday, `NaN` for an Invalid Date. -/
def getDay (tz : Int) (d : JsDate) : JsInt :=
  d.map fun t => WeekDay (LocalTime tz t)

/-- `Date.prototype.setDate(dt)`, returning the date object after the update: the local day
of the month is replaced by `dt`, which `MakeDay` carries over into neighbouring months,
and the local time of day is kept. -/
def setDate (tz : Int) (d : JsDate) (dt : JsInt) : JsDate :=
  match d, dt with
  | some t, some n =>
    let lt := LocalTime tz t
    some (UTC tz (MakeDate (MakeDay (YearFromTime lt) (MonthFromTime lt) n) (TimeWithinDay lt)))
  | _, _ => none

/-- What `Date.prototype.toDateString()` spells out: the local year, month and day (the
weekday it also prints is a function of these); `none` is the text `Invalid Date`. -/
def toDateString (tz : Int) (d : JsDate) : Option (Int × Int × Int) :=
  d.map fun t => civilFromDays (Day (LocalTime tz t))

/-! ## Parsing date strings -/

/-- The value of a decimal digit. -/
def digitVal (c : Char) : Option Nat :=
  if c.isDigit then some (c.toNat - 48) else none

/-- The value of two decimal digits. -/
def twoDigits (a b : Char) : Option Nat :=
  match digitVal a, digitVal b with
  | some x, some y => some (10 * x + y)
  | _, _ => none

/-- Gregorian leap years. -/
def isLeapYear (y : Nat) : Bool :=
  y % 4 == 0 && (y % 100 != 0 || y % 400 == 0)

/-- Number of days of month `m` (`1..12`) of year `y`. -/
def daysInMonth (y m : Nat) : Nat :=
  if m = 2 then (if isLeapYear y then 29 else 28)
  else if m = 4 ∨ m = 6 ∨ m = 9 ∨ m = 11 then 30
  else 31

/-- The day number written by `YYYY-MM-DD`; `none` unless the text has exactly this shape
and names an existing calendar date. -/
def isoDate : List Char → Option Int
  | [y1, y2, y3, y4, s1, m1, m2, s2, d1, d2] =>
    match twoDigits y1 y2, twoDigits y3 y4, twoDigits m1 m2, twoDigits d1 d2 with
    | some c, some y, some m, some d =>
      if s1 = '-' ∧ s2 = '-' ∧ 1 ≤ m ∧ m ≤ 12 ∧ 1 ≤ d ∧ d ≤ daysInMonth (100 * c + y) m then
        some (daysFromCivil (100 * c + y : Nat) m d)
      else none
    | _, _, _, _ => none
  | _ => none

/-- The milliseconds since midnight written by `HH:mm` or `HH:mm:ss`. -/
def isoTime : List Char → Option Int
  | [h1, h2, s1, m1, m2] =>
    match twoDigits h1 h2, twoDigits m1 m2 with
    | some h, some m =>
      if s1 = ':' ∧ m ≤ 59 ∧ (h ≤ 23 ∨ (h = 24 ∧ m = 0)) then
        some ((h * 60 + m : Nat) * msPerMinute)
      else none
    | _, _ => none
  | [h1, h2, s1, m1, m2, s2, c1, c2] =>
    match twoDigits h1 h2, twoDigits m1 m2, twoDigits c1 c2 with
    | some h, some m, some s =>
      if s1 = ':' ∧ s2 = ':' ∧ m ≤ 59 ∧ s ≤ 59 ∧ (h ≤ 23 ∨ (h = 24 ∧ m = 0 ∧ s = 0)) then
        some ((h * 60 + m : Nat) * msPerMinute + (s : Nat) * 1000)
      else none
    | _, _, _ => none
  | _ => none

/-- The time value of `new Date(text)`, on the characters of `text`: a date-only text is
UTC midnight of its day, a date-time text is local time. -/
def parseDateChars (tz : Int) (cs : List Char) : JsDate :=
  if cs.length = 10 then
    (isoDate cs).map fun day => day * msPerDay
  else if cs.get? 10 = some 'T' then
    match isoDate (cs.take 10), isoTime (cs.drop 11) with
    | some day, some ms => some (UTC tz (MakeDate day ms))
    | _, _ => none
  else none

/-- The time value of `new Date(text)`. -/
def parseDate (tz : Int) (text : String) : JsDate :=
  parseDateChars tz text.toList

/-- The time value of `new Date(v)` for a property `v` that may be `undefined`:
`new Date(undefined)` is an Invalid Date. -/
def newDate (tz : Int) : Option String → JsDate
  | some text => parseDate tz text
  | none => none

/-! ## JavaScript values and operators used by the report -/

/-- Truthiness of a string-valued property: `undefined` and the empty string are falsy. -/
def truthy : Option String → Bool
  | some text => text ≠ ""
  | none => false

/-- The expression `v || dflt` for a string-valued property `v`. -/
def orDefault (v : Option String) (dflt : String) : String :=
  match v with
  | some text => if text ≠ "" then text else dflt
  | none => dflt

/-- A property inside a template literal: `undefined` is spelled out. -/
def templ : Option String → String
  | some text => text
  | none => "undefined"

/-- The relation `a <= b` on numbers: false as soon as one side is `NaN`. -/
def jsLe (a b : JsInt) : Bool :=
  match a, b with
  | some x, some y => x ≤ y
  | _, _ => false

/-- The difference `a - b`: `NaN` as soon as one side is `NaN`. -/
def jsSub (a b : JsInt) : JsInt :=
  match a, b with
  | some x, some y => some (x - y)
  | _, _ => none

/-- The sum `a + b`: `NaN` as soon as one side is `NaN`. -/
def jsAdd (a b : JsInt) : JsInt :=
  match a, b with
  | some x, some y => some (x + y)
  | _, _ => none

/-- Whether a comparator result says "first argument after the second": a positive number.
`NaN` counts as `+0`, as `Array.prototype.sort` prescribes. -/
def isPositive : JsInt → Bool
  | some v => 0 < v
  | none => false

/-- Insertion of `x` in front of the first element it does not have to follow. -/
def sortInsert {α : Type} (cmp : α → α → JsInt) (x : α) : List α → List α
  | [] => [x]
  | y :: ys => if isPositive (cmp x y) then y :: sortInsert cmp x ys else x :: y :: ys

/-- `Array.prototype.sort(cmp)`: a stable sort.  For a comparator that is a consistent
ordering every stable sort returns this list; for other comparators the language leaves the
order to the engine, and the model is the stable insertion sort. -/
def sort {α : Type} (cmp : α → α → JsInt) : List α → List α
  | [] => []
  | x :: xs => sortInsert cmp x (sort cmp xs)

/-- `Array.prototype.reduce(f)` without an initial value: a `TypeError` on an empty array. -/
def reduce {α : Type} (f : α → α → α) : List α → Except String α
  | [] => .error "TypeError: Reduce of empty array with no initial value"
  | x :: xs => .ok (xs.foldl f x)

/-- `a.localeCompare(b)`, as the lexicographic order of the code points.  On `HH:MM` texts,
where the first difference is between two digits, this is the order of every collation. -/
def localeCompare (a b : String) : Int :=
  if a.toList < b.toList then -1 else if a = b then 0 else 1

/-! ### binary64 arithmetic -/

/-- A finite non-negative binary64 number `mant * 2 ^ exp`. -/
structure F64 where
  mant : Nat
  exp : Int
  deriving DecidableEq, Repr

/-- The rational value of a binary64 number. -/
def F64.toRat (x : F64) : ℚ := x.mant * (2 : ℚ) ^ x.exp

/-- The nearest integer to `n / d`, a tie going to the even neighbour. -/
def roundHalfEven (n d : Nat) : Nat :=
  let q := n / d
  let r := n % d
  if 2 * r < d then q else if d < 2 * r then q + 1 else if q % 2 = 0 then q else q + 1

/-- Number of binary digits, by halving at most `fuel` times. -/
def bitLengthAux : Nat → Nat → Nat
  | 0, _ => 0
  | fuel + 1, n => if n = 0 then 0 else bitLengthAux fuel (n / 2) + 1

/-- Number of binary digits of `n`. -/
def bitLength (n : Nat) : Nat := bitLengthAux n n

/-- The binary64 number nearest to `n / d * 2 ^ e` (round to nearest, ties to even, 53
significant bits).  The exponent range of binary64 is not modelled. -/
def F64.nearest (n d : Nat) (e : Int) : F64 :=
  if n = 0 then ⟨0, 0⟩
  else
    let s : Int := 53 + bitLength d - bitLength n
    let s : Int := if 2 ^ 53 * (d * 2 ^ (-s).toNat) ≤ n * 2 ^ s.toNat then s - 1 else s
    ⟨roundHalfEven (n * 2 ^ s.toNat) (d * 2 ^ (-s).toNat), e - s⟩

/-- The quotient `a / b` of two integers below `2 ^ 53`, as computed in binary64. -/
def F64.div (a b : Nat) : F64 := F64.nearest a b 0

/-- The product `x * k` of a binary64 number and an integer, as computed in binary64. -/
def F64.mul (x : F64) (k : Nat) : F64 := F64.nearest (x.mant * k) 1 x.exp

/-- `Math.round(x)`: the integer nearest to `x`, a tie going up. -/
def Math.round (x : F64) : Nat :=
  (2 * x.mant * 2 ^ x.exp.toNat + 2 ^ (-x.exp).toNat) / (2 * 2 ^ (-x.exp).toNat)

/-! ## Task records and the weekly report -/

/-- A task record. -/
structure Task where
  id : String
  event : String
  description : Option String
  date : Option String
  startTime : Option String
  endDate : Option String
  endTime : Option String
  completed : Bool
  deriving DecidableEq, Repr

/-- One entry of `daysOfWeek`. -/
structure DayBucket where
  date : String
  dayName : Option String
  fullDate : JsDate
  tasks : List Task
  totalDuration : JsInt
  taskCount : Nat
  deriving DecidableEq, Repr

/-- The report object returned by `generateWeeklyReport`. -/
structure WeeklyReport where
  weekStart : String
  weekEnd : String
  weekStartDate : JsDate
  weekEndDate : JsDate
  daysOfWeek : List DayBucket
  totalTasks : Nat
  completedTasks : Nat
  totalDuration : JsInt
  averageDailyDuration : Option F64
  completionRate : Nat
  busiestDay : Option DayBucket
  weekTasks : List Task
  deriving DecidableEq

/-- The function `calculateTaskDuration`: the minutes between the start and the end of a
task.  Neither `new Date` nor the arithmetic throws, so the `catch` branch is not reached
and an unresolvable instant gives `NaN`.  For years of four digits the difference stays
below `2 ^ 49`, where the binary64 quotient by 60000 has the same floor as the exact one. -/
def calculateTaskDuration (tz : Int) (task : Task) : JsInt :=
  let start := parseDate tz (templ task.date ++ "T" ++ templ task.startTime)
  let finish := parseDate tz (templ task.endDate ++ "T" ++ templ task.endTime)
  let durationMs := jsSub finish start
  durationMs.map fun ms => max 0 (ms / 60000)

/-- Two decimal digits of a month or day number. -/
def pad2 (n : Int) : String :=
  if n < 10 then "0" ++ toString n else toString n

/-- The function `formatDateForReport`: the local date as `MM/DD/YYYY`. -/
def formatDateForReport (tz : Int) (date : JsDate) : String :=
  match date with
  | none => "Invalid Date"
  | some t =>
    let ymd := civilFromDays (Day (LocalTime tz t))
    pad2 ymd.2.1 ++ "/" ++ pad2 ymd.2.2 ++ "/" ++ toString ymd.1

/-- The table `dayNames`. -/
def dayNames : List String :=
  ["Sunday", "Monday", "Tuesday", "Wednesday", "Thursday", "Friday", "Saturday"]

/-- The predicate of the window filter of `generateWeeklyReport`. -/
def taskInWeek (tz : Int) (weekStart weekEnd : JsDate) (task : Task) : Bool :=
  if !truthy task.date then false
  else
    let taskStart := newDate tz task.date
    let taskEnd := if truthy task.endDate then newDate tz task.endDate else taskStart
    jsLe taskStart weekEnd && jsLe weekStart taskEnd

/-- The comparator of the sort of the week's tasks: the difference of the start instants. -/
def compareStart (tz : Int) (a b : Task) : JsInt :=
  let dateA := parseDate tz (templ a.date ++ "T" ++ orDefault a.startTime "00:00")
  let dateB := parseDate tz (templ b.date ++ "T" ++ orDefault b.startTime "00:00")
  jsSub dateA dateB

/-- The comparator of the sort inside a day: the start times as texts. -/
def compareTime (a b : Task) : JsInt :=
  let timeA := orDefault a.startTime "00:00"
  let timeB := orDefault b.startTime "00:00"
  some (localeCompare timeA timeB)

/-- The sum of the durations of a list of tasks, as `reduce` computes it from `0`. -/
def sumDuration (tz : Int) (tasks : List Task) : JsInt :=
  tasks.foldl (fun sum task => jsAdd sum (calculateTaskDuration tz task)) (some 0)

/-- The body of the loop of `generateWeeklyReport` for the index `i`. -/
def dayBucket (tz : Int) (weekStart : JsDate) (sortedTasks : List Task) (i : Nat) :
    DayBucket :=
  let currentDay := setDate tz weekStart (jsAdd (getDate tz weekStart) (some i))
  let dateStr := formatDateForReport tz currentDay
  let dayName := (getDay tz currentDay).bind fun k => dayNames.get? k.toNat
  let dayTasks := sortedTasks.filter fun task =>
    toDateString tz (newDate tz task.date) == toDateString tz currentDay
  let totalDuration := sumDuration tz dayTasks
  { date := dateStr
    dayName := dayName
    fullDate := currentDay
    tasks := sort compareTime dayTasks
    totalDuration := totalDuration
    taskCount := dayTasks.length }

/-- The callback of the `reduce` that looks for the busiest day. -/
def busier (prev current : DayBucket) : DayBucket :=
  if current.taskCount > prev.taskCount then current else prev

/-- The function `generateWeeklyReport`.  A sum of durations is never negative, so that
its `toNat` is the sum itself. -/
def generateWeeklyReport (tz : Int) (allTasks : List Task) (weekStartStr : String) :
    Except String WeeklyReport :=
  let weekStart := parseDate tz weekStartStr
  let weekEnd := setDate tz weekStart (jsAdd (getDate tz weekStart) (some 6))
  let weekTasks := allTasks.filter (taskInWeek tz weekStart weekEnd)
  let sortedTasks := sort (compareStart tz) weekTasks
  let daysOfWeek := (List.range 7).map (dayBucket tz weekStart sortedTasks)
  let totalTasks := sortedTasks.length
  let completedTasks := (sortedTasks.filter fun task => task.completed).length
  let totalDuration := sumDuration tz sortedTasks
  let averageDailyDuration : Option F64 :=
    if totalTasks > 0 then totalDuration.map fun minutes => F64.div minutes.toNat 7
    else some ⟨0, 0⟩
  match reduce busier daysOfWeek with
  | .error e => .error e
  | .ok busiestDay =>
    let completionRate :=
      if totalTasks > 0 then Math.round ((F64.div completedTasks totalTasks).mul 100) else 0
    .ok
      { weekStart := formatDateForReport tz weekStart
        weekEnd := formatDateForReport tz weekEnd
        weekStartDate := weekStart
        weekEndDate := weekEnd
        daysOfWeek := daysOfWeek
        totalTasks := totalTasks
        completedTasks := completedTasks
        totalDuration := totalDuration
        averageDailyDuration := averageDailyDuration
        completionRate := completionRate
        busiestDay := if busiestDay.taskCount > 0 then some busiestDay else none
        weekTasks := sortedTasks }

/-! ## The formatting helpers and `getWeekStart` -/

/-- A number inside a template literal or under `String(...)`: decimal digits, with a minus
sign for a negative number and `NaN` for `NaN`.  Integers are taken below `10 ^ 21`, from
where on the engine writes an exponent. -/
def numText : JsInt → String
  | some n => toString n
  | none => "NaN"

/-- Truthiness of a number: `0` and `NaN` are falsy. -/
def truthyNum : JsInt → Bool
  | some n => n ≠ 0
  | none => false

/-- The function `formatDuration`; the remainder `%` has the sign of the dividend. -/
def formatDuration (minutes : JsInt) : String :=
  let hours := minutes.map fun n => n / 60
  let mins := minutes.map fun n => n.tmod 60
  if truthyNum hours && truthyNum mins then numText hours ++ "h " ++ numText mins ++ "m"
  else if truthyNum hours then numText hours ++ "h"
  else numText mins ++ "m"

/-- The pieces of a text between the occurrences of a separator: `String.prototype.split`
with a separator of one character. -/
def splitChars (sep : Char) : List Char → List (List Char)
  | [] => [[]]
  | c :: cs =>
    if c = sep then [] :: splitChars sep cs
    else
      match splitChars sep cs with
      | [] => [[c]]
      | piece :: pieces => (c :: piece) :: pieces

/-- White space that `parseInt` skips. -/
def isWhiteSpace (c : Char) : Bool :=
  c = ' ' || c = '\t' || c = '\n' || c = '\r' || c.toNat = 11 || c.toNat = 12 ||
    c.toNat = 160 || c.toNat = 65279

/-- The value of the longest prefix of decimal digits, `NaN` when it is empty. -/
def decimalPrefix (cs : List Char) : JsInt :=
  match cs.takeWhile Char.isDigit with
  | [] => none
  | ds => some (ds.foldl (fun acc c => 10 * acc + ((c.toNat - 48 : Nat) : Int)) 0)

/-- The value of a hexadecimal digit. -/
def hexVal (c : Char) : Option Nat :=
  if c.isDigit then some (c.toNat - 48)
  else if 'a'.toNat ≤ c.toNat ∧ c.toNat ≤ 'f'.toNat then some (c.toNat - 87)
  else if 'A'.toNat ≤ c.toNat ∧ c.toNat ≤ 'F'.toNat then some (c.toNat - 55)
  else none

/-- The value of the longest prefix of hexadecimal digits, `NaN` when it is empty. -/
def hexPrefix (cs : List Char) : JsInt :=
  match cs.takeWhile fun c => (hexVal c).isSome with
  | [] => none
  | ds => some (ds.foldl (fun acc c => 16 * acc + (((hexVal c).getD 0 : Nat) : Int)) 0)

/-- The function `parseInt(text)` without a radix: white space is skipped, a sign is read,
the prefix `0x` selects base 16, and the longest prefix of digits is the value. -/
def parseInt (cs : List Char) : JsInt :=
  let cs := cs.dropWhile isWhiteSpace
  let signed : Int × List Char :=
    match cs with
    | '-' :: rest => (-1, rest)
    | '+' :: rest => (1, rest)
    | _ => (1, cs)
  let magnitude :=
    match signed.2 with
    | '0' :: 'x' :: rest => hexPrefix rest
    | '0' :: 'X' :: rest => hexPrefix rest
    | rest => decimalPrefix rest
  magnitude.map fun v => signed.1 * v

/-- The function `formatTimeDisplay`; an absent second piece of the split is `undefined`. -/
def formatTimeDisplay (time24 : Option String) : String :=
  if !truthy time24 then ""
  else
    let pieces := splitChars ':' (templ time24).toList
    let hours := pieces.headD []
    let minutes := (pieces.get? 1).map String.mk
    let hour := parseInt hours
    let ampm := if jsLe (some 12) hour then "PM" else "AM"
    let displayHour : JsInt :=
      if hour = some 0 then some 12
      else if isPositive (jsSub hour (some 12)) then jsSub hour (some 12)
      else hour
    numText displayHour ++ ":" ++ templ minutes ++ " " ++ ampm

/-- `Date.prototype.getFullYear()`. -/
def getFullYear (tz : Int) (d : JsDate) : JsInt :=
  d.map fun t => YearFromTime (LocalTime tz t)

/-- `Date.prototype.getMonth()`: the local month, counted from `0`. -/
def getMonth (tz : Int) (d : JsDate) : JsInt :=
  d.map fun t => MonthFromTime (LocalTime tz t) - 1

/-- `text.padStart(len, fill)` for a filler of one character. -/
def padStart (text : String) (len : Nat) (fill : Char) : String :=
  String.mk (List.replicate (len - text.toList.length) fill ++ text.toList)

/-- The function `getWeekStart` applied to a `Date`. -/
def getWeekStart (tz : Int) (date : JsDate) : String :=
  let start := date
  let day := getDay tz start
  let diff := jsSub (getDate tz start) day
  let start := setDate tz start diff
  let year := getFullYear tz start
  let month := padStart (numText (jsAdd (getMonth tz start) (some 1))) 2 '0'
  let dayStr := padStart (numText (getDate tz start)) 2 '0'
  numText year ++ "-" ++ month ++ "-" ++ dayStr

/-! ## The calendar parser

The source of `parseIcsFile` (`utils/icsParser.js`) is not part of the files at hand; its
tests are.  The parser is modelled from section 4.1 of the specification, with the marker
and property names of the tests. -/

/-- Modelled from the spec: the failure of the calendar parser, `FormatError`, raised for a
text that is not a calendar file (the source of the parser is missing). -/
inductive IcsError where
  | formatError
  deriving DecidableEq, Repr

/-- Modelled from the spec: the lines of the text of a calendar file, without their line
terminators (helper of the missing parser). -/
def icsLines (cs : List Char) : List (List Char) :=
  (splitChars '\n' cs).map fun line =>
    if line.getLast? = some '\r' then line.dropLast else line

/-- Modelled from the spec: step 1 of the missing parser, the lines after `current` are
unfolded: a line that begins with a space or a tab continues the line before it, without
this leading character. -/
def unfoldFrom (current : List Char) : List (List Char) → List (List Char)
  | [] => [current]
  | line :: rest =>
    match line with
    | ' ' :: more => unfoldFrom (current ++ more) rest
    | '\t' :: more => unfoldFrom (current ++ more) rest
    | _ => current :: unfoldFrom line rest

/-- Modelled from the spec: step 1 of the missing parser, the logical lines of a text. -/
def unfoldLines : List (List Char) → List (List Char)
  | [] => []
  | line :: rest => unfoldFrom line rest

/-- Modelled from the spec: a container marker of a calendar file, as the tests of the
missing parser write it. -/
def isContainerMarker (line : List Char) : Bool :=
  line = "BEGIN:VCALENDAR".toList || line = "END:VCALENDAR".toList

/-- Modelled from the spec: step 2 of the missing parser, the event blocks of a list of
logical lines, each the lines between a begin marker and its end marker; `current` holds
the lines of the block that is open, last line first. -/
def eventBlocksFrom (current : Option (List (List Char))) :
    List (List Char) → List (List (List Char))
  | [] => []
  | line :: rest =>
    if line = "BEGIN:VEVENT".toList then eventBlocksFrom (some []) rest
    else if line = "END:VEVENT".toList then
      match current with
      | some block => block.reverse :: eventBlocksFrom none rest
      | none => eventBlocksFrom none rest
    else
      match current with
      | some block => eventBlocksFrom (some (line :: block)) rest
      | none => eventBlocksFrom none rest

/-- Modelled from the spec: step 2 of the missing parser, the event blocks of a text. -/
def eventBlocks (lines : List (List Char)) : List (List (List Char)) :=
  eventBlocksFrom none lines

/-- Modelled from the spec: step 3 of the missing parser, a property line
`NAME[;PARAM=VALUE...]:VALUE` as its name, its parameters and its value. -/
def parseProperty (line : List Char) : Option (List Char × List (List Char) × List Char) :=
  if ':' ∈ line then
    match splitChars ';' (line.takeWhile fun c => c ≠ ':') with
    | [] => none
    | name :: params => some (name, params, (line.dropWhile fun c => c ≠ ':').drop 1)
  else none

/-- Modelled from the spec: step 4 of the missing parser, the date `YYYY-MM-DD` of eight
digits `YYYYMMDD`. -/
def compactDate : List Char → Option String
  | [y1, y2, y3, y4, m1, m2, d1, d2] =>
    if [y1, y2, y3, y4, m1, m2, d1, d2].all Char.isDigit then
      some (String.mk [y1, y2, y3, y4, '-', m1, m2, '-', d1, d2])
    else none
  | _ => none

/-- Modelled from the spec: step 4 of the missing parser, the time `HH:MM` of six digits
`HHMMSS`, with or without the marker of UTC after them; the seconds are dropped. -/
def compactTime : List Char → Option String
  | [h1, h2, m1, m2, s1, s2] =>
    if [h1, h2, m1, m2, s1, s2].all Char.isDigit then some (String.mk [h1, h2, ':', m1, m2])
    else none
  | [h1, h2, m1, m2, s1, s2, z] =>
    if [h1, h2, m1, m2, s1, s2].all Char.isDigit ∧ z = 'Z' then
      some (String.mk [h1, h2, ':', m1, m2])
    else none
  | _ => none

/-- Modelled from the spec: step 4 of the missing parser, the date and the time of the
value of an instant property: `YYYYMMDDTHHMMSS` with an optional `Z`, or `YYYYMMDD` under
the parameter `VALUE=DATE`, which is the date at `00:00`. -/
def parseInstant (params : List (List Char)) (value : List Char) : Option (String × String) :=
  match compactDate (value.take 8), value.get? 8, compactTime (value.drop 9) with
  | some date, some 'T', some time => some (date, time)
  | _, _, _ =>
    if "VALUE=DATE".toList ∈ params then (compactDate value).map fun date => (date, "00:00")
    else none

/-- Modelled from the spec: step 5 of the missing parser, the text of a summary or a
description without its escapes. -/
def unescapeText : List Char → List Char
  | [] => []
  | [c] => [c]
  | c :: d :: rest =>
    if c = '\\' ∧ d = ',' then ',' :: unescapeText rest
    else if c = '\\' ∧ d = ';' then ';' :: unescapeText rest
    else if c = '\\' ∧ (d = 'n' ∨ d = 'N') then '\n' :: unescapeText rest
    else if c = '\\' ∧ d = '\\' then '\\' :: unescapeText rest
    else c :: unescapeText (d :: rest)

/-- Modelled from the spec: what the missing parser has read of an event block. -/
structure EventFields where
  start : Option (String × String)
  finish : Option (String × String)
  summary : Option String
  description : Option String
  deriving DecidableEq, Repr

/-- Modelled from the spec: step 3 of the missing parser, one line of an event block is
read into the fields; a line that is no property or has another name changes nothing. -/
def readLine (fields : EventFields) (line : List Char) : EventFields :=
  match parseProperty line with
  | none => fields
  | some (name, params, value) =>
    if name = "DTSTART".toList then { fields with start := parseInstant params value }
    else if name = "DTEND".toList then { fields with finish := parseInstant params value }
    else if name = "SUMMARY".toList then
      { fields with summary := some (String.mk (unescapeText value)) }
    else if name = "DESCRIPTION".toList then
      { fields with description := some (String.mk (unescapeText value)) }
    else fields

/-- Modelled from the spec: step 6 of the missing parser, the fields of an event block when
the event is complete, that is when its start instant and its end instant were read. -/
def completeEvent (block : List (List Char)) : Option EventFields :=
  let fields := block.foldl readLine ⟨none, none, none, none⟩
  match fields.start, fields.finish with
  | some _, some _ => some fields
  | _, _ => none

/-- Modelled from the spec: step 6 of the missing parser, the task record of a complete
event, with the identifier it is given and `completed` false. -/
def taskOfEvent (id : String) (fields : EventFields) : Task :=
  { id := id
    event := fields.summary.getD ""
    description := fields.description
    date := fields.start.map fun instant => instant.1
    startTime := fields.start.map fun instant => instant.2
    endDate := fields.finish.map fun instant => instant.1
    endTime := fields.finish.map fun instant => instant.2
    completed := false }

/-- Modelled from the spec: steps 6 and 7 of the missing parser, the records of the
complete events in the order of the text, the record of rank `k` with the identifier
`newId k` of the injected generator. -/
def tasksOfEvents (newId : Nat → String) (k : Nat) : List EventFields → List Task
  | [] => []
  | fields :: rest => taskOfEvent (newId k) fields :: tasksOfEvents newId (k + 1) rest

/-- Modelled from the spec: whether a text has a container marker of a calendar file
among its logical lines (the check of the missing parser). -/
def hasContainerMarker (text : String) : Bool :=
  (unfoldLines (icsLines text.toList)).any isContainerMarker

/-- Modelled from the spec: the function `parseIcsFile` of the missing
`utils/icsParser.js`, following section 4.1: a text without a container marker is a
`FormatError`; otherwise the result is the records of the complete event blocks. -/
def parseIcsFile (newId : Nat → String) (text : String) : Except IcsError (List Task) :=
  if hasContainerMarker text then
    .ok (tasksOfEvents newId 0
      ((eventBlocks (unfoldLines (icsLines text.toList))).filterMap completeEvent))
  else .error .formatError

/-! ## The host: the rules of its time zone and the date formats of its engine

The definitions above are those of a host whose zone keeps one offset and whose engine
reads the two shapes `YYYY-MM-DD` and `YYYY-MM-DDTHH:mm[:ss]` and nothing else.  The
definitions of this section are the same functions on a host whose zone changes its offset
(daylight saving) and whose engine reads further texts; `Host.fixed` is the host of the
definitions above. -/

/-- A host of the program.  `standard` is the offset of its zone, in minutes east of UTC,
before the first transition; `transitions` are the changes of the offset in ascending
order, each with its instant and the offset from this instant on; `legacy` is what
`new Date(text)` makes of a text that `isoDate` and `isoTime` do not read: the other shapes
of the Date Time String Format (a year alone, a year and a month, fractions of a second, a
zone designator), a day number beyond the length of its month (V8 counts on into the next
month) and the formats of the engine's own such as `12/02/2024`, for which the language
prescribes nothing. -/
structure Host where
  standard : Int
  transitions : List (Int × Int)
  legacy : String → JsDate

namespace Host

/-- The host of a zone at the fixed offset of `tz` minutes east of UTC whose engine has no
formats of its own. -/
def fixed (tz : Int) : Host :=
  { standard := tz, transitions := [], legacy := fun _ => none }

/-- The offset, in minutes, in force at the instant `t`: that of the last transition at or
before `t`. -/
def offsetAt (h : Host) (t : Int) : Int :=
  h.transitions.foldl (fun o tr => if tr.1 ≤ t then tr.2 else o) h.standard

/-- ECMAScript `LocalTime(t)`. -/
def LocalTime (h : Host) (t : Int) : Int := t + h.offsetAt t * msPerMinute

/-- The instants whose local time is `t`: one as a rule, none for a local time that a
transition skips, two for a local time that a transition repeats. -/
def possibleInstants (h : Host) (t : Int) : List Int :=
  ((h.standard :: h.transitions.map Prod.snd).map fun o => t - o * msPerMinute).filter
    fun u => h.LocalTime u = t

/-- The offset in force before the transition that skips the local time `t`; `prev` is the
offset before the first of the transitions still to look at. -/
def offsetBefore (t : Int) : Int → List (Int × Int) → Int
  | prev, [] => prev
  | prev, tr :: rest =>
    if tr.1 + prev * msPerMinute ≤ t ∧ t < tr.1 + tr.2 * msPerMinute then prev
    else offsetBefore t tr.2 rest

/-- ECMAScript `UTC(t)`: the earliest instant whose local time is `t`; a local time that a
transition skips is read with the offset in force before the transition. -/
def UTC (h : Host) (t : Int) : Int :=
  match h.possibleInstants t with
  | [] => t - offsetBefore t h.standard h.transitions * msPerMinute
  | u :: us => us.foldl min u

/-- `Date.prototype.getDate()`: the local day of the month, `NaN` for an Invalid Date. -/
def getDate (h : Host) (d : JsDate) : JsInt :=
  d.map fun t => DateFromTime (h.LocalTime t)

/-- `Date.prototype.getDay()`: the local weekday, `NaN` for an Invalid Date. -/
def getDay (h : Host) (d : JsDate) : JsInt :=
  d.map fun t => WeekDay (h.LocalTime t)

/-- `Date.prototype.setDate(dt)`, returning the date object after the update: the local day
of the month is replaced by `dt`, which `MakeDay` carries over into neighbouring months,
the local time of day is kept, and the new local time is taken back to an instant. -/
def setDate (h : Host) (d : JsDate) (dt : JsInt) : JsDate :=
  match d, dt with
  | some t, some n =>
    let lt := h.LocalTime t
    some (h.UTC (MakeDate (MakeDay (YearFromTime lt) (MonthFromTime lt) n) (TimeWithinDay lt)))
  | _, _ => none

/-- What `Date.prototype.toDateString()` spells out: the local year, month and day; `none`
is the text `Invalid Date`. -/
def toDateString (h : Host) (d : JsDate) : Option (Int × Int × Int) :=
  d.map fun t => civilFromDays (Day (h.LocalTime t))

/-- The time value of a text of one of the two shapes of the task records, on its
characters: a date-only text is UTC midnight of its day, a date-time text is local time. -/
def parseDateChars (h : Host) (cs : List Char) : JsDate :=
  if cs.length = 10 then
    (isoDate cs).map fun day => day * msPerDay
  else if cs.get? 10 = some 'T' then
    match isoDate (cs.take 10), isoTime (cs.drop 11) with
    | some day, some ms => some (h.UTC (MakeDate day ms))
    | _, _ => none
  else none

/-- The time value of `new Date(text)`: a text of one of the two shapes is read as the
language prescribes, every other text as the engine sees fit. -/
def parseDate (h : Host) (text : String) : JsDate :=
  match h.parseDateChars text.toList with
  | some t => some t
  | none => h.legacy text

/-- The time value of `new Date(v)` for a property `v` that may be `undefined`:
`new Date(undefined)` is an Invalid Date. -/
def newDate (h : Host) : Option String → JsDate
  | some text => h.parseDate text
  | none => none

/-- The function `calculateTaskDuration`: the minutes between the start and the end of a
task.  Neither `new Date` nor the arithmetic throws, so the `catch` branch is not reached
and an unresolvable instant gives `NaN`. -/
def calculateTaskDuration (h : Host) (task : Task) : JsInt :=
  let start := h.parseDate (templ task.date ++ "T" ++ templ task.startTime)
  let finish := h.parseDate (templ task.endDate ++ "T" ++ templ task.endTime)
  let durationMs := jsSub finish start
  durationMs.map fun ms => max 0 (ms / 60000)

/-- The function `formatDateForReport`: the local date as `MM/DD/YYYY`. -/
def formatDateForReport (h : Host) (date : JsDate) : String :=
  match date with
  | none => "Invalid Date"
  | some t =>
    let ymd := civilFromDays (Day (h.LocalTime t))
    pad2 ymd.2.1 ++ "/" ++ pad2 ymd.2.2 ++ "/" ++ toString ymd.1

/-- The predicate of the window filter of `generateWeeklyReport`. -/
def taskInWeek (h : Host) (weekStart weekEnd : JsDate) (task : Task) : Bool :=
  if !truthy task.date then false
  else
    let taskStart := h.newDate task.date
    let taskEnd := if truthy task.endDate then h.newDate task.endDate else taskStart
    jsLe taskStart weekEnd && jsLe weekStart taskEnd

/-- The comparator of the sort of the week's tasks: the difference of the start instants. -/
def compareStart (h : Host) (a b : Task) : JsInt :=
  let dateA := h.parseDate (templ a.date ++ "T" ++ orDefault a.startTime "00:00")
  let dateB := h.parseDate (templ b.date ++ "T" ++ orDefault b.startTime "00:00")
  jsSub dateA dateB

/-- The sum of the durations of a list of tasks, as `reduce` computes it from `0`. -/
def sumDuration (h : Host) (tasks : List Task) : JsInt :=
  tasks.foldl (fun sum task => jsAdd sum (h.calculateTaskDuration task)) (some 0)

/-- The body of the loop of `generateWeeklyReport` for the index `i`. -/
def dayBucket (h : Host) (weekStart : JsDate) (sortedTasks : List Task) (i : Nat) :
    DayBucket :=
  let currentDay := h.setDate weekStart (jsAdd (h.getDate weekStart) (some i))
  let dateStr := h.formatDateForReport currentDay
  let dayName := (h.getDay currentDay).bind fun k => dayNames.get? k.toNat
  let dayTasks := sortedTasks.filter fun task =>
    h.toDateString (h.newDate task.date) == h.toDateString currentDay
  let totalDuration := h.sumDuration dayTasks
  { date := dateStr
    dayName := dayName
    fullDate := currentDay
    tasks := sort compareTime dayTasks
    totalDuration := totalDuration
    taskCount := dayTasks.length }

/-- The function `generateWeeklyReport`.  A sum of durations is never negative, so that
its `toNat` is the sum itself. -/
def generateWeeklyReport (h : Host) (allTasks : List Task) (weekStartStr : String) :
    Except String WeeklyReport :=
  let weekStart := h.parseDate weekStartStr
  let weekEnd := h.setDate weekStart (jsAdd (h.getDate weekStart) (some 6))
  let weekTasks := allTasks.filter (h.taskInWeek weekStart weekEnd)
  let sortedTasks := sort h.compareStart weekTasks
  let daysOfWeek := (List.range 7).map (h.dayBucket weekStart sortedTasks)
  let totalTasks := sortedTasks.length
  let completedTasks := (sortedTasks.filter fun task => task.completed).length
  let totalDuration := h.sumDuration sortedTasks
  let averageDailyDuration : Option F64 :=
    if totalTasks > 0 then totalDuration.map fun minutes => F64.div minutes.toNat 7
    else some ⟨0, 0⟩
  match reduce busier daysOfWeek with
  | .error e => .error e
  | .ok busiestDay =>
    let completionRate :=
      if totalTasks > 0 then Math.round ((F64.div completedTasks totalTasks).mul 100) else 0
    .ok
      { weekStart := h.formatDateForReport weekStart
        weekEnd := h.formatDateForReport weekEnd
        weekStartDate := weekStart
        weekEndDate := weekEnd
        daysOfWeek := daysOfWeek
        totalTasks := totalTasks
        completedTasks := completedTasks
        totalDuration := totalDuration
        averageDailyDuration := averageDailyDuration
        completionRate := completionRate
        busiestDay := if busiestDay.taskCount > 0 then some busiestDay else none
        weekTasks := sortedTasks }

end Host

/-! ## Notions of the specification -/

/-- The window condition on a task for the week that starts at the time value `w`: the
`date` is parseable, and with `taskEnd` the `endDate` when present and the `date`
otherwise, `taskStart <= w + 6 days` and `taskEnd >= w`. -/
def spanOverlaps (tz : Int) (w : Int) (task : Task) : Bool :=
  match newDate tz task.date with
  | none => false
  | some taskStart =>
    match (if truthy task.endDate then newDate tz task.endDate else some taskStart) with
    | none => false
    | some taskEnd => decide (taskStart ≤ w + 6 * msPerDay) && decide (w ≤ taskEnd)

/-- Whether the `date` of a task falls on the local calendar day of the time value `t`. -/
def dateOnDayOf (tz : Int) (t : Int) (task : Task) : Bool :=
  match newDate tz task.date with
  | none => false
  | some taskDate => decide (Day (LocalTime tz taskDate) = Day (LocalTime tz t))

/-- The sum of the durations of a list of tasks: `NaN` when one of them is `NaN`. -/
def durationTotal (tz : Int) (tasks : List Task) : JsInt :=
  if tasks.all fun task => (calculateTaskDuration tz task).isSome then
    some ((tasks.map fun task => (calculateTaskDuration tz task).getD 0).sum)
  else none

/-- A start time of the form `HH:MM`. -/
def wellFormedStartTime (task : Task) : Bool :=
  match task.startTime with
  | none => false
  | some time => decide (time.toList.length = 5) && (isoTime time.toList).isSome

/-- The nearest integer to `100 * c / t`, a half going up. -/
def roundedPercentage (c t : Nat) : Nat := (200 * c + t) / (2 * t)

/-- The text `YYYY-MM-DD` of a calendar date, the month and the day with two digits. -/
def isoDateText (ymd : Int × Int × Int) : String :=
  toString ymd.1 ++ "-" ++ padStart (toString ymd.2.1) 2 '0' ++ "-" ++
    padStart (toString ymd.2.2) 2 '0'

/-- The sum of `taskCount` over the buckets of a report. -/
def bucketCountSum (r : WeeklyReport) : Nat :=
  (r.daysOfWeek.map fun b => b.taskCount).sum

/-- The sum of `totalDuration` over the buckets of a report. -/
def bucketDurationSum (r : WeeklyReport) : JsInt :=
  r.daysOfWeek.foldl (fun acc b => jsAdd acc b.totalDuration) (some 0)

/-- The number of days from the local day of the week start `w` to the local day of the
`date` of a task, when the `date` is parseable and not before that day. -/
def bucketIndex (tz : Int) (w : Int) (task : Task) : Option Nat :=
  match newDate tz task.date with
  | none => none
  | some taskDate =>
    if Day (LocalTime tz w) ≤ Day (LocalTime tz taskDate) then
      some (Day (LocalTime tz taskDate) - Day (LocalTime tz w)).toNat
    else none

/-- The window condition on a task for the week that starts at the time value `w`, on a
host: the `date` is given and parseable, and with `taskEnd` the `endDate` when present and
the `date` otherwise, `taskStart <= w + 6 days` and `taskEnd >= w`. -/
def Host.spanOverlaps (h : Host) (w : Int) (task : Task) : Bool :=
  truthy task.date &&
    match h.newDate task.date with
    | none => false
    | some taskStart =>
      match (if truthy task.endDate then h.newDate task.endDate else some taskStart) with
      | none => false
      | some taskEnd => decide (taskStart ≤ w + 6 * msPerDay) && decide (w ≤ taskEnd)

/-- The instant of the local time `ms` milliseconds after midnight of the day `day` of the
calendar, on a host. -/
def Host.instantOf (h : Host) (day ms : Int) : Int := h.UTC (day * msPerDay + ms)

/-- The combined (date, startTime) instant of a task whose date is `YYYY-MM-DD` and whose
start time is `HH:mm` or `HH:mm:ss`, on a host; a missing start time counts as `00:00`. -/
def Host.startInstant (h : Host) (task : Task) : Option Int :=
  match task.date with
  | none => none
  | some date =>
    match isoDate date.toList, isoTime (orDefault task.startTime "00:00").toList with
    | some day, some ms => some (h.instantOf day ms)
    | _, _ => none

/-- Whether the `date` of a task is given and the engine of the host reads it as a date. -/
def Host.dateParseable (h : Host) (task : Task) : Bool :=
  truthy task.date && (h.newDate task.date).isSome

/-! ## Example records -/

/-- A completed one-hour task on Monday 2 December 2024. -/
def doneTask : Task :=
  { id := "d", event := "Done", description := none, date := some "2024-12-02",
    startTime := some "09:00", endDate := some "2024-12-02", endTime := some "10:00",
    completed := true }

/-- An open one-hour task on Monday 2 December 2024. -/
def openTask : Task :=
  { id := "o", event := "Open", description := none, date := some "2024-12-02",
    startTime := some "09:00", endDate := some "2024-12-02", endTime := some "10:00",
    completed := false }

/-- A task that has a start but neither `endDate` nor `endTime`. -/
def openEndedTask : Task :=
  { id := "e", event := "Open ended", description := none, date := some "2024-12-02",
    startTime := some "09:00", endDate := none, endTime := none, completed := false }

/-- A task that starts on the Friday before the week of 1 December 2024 and ends on its
Monday. -/
def spanningTask : Task :=
  { id := "s", event := "Spanning", description := none, date := some "2024-11-29",
    startTime := some "09:00", endDate := some "2024-12-02", endTime := some "10:00",
    completed := false }

/-- America/New_York from November 2023 to March 2025: five hours behind UTC, and four
hours behind during daylight time, from 10 March 2024, 07:00 UTC, to 3 November 2024,
06:00 UTC; an engine without formats of its own. -/
def newYork : Host :=
  { standard := -300
    transitions := [(1710054000000, -240), (1730613600000, -300)]
    legacy := fun _ => none }

/-- The day number written by `YYYY-MM-DD` for an engine that, like V8, takes every day
number up to 31 and counts the days beyond the end of the month on into the next. -/
def isoDateCarrying : List Char → Option Int
  | [y1, y2, y3, y4, s1, m1, m2, s2, d1, d2] =>
    match twoDigits y1 y2, twoDigits y3 y4, twoDigits m1 m2, twoDigits d1 d2 with
    | some c, some y, some m, some d =>
      if s1 = '-' ∧ s2 = '-' ∧ 1 ≤ m ∧ m ≤ 12 ∧ 1 ≤ d ∧ d ≤ 31 then
        some (daysFromCivil (100 * c + y : Nat) m d)
      else none
    | _, _, _, _ => none
  | _ => none

/-- A host at UTC whose engine counts day numbers on into the next month. -/
def carryingHost : Host :=
  { standard := 0
    transitions := []
    legacy := fun text => (isoDateCarrying text.toList).map fun day => day * msPerDay }

/-- A completed one-hour task on Saturday 16 March 2024, the last day of the week of
10 March 2024. -/
def lastDayTask : Task :=
  { id := "l", event := "Last day", description := none, date := some "2024-03-16",
    startTime := some "09:00", endDate := some "2024-03-16", endTime := some "10:00",
    completed := true }

/-- A task from 01:00 to 03:00 on 10 March 2024, the day the clocks of New York go from
02:00 to 03:00. -/
def springTask : Task :=
  { id := "sp", event := "Spring", description := none, date := some "2024-03-10",
    startTime := some "01:00", endDate := some "2024-03-10", endTime := some "03:00",
    completed := false }

/-- A task from 00:30 to 03:00 on 3 November 2024, the day the clocks of New York go from
02:00 back to 01:00. -/
def autumnTask : Task :=
  { id := "au", event := "Autumn", description := none, date := some "2024-11-03",
    startTime := some "00:30", endDate := some "2024-11-03", endTime := some "03:00",
    completed := false }

/-- A task that starts at 02:30 on 10 March 2024, a local time that New York skips. -/
def skippedHourTask : Task :=
  { id := "k", event := "Skipped", description := none, date := some "2024-03-10",
    startTime := some "02:30", endDate := some "2024-03-10", endTime := some "04:00",
    completed := false }

/-- A task that starts at 03:00 on 10 March 2024. -/
def threeTask : Task :=
  { id := "t", event := "Three", description := none, date := some "2024-03-10",
    startTime := some "03:00", endDate := some "2024-03-10", endTime := some "04:00",
    completed := false }

/-- A second task that starts at 03:00 on 10 March 2024. -/
def threeTaskB : Task :=
  { id := "u", event := "Three B", description := none, date := some "2024-03-10",
    startTime := some "03:00", endDate := some "2024-03-10", endTime := some "05:00",
    completed := false }

/-- A task dated 30 February 2024. -/
def februaryTask : Task :=
  { id := "f", event := "February", description := none, date := some "2024-02-30",
    startTime := some "09:00", endDate := none, endTime := none, completed := false }

/-- A task without a `date`. -/
def undatedTask : Task :=
  { id := "n", event := "Undated", description := none, date := none,
    startTime := some "09:00", endDate := none, endTime := none, completed := true }

/-! ## The calendar -/

theorem yearOfEra_dayOfYear (doe : Int) (h0 : 0 ≤ doe) (h1 : doe < 146097) :
    0 ≤ yearOfEra doe ∧ yearOfEra doe ≤ 399 ∧ 0 ≤ dayOfYear doe ∧ dayOfYear doe ≤ 365 ∧
      yearOfEra doe * 365 + yearOfEra doe / 4 - yearOfEra doe / 100 + dayOfYear doe = doe := by
  simp only [yearOfEra, dayOfYear]
  generalize hcent : min 3 (doe / 36524) = cent
  generalize hdoc : doe - cent * 36524 = doc
  generalize hquad : doc / 1461 = quad
  generalize hdoq : doc - quad * 1461 = doq
  generalize hyoq : min 3 (doq / 365) = yoq
  have c1 : 0 ≤ cent ∧ cent ≤ 3 := by omega
  have c2 : 0 ≤ doc ∧ doc ≤ 36524 := by omega
  have c3 : 0 ≤ quad ∧ quad ≤ 24 := by omega
  have c4 : 0 ≤ doq ∧ doq ≤ 1460 := by omega
  have c5 : 0 ≤ yoq ∧ yoq ≤ 3 := by omega
  have c6 : (cent * 100 + quad * 4 + yoq) / 4 = cent * 25 + quad := by omega
  have c7 : (cent * 100 + quad * 4 + yoq) / 100 = cent := by omega
  refine ⟨by omega, by omega, by omega, by omega, by omega⟩

theorem daysFromCivil_of_era (era yoe mp d : Int) (hy : 0 ≤ yoe ∧ yoe ≤ 399)
    (hm : 0 ≤ mp ∧ mp ≤ 11) :
    daysFromCivil
        (if (if mp < 10 then mp + 3 else mp - 9) ≤ 2 then yoe + era * 400 + 1
          else yoe + era * 400)
        (if mp < 10 then mp + 3 else mp - 9) d =
      era * 146097 + (yoe * 365 + yoe / 4 - yoe / 100 + ((153 * mp + 2) / 5 + d - 1)) - 719468 := by
  have e1 : (yoe + era * 400) / 400 = era := by omega
  have e2 : yoe + era * 400 - era * 400 = yoe := by omega
  by_cases h : mp < 10
  · have h2 : ¬ mp + 3 ≤ 2 := by omega
    have h3 : mp + 3 > 2 := by omega
    have h4 : mp + 3 - 3 = mp := by omega
    simp only [daysFromCivil, h, if_true, h2, if_false, h3, h4, e1, e2]
  · have h2 : mp - 9 ≤ 2 := by omega
    have h3 : ¬ mp - 9 > 2 := by omega
    have h4 : mp - 9 + 9 = mp := by omega
    have h5 : yoe + era * 400 + 1 - 1 = yoe + era * 400 := by omega
    simp only [daysFromCivil, h, if_false, h2, if_true, h3, h4, h5, e1, e2]

/-- The day number of the calendar date of a day number is that day number. -/
theorem daysFromCivil_civilFromDays (z : Int) :
    daysFromCivil (civilFromDays z).1 (civilFromDays z).2.1 (civilFromDays z).2.2 = z := by
  have key := yearOfEra_dayOfYear (z + 719468 - (z + 719468) / 146097 * 146097)
    (by omega) (by omega)
  obtain ⟨k1, k2, k3, k4, k5⟩ := key
  simp only [civilFromDays]
  rw [daysFromCivil_of_era _ _ _ _ ⟨k1, k2⟩ (by omega)]
  omega

/-- Distinct days have distinct calendar dates. -/
theorem civilFromDays_injective {a b : Int} (h : civilFromDays a = civilFromDays b) : a = b := by
  rw [← daysFromCivil_civilFromDays a, ← daysFromCivil_civilFromDays b, h]

theorem daysFromCivil_add (y m d k : Int) :
    daysFromCivil y m (d + k) = daysFromCivil y m d + k := by
  simp only [daysFromCivil]
  omega

/-- The update `d.setDate(d.getDate() + k)` moves a date by `k` days. -/
theorem setDate_getDate_add (tz t k : Int) :
    setDate tz (some t) (jsAdd (getDate tz (some t)) (some k)) = some (t + k * msPerDay) := by
  have h := daysFromCivil_civilFromDays (Day (LocalTime tz t))
  have h2 := daysFromCivil_add (civilFromDays (Day (LocalTime tz t))).1
    (civilFromDays (Day (LocalTime tz t))).2.1 1
    ((civilFromDays (Day (LocalTime tz t))).2.2 - 1)
  have h3 := daysFromCivil_add (civilFromDays (Day (LocalTime tz t))).1
    (civilFromDays (Day (LocalTime tz t))).2.1 1
    ((civilFromDays (Day (LocalTime tz t))).2.2 + k - 1)
  simp only [setDate, getDate, jsAdd, Option.map, MakeDay, YearFromTime, MonthFromTime,
    DateFromTime, MakeDate, UTC, TimeWithinDay] at *
  have e1 : (1 : Int) + ((civilFromDays (Day (LocalTime tz t))).2.2 - 1) =
      (civilFromDays (Day (LocalTime tz t))).2.2 := by omega
  rw [e1] at h2
  simp only [Day, LocalTime, msPerDay, msPerMinute] at *
  congr 1
  omega

theorem setDate_none (tz : Int) (dt : JsInt) : setDate tz none dt = none := rfl

/-- Two valid dates print the same `toDateString` exactly when they fall on the same local
day. -/
theorem toDateString_eq_iff (tz a b : Int) :
    toDateString tz (some a) = toDateString tz (some b) ↔
      Day (LocalTime tz a) = Day (LocalTime tz b) := by
  simp only [toDateString, Option.map, Option.some.injEq]
  exact ⟨civilFromDays_injective, fun h => by rw [h]⟩

theorem Day_add_days (t k : Int) : Day (t + k * msPerDay) = Day t + k := by
  simp only [Day, msPerDay]
  omega

theorem LocalTime_add (tz t k : Int) : LocalTime tz (t + k) = LocalTime tz t + k := by
  simp only [LocalTime]
  omega

/-! ## Sorting -/

theorem sortInsert_perm {α : Type} (cmp : α → α → JsInt) (x : α) (l : List α) :
    (sortInsert cmp x l).Perm (x :: l) := by
  induction l with
  | nil => exact List.Perm.refl _
  | cons y ys ih =>
    simp only [sortInsert]
    split
    · exact ((List.Perm.cons y ih).trans (List.Perm.swap x y ys))
    · exact List.Perm.refl _

/-- The sort returns a permutation of its argument, whatever the comparator. -/
theorem sort_perm {α : Type} (cmp : α → α → JsInt) (l : List α) : (sort cmp l).Perm l := by
  induction l with
  | nil => exact List.Perm.refl _
  | cons x xs ih =>
    simp only [sort]
    exact (sortInsert_perm cmp x _).trans (List.Perm.cons x ih)

theorem mem_sort {α : Type} (cmp : α → α → JsInt) (l : List α) (a : α) :
    a ∈ sort cmp l ↔ a ∈ l :=
  (sort_perm cmp l).mem_iff

theorem length_sort {α : Type} (cmp : α → α → JsInt) (l : List α) :
    (sort cmp l).length = l.length :=
  (sort_perm cmp l).length_eq

theorem filter_sortInsert {α : Type} (cmp : α → α → JsInt) (p : α → Bool) (x : α)
    (l : List α) (hp : ∀ b ∈ l, p x = true → p b = true → isPositive (cmp x b) = false) :
    (sortInsert cmp x l).filter p = (x :: l).filter p := by
  induction l with
  | nil => rfl
  | cons y ys ih =>
    have ih2 := ih fun b hb => hp b (List.mem_cons_of_mem _ hb)
    simp only [sortInsert]
    split
    · rename_i hpos
      by_cases hx : p x = true
      · by_cases hy : p y = true
        · have := hp y (List.mem_cons_self _ _) hx hy
          rw [this] at hpos
          exact absurd hpos (by simp)
        · simp only [List.filter_cons, hy, hx] at ih2 ⊢
          simpa using ih2
      · simp only [List.filter_cons, hx] at ih2 ⊢
        simp only [Bool.false_eq_true, if_false] at ih2 ⊢
        rw [ih2]
    · rfl

/-- Stability: elements that the comparator never puts one after the other keep the order
they have in the argument. -/
theorem filter_sort {α : Type} (cmp : α → α → JsInt) (p : α → Bool) (l : List α)
    (hp : ∀ a ∈ l, ∀ b ∈ l, p a = true → p b = true → isPositive (cmp a b) = false) :
    (sort cmp l).filter p = l.filter p := by
  induction l with
  | nil => rfl
  | cons x xs ih =>
    have ih2 := ih fun a ha b hb =>
      hp a (List.mem_cons_of_mem _ ha) b (List.mem_cons_of_mem _ hb)
    simp only [sort]
    rw [filter_sortInsert cmp p x (sort cmp xs)]
    · simp only [List.filter_cons]
      rw [ih2]
    · intro b hb
      exact hp x (List.mem_cons_self _ _) b
        (List.mem_cons_of_mem _ ((mem_sort cmp xs b).1 hb))

theorem sortInsert_pairwise {α β : Type} [LinearOrder β] (cmp : α → α → JsInt) (key : α → β)
    (x : α)
    (l : List α) (hk : ∀ b ∈ l, isPositive (cmp x b) = decide (key b < key x))
    (hs : l.Pairwise fun a b => key a ≤ key b) :
    (sortInsert cmp x l).Pairwise fun a b => key a ≤ key b := by
  induction l with
  | nil => simp [sortInsert]
  | cons y ys ih =>
    have hy := hk y (List.mem_cons_self _ _)
    rw [List.pairwise_cons] at hs
    simp only [sortInsert]
    split
    · rename_i hpos
      rw [hy] at hpos
      have hlt : key y < key x := by simpa using hpos
      rw [List.pairwise_cons]
      refine ⟨?_, ih (fun b hb => hk b (List.mem_cons_of_mem _ hb)) hs.2⟩
      intro b hb
      rcases List.mem_cons.1 ((sortInsert_perm cmp x ys).mem_iff.1 hb) with h | h
      · rw [h]; exact le_of_lt hlt
      · exact hs.1 b h
    · rename_i hpos
      rw [hy] at hpos
      have hle : key x ≤ key y := by simpa using hpos
      rw [List.pairwise_cons]
      refine ⟨?_, List.pairwise_cons.2 hs⟩
      intro b hb
      rcases List.mem_cons.1 hb with h | h
      · rw [h]; exact hle
      · exact le_trans hle (hs.1 b h)

/-- When the comparator orders the elements of the list by a key, the sorted list
is ascending in that key. -/
theorem sort_pairwise {α β : Type} [LinearOrder β] (cmp : α → α → JsInt) (key : α → β)
    (l : List α)
    (hk : ∀ a ∈ l, ∀ b ∈ l, isPositive (cmp a b) = decide (key b < key a)) :
    (sort cmp l).Pairwise fun a b => key a ≤ key b := by
  induction l with
  | nil => simp [sort]
  | cons x xs ih =>
    simp only [sort]
    apply sortInsert_pairwise
    · intro b hb
      exact hk x (List.mem_cons_self _ _) b
        (List.mem_cons_of_mem _ ((mem_sort cmp xs b).1 hb))
    · exact ih fun a ha b hb =>
        hk a (List.mem_cons_of_mem _ ha) b (List.mem_cons_of_mem _ hb)

/-! ## Parsing -/

theorem isoDate_length {cs : List Char} {day : Int} (h : isoDate cs = some day) :
    cs.length = 10 := by
  unfold isoDate at h
  split at h
  · rfl
  · exact absurd h (by simp)

theorem parseDateChars_dateTime (tz : Int) (d t : List Char) (day ms : Int)
    (hd : isoDate d = some day) (ht : isoTime t = some ms) :
    parseDateChars tz (d ++ 'T' :: t) = some (day * msPerDay + ms - tz * msPerMinute) := by
  have hl := isoDate_length hd
  have h1 : (d ++ 'T' :: t).length ≠ 10 := by
    simp only [List.length_append, List.length_cons]; omega
  have h2 : (d ++ 'T' :: t).get? 10 = some 'T' := by
    rw [← hl, List.get?_eq_getElem?, List.getElem?_append_right (le_refl _)]
    simp
  have h3 : (d ++ 'T' :: t).take 10 = d := by
    rw [← hl]; simp
  have h4 : (d ++ 'T' :: t).drop 11 = t := by
    have : 11 = d.length + 1 := by omega
    rw [this, ← List.drop_drop]
    simp
  simp only [parseDateChars, h1, if_false, h2, if_true, h3, h4, hd, ht, UTC, MakeDate]

/-- The instant of a template `date T time` with a date `YYYY-MM-DD` and a time `HH:mm`
or `HH:mm:ss`: local time. -/
theorem parseDate_dateTime (tz : Int) (d t : String) (day ms : Int)
    (hd : isoDate d.toList = some day) (ht : isoTime t.toList = some ms) :
    parseDate tz (d ++ "T" ++ t) = some (day * msPerDay + ms - tz * msPerMinute) := by
  have : (d ++ "T" ++ t).toList = d.toList ++ 'T' :: t.toList := by
    simp [String.toList]
  rw [parseDate, this]
  exact parseDateChars_dateTime tz _ _ day ms hd ht

/-- The time value of a date-only text: UTC midnight. -/
theorem parseDate_dateOnly (tz : Int) (d : String) (day : Int)
    (hd : isoDate d.toList = some day) : parseDate tz d = some (day * msPerDay) := by
  simp only [parseDate, parseDateChars, isoDate_length hd, if_true, hd, Option.map]

theorem newDate_of_not_truthy (tz : Int) (v : Option String) (h : truthy v = false) :
    newDate tz v = none := by
  cases v with
  | none => rfl
  | some text =>
    simp only [truthy, decide_eq_false_iff_not, not_not] at h
    subst h
    rfl

/-! ## The report, field by field -/

/-- The function returns a report for every input, and these are its fields. -/
theorem generateWeeklyReport_fields (tz : Int) (allTasks : List Task) (weekStartStr : String) :
    ∃ r b0 bs, generateWeeklyReport tz allTasks weekStartStr = .ok r ∧
      r.weekStartDate = parseDate tz weekStartStr ∧
      r.weekEndDate = setDate tz (parseDate tz weekStartStr)
        (jsAdd (getDate tz (parseDate tz weekStartStr)) (some 6)) ∧
      r.weekTasks = sort (compareStart tz)
        (allTasks.filter (taskInWeek tz r.weekStartDate r.weekEndDate)) ∧
      r.daysOfWeek = (List.range 7).map (dayBucket tz r.weekStartDate r.weekTasks) ∧
      r.totalTasks = r.weekTasks.length ∧
      r.completedTasks = (r.weekTasks.filter fun task => task.completed).length ∧
      r.totalDuration = sumDuration tz r.weekTasks ∧
      r.averageDailyDuration =
        (if r.totalTasks > 0 then r.totalDuration.map fun minutes => F64.div minutes.toNat 7
          else some ⟨0, 0⟩) ∧
      r.completionRate =
        (if r.totalTasks > 0 then Math.round ((F64.div r.completedTasks r.totalTasks).mul 100)
          else 0) ∧
      r.daysOfWeek = b0 :: bs ∧
      r.busiestDay =
        (if (bs.foldl busier b0).taskCount > 0 then some (bs.foldl busier b0) else none) := by
  have h7 : List.range 7 = [0, 1, 2, 3, 4, 5, 6] := by decide
  simp only [generateWeeklyReport, h7, List.map, reduce]
  exact ⟨_, _, _, rfl, rfl, rfl, rfl, rfl, rfl, rfl, rfl, rfl, rfl, rfl, rfl⟩

/-! ## The window filter in a zone that keeps one offset -/

theorem taskInWeek_eq_spanOverlaps (tz w : Int) (task : Task) :
    taskInWeek tz (some w) (some (w + 6 * msPerDay)) task = spanOverlaps tz w task := by
  unfold taskInWeek spanOverlaps
  by_cases hd : truthy task.date = true
  · simp only [hd, Bool.not_true, Bool.false_eq_true, if_false]
    cases h1 : newDate tz task.date with
    | none => simp [jsLe]
    | some s =>
      by_cases he : truthy task.endDate = true
      · simp only [he, if_true]
        cases h2 : newDate tz task.endDate with
        | none => simp [jsLe]
        | some e => simp [jsLe]
      · simp [he, jsLe]
  · have hd2 : truthy task.date = false := by simpa using hd
    simp [hd2, newDate_of_not_truthy tz _ hd2]

theorem weekEnd_eq (tz : Int) (weekStartStr : String) (w : Int)
    (hW : parseDate tz weekStartStr = some w) :
    setDate tz (parseDate tz weekStartStr)
        (jsAdd (getDate tz (parseDate tz weekStartStr)) (some 6)) =
      some (w + 6 * msPerDay) := by
  rw [hW]
  exact setDate_getDate_add tz w 6

/-- The week's tasks of the report, for a valid week start. -/
theorem weekTasks_eq (tz : Int) (allTasks : List Task) (weekStartStr : String) (w : Int)
    (hW : parseDate tz weekStartStr = some w) :
    ∃ r, generateWeeklyReport tz allTasks weekStartStr = .ok r ∧
      r.weekStartDate = some w ∧ r.weekEndDate = some (w + 6 * msPerDay) ∧
      r.weekTasks = sort (compareStart tz) (allTasks.filter (spanOverlaps tz w)) := by
  obtain ⟨r, b0, bs, hr, h1, h2, h3, _⟩ := generateWeeklyReport_fields tz allTasks weekStartStr
  rw [weekEnd_eq tz weekStartStr w hW] at h2
  rw [hW] at h1
  refine ⟨r, hr, h1, h2, ?_⟩
  rw [h3, h1, h2]
  congr 1
  exact List.filter_congr fun t _ => taskInWeek_eq_spanOverlaps tz w t

/-- In a zone that keeps one offset, for every task list and every valid week start `W`,
`weekTasks` holds exactly the tasks of the input, with multiplicity, whose span overlaps the
window (parseable `date`, `taskStart <= W + 6 days` and `taskEnd >= W`, where `taskEnd` is
the `endDate` when present and the `date` otherwise), no other task, and `totalTasks` is the
length of `weekTasks`. -/
theorem weekTasks_fixed_offset (tz : Int) (allTasks : List Task) (weekStartStr : String)
    (w : Int) (hW : parseDate tz weekStartStr = some w) :
    ∃ r, generateWeeklyReport tz allTasks weekStartStr = .ok r ∧
      r.weekTasks.Perm (allTasks.filter (spanOverlaps tz w)) ∧
      (∀ task, task ∈ r.weekTasks ↔ task ∈ allTasks ∧ spanOverlaps tz w task = true) ∧
      r.totalTasks = r.weekTasks.length := by
  obtain ⟨r, hr, _, _, h3⟩ := weekTasks_eq tz allTasks weekStartStr w hW
  obtain ⟨r2, _, _, hr2, _, _, _, _, h5, _⟩ :=
    generateWeeklyReport_fields tz allTasks weekStartStr
  have e : r2 = r := by
    have := hr2.symm.trans hr
    injection this
  subst e
  have hp : r2.weekTasks.Perm (allTasks.filter (spanOverlaps tz w)) := by
    rw [h3]; exact sort_perm _ _
  refine ⟨r2, hr, hp, ?_, h5⟩
  intro task
  rw [hp.mem_iff, List.mem_filter]

/-! ## The day buckets (C2) -/

theorem report_unique {tz : Int} {allTasks : List Task} {weekStartStr : String}
    {r r' : WeeklyReport} (h : generateWeeklyReport tz allTasks weekStartStr = .ok r)
    (h' : generateWeeklyReport tz allTasks weekStartStr = .ok r') : r = r' := by
  have := h.symm.trans h'
  injection this

theorem dayFilter_eq (tz t : Int) (task : Task) :
    (toDateString tz (newDate tz task.date) == toDateString tz (some t)) =
      dateOnDayOf tz t task := by
  unfold dateOnDayOf
  cases h : newDate tz task.date with
  | none => simp [toDateString]
  | some a =>
    have := toDateString_eq_iff tz a t
    by_cases h2 : Day (LocalTime tz a) = Day (LocalTime tz t)
    · simp [h2, this.2 h2]
    · have h3 : ¬ toDateString tz (some a) = toDateString tz (some t) := fun e => h2 (this.1 e)
      simp [h2, h3]

/-- The bucket of index `i` of a week that starts at the time value `w`. -/
theorem dayBucket_eq (tz w : Int) (sortedTasks : List Task) (i : Nat) :
    (dayBucket tz (some w) sortedTasks i).fullDate = some (w + i * msPerDay) ∧
    (dayBucket tz (some w) sortedTasks i).tasks =
      sort compareTime (sortedTasks.filter (dateOnDayOf tz (w + i * msPerDay))) ∧
    (dayBucket tz (some w) sortedTasks i).taskCount =
      (sortedTasks.filter (dateOnDayOf tz (w + i * msPerDay))).length ∧
    (dayBucket tz (some w) sortedTasks i).totalDuration =
      sumDuration tz (sortedTasks.filter (dateOnDayOf tz (w + i * msPerDay))) ∧
    (dayBucket tz (some w) sortedTasks i).dayName =
      dayNames.get? (WeekDay (LocalTime tz (w + i * msPerDay))).toNat := by
  have hs := setDate_getDate_add tz w i
  have hf : (sortedTasks.filter fun task =>
      toDateString tz (newDate tz task.date) == toDateString tz (some (w + i * msPerDay))) =
      sortedTasks.filter (dateOnDayOf tz (w + i * msPerDay)) :=
    List.filter_congr fun t _ => dayFilter_eq tz _ t
  simp only [dayBucket, hs, hf, getDay, Option.map, Option.bind, and_self]

/-- The buckets of the report, for a valid week start. -/
theorem daysOfWeek_eq (tz : Int) (allTasks : List Task) (weekStartStr : String) (w : Int)
    (hW : parseDate tz weekStartStr = some w) :
    ∃ r, generateWeeklyReport tz allTasks weekStartStr = .ok r ∧
      r.weekTasks = sort (compareStart tz) (allTasks.filter (spanOverlaps tz w)) ∧
      r.daysOfWeek = (List.range 7).map (dayBucket tz (some w) r.weekTasks) := by
  obtain ⟨r, hr, h1, _, h3⟩ := weekTasks_eq tz allTasks weekStartStr w hW
  obtain ⟨r2, _, _, hr2, _, _, _, h4, _⟩ := generateWeeklyReport_fields tz allTasks weekStartStr
  have e := report_unique hr2 hr
  subst e
  exact ⟨r2, hr, h3, by rw [h4, h1]⟩

theorem daysOfWeek_get (tz : Int) (w : Int) (tasks : List Task) (i : Nat) (b : DayBucket)
    (h : ((List.range 7).map (dayBucket tz (some w) tasks)).get? i = some b) :
    i < 7 ∧ b = dayBucket tz (some w) tasks i := by
  rw [List.get?_eq_getElem?, List.getElem?_map] at h
  by_cases hi : i < 7
  · rw [List.getElem?_range hi] at h
    simp only [Option.map_some', Option.some.injEq] at h
    exact ⟨hi, h.symm⟩
  · rw [List.getElem?_eq_none (by simpa using hi)] at h
    simp at h

theorem Day_LocalTime_add_days (tz w : Int) (i : Int) :
    Day (LocalTime tz (w + i * msPerDay)) = Day (LocalTime tz w) + i := by
  simp only [Day, LocalTime, msPerDay, msPerMinute]
  omega

/-- C2: for every task list and valid week start `W`, the tasks of `daysOfWeek[i]`
(`i` in `0..6`) are exactly the tasks of `weekTasks` whose `date` falls on the calendar day
of `W + i` days (the start date alone decides), `taskCount` is their number, and a task is
in at most one bucket. -/
theorem buckets_by_start_date (tz : Int) (allTasks : List Task) (weekStartStr : String)
    (w : Int) (hW : parseDate tz weekStartStr = some w) :
    ∃ r, generateWeeklyReport tz allTasks weekStartStr = .ok r ∧
      (∀ i : Nat, i < 7 → ∃ b, r.daysOfWeek.get? i = some b ∧
        b.tasks.Perm (r.weekTasks.filter (dateOnDayOf tz (w + i * msPerDay))) ∧
        b.taskCount = (r.weekTasks.filter (dateOnDayOf tz (w + i * msPerDay))).length) ∧
      (∀ (i j : Nat) (b b' : DayBucket) (task : Task), r.daysOfWeek.get? i = some b →
        r.daysOfWeek.get? j = some b' → task ∈ b.tasks → task ∈ b'.tasks → i = j) := by
  obtain ⟨r, hr, _, h2⟩ := daysOfWeek_eq tz allTasks weekStartStr w hW
  refine ⟨r, hr, ?_, ?_⟩
  · intro i hi
    refine ⟨dayBucket tz (some w) r.weekTasks i, ?_, ?_, ?_⟩
    · rw [h2, List.get?_eq_getElem?, List.getElem?_map, List.getElem?_range hi]
      rfl
    · rw [(dayBucket_eq tz w r.weekTasks i).2.1]
      exact sort_perm _ _
    · exact (dayBucket_eq tz w r.weekTasks i).2.2.1
  · intro i j b b' task hb hb' ht ht'
    rw [h2] at hb hb'
    obtain ⟨_, e⟩ := daysOfWeek_get tz w _ i b hb
    obtain ⟨_, e'⟩ := daysOfWeek_get tz w _ j b' hb'
    rw [e, (dayBucket_eq tz w r.weekTasks i).2.1, mem_sort, List.mem_filter] at ht
    rw [e', (dayBucket_eq tz w r.weekTasks j).2.1, mem_sort, List.mem_filter] at ht'
    have k := ht.2
    have k' := ht'.2
    unfold dateOnDayOf at k k'
    cases hn : newDate tz task.date with
    | none => rw [hn] at k; exact absurd k (by simp)
    | some a =>
      rw [hn] at k k'
      simp only [decide_eq_true_eq] at k k'
      rw [Day_LocalTime_add_days] at k k'
      have : (i : Int) = j := by omega
      exact_mod_cast this

/-- For a week start and a task date that are both of the form `YYYY-MM-DD`, the `date`
falls on the day of `W + i` days exactly when it is the day `W + i` of the calendar, in
every time zone. -/
theorem dateOnDayOf_dateOnly (tz : Int) (task : Task) (date : String) (day weekDay : Int)
    (i : Nat) (hd : task.date = some date) (hday : isoDate date.toList = some day) :
    dateOnDayOf tz (weekDay * msPerDay + i * msPerDay) task = decide (day = weekDay + i) := by
  have h := parseDate_dateOnly tz date day hday
  simp only [dateOnDayOf, hd, newDate, h]
  congr 1
  simp only [Day, LocalTime, msPerDay, msPerMinute, eq_iff_iff]
  omega

/-- A week in a zone at UTC with a task that lasts from the Monday to the Wednesday. -/
theorem buckets_by_start_date_witness :
    parseDate 0 "2024-12-01" = some 1733011200000 ∧
    ∃ r, generateWeeklyReport 0
        [⟨"1", "Conference", none, some "2024-12-02", some "09:00", some "2024-12-04",
            some "17:00", false⟩] "2024-12-01" = .ok r ∧
      (∀ i : Nat, i < 7 → ∃ b, r.daysOfWeek.get? i = some b ∧
        b.tasks.Perm (r.weekTasks.filter (dateOnDayOf 0 (1733011200000 + i * msPerDay))) ∧
        b.taskCount =
          (r.weekTasks.filter (dateOnDayOf 0 (1733011200000 + i * msPerDay))).length) ∧
      (∀ (i j : Nat) (b b' : DayBucket) (task : Task), r.daysOfWeek.get? i = some b →
        r.daysOfWeek.get? j = some b' → task ∈ b.tasks → task ∈ b'.tasks → i = j) :=
  ⟨by decide, buckets_by_start_date 0 _ "2024-12-01" 1733011200000 (by decide)⟩

/-! ## The busiest day (C3) -/

theorem busier_taskCount (p c : DayBucket) :
    (busier p c).taskCount = max p.taskCount c.taskCount := by
  unfold busier
  split <;> omega

/-- The left-to-right scan returns the first bucket with the greatest task count. -/
theorem foldl_busier (bs : List DayBucket) (b0 : DayBucket) :
    ∃ i, (b0 :: bs).get? i = some (bs.foldl busier b0) ∧
      (∀ b ∈ b0 :: bs, b.taskCount ≤ (bs.foldl busier b0).taskCount) ∧
      (∀ j b, j < i → (b0 :: bs).get? j = some b →
        b.taskCount < (bs.foldl busier b0).taskCount) := by
  induction bs using List.reverseRecOn with
  | nil =>
    refine ⟨0, rfl, ?_, ?_⟩
    · intro b hb
      simp only [List.mem_singleton] at hb
      subst hb
      exact le_refl _
    · intro j b hj
      exact absurd hj (Nat.not_lt_zero _)
  | append_singleton bs c ih =>
    obtain ⟨i, h1, h2, h3⟩ := ih
    have hi : i < (b0 :: bs).length := by
      rw [List.get?_eq_getElem?] at h1
      exact (List.getElem?_eq_some_iff.1 h1).1
    rw [List.foldl_append]
    simp only [List.foldl_cons, List.foldl_nil]
    by_cases hc : c.taskCount > (bs.foldl busier b0).taskCount
    · have e : busier (bs.foldl busier b0) c = c := by simp [busier, hc]
      rw [e]
      refine ⟨(b0 :: bs).length, ?_, ?_, ?_⟩
      · rw [← List.cons_append, List.get?_eq_getElem?, List.getElem?_append_right (le_refl _)]
        simp
      · intro b hb
        rw [← List.cons_append, List.mem_append, List.mem_singleton] at hb
        rcases hb with hb | hb
        · exact le_of_lt (lt_of_le_of_lt (h2 b hb) hc)
        · rw [hb]
      · intro j b hj hb
        rw [← List.cons_append, List.get?_eq_getElem?, List.getElem?_append_left hj,
          ← List.get?_eq_getElem?] at hb
        have hm : b ∈ b0 :: bs := List.get?_mem hb
        exact lt_of_le_of_lt (h2 b hm) hc
    · have e : busier (bs.foldl busier b0) c = bs.foldl busier b0 := by simp [busier, hc]
      rw [e]
      refine ⟨i, ?_, ?_, ?_⟩
      · rw [← List.cons_append, List.get?_eq_getElem?, List.getElem?_append_left hi,
          ← List.get?_eq_getElem?]
        exact h1
      · intro b hb
        rw [← List.cons_append, List.mem_append, List.mem_singleton] at hb
        rcases hb with hb | hb
        · exact h2 b hb
        · rw [hb]; exact not_lt.1 hc
      · intro j b hj hb
        rw [← List.cons_append, List.get?_eq_getElem?,
          List.getElem?_append_left (lt_trans hj hi), ← List.get?_eq_getElem?] at hb
        exact h3 j b hj hb

/-- C3: for every task list and week start, `busiestDay` is absent (`null`) exactly when
every bucket has `taskCount` 0; otherwise it is the bucket of lowest index among those
whose `taskCount` is the maximum over the buckets. -/
theorem busiestDay_first_maximum (tz : Int) (allTasks : List Task) (weekStartStr : String) :
    ∃ r, generateWeeklyReport tz allTasks weekStartStr = .ok r ∧
      r.daysOfWeek.length = 7 ∧
      (r.busiestDay = none ↔ ∀ b ∈ r.daysOfWeek, b.taskCount = 0) ∧
      (∀ day, r.busiestDay = some day →
        ∃ i, r.daysOfWeek.get? i = some day ∧
          (∀ b ∈ r.daysOfWeek, b.taskCount ≤ day.taskCount) ∧
          (∀ j b, j < i → r.daysOfWeek.get? j = some b → b.taskCount < day.taskCount)) := by
  obtain ⟨r, b0, bs, hr, _, _, _, h4, _, _, _, _, _, h11, h12⟩ :=
    generateWeeklyReport_fields tz allTasks weekStartStr
  obtain ⟨i, k1, k2, k3⟩ := foldl_busier bs b0
  refine ⟨r, hr, by rw [h4]; simp, ?_, ?_⟩
  · rw [h12, h11]
    constructor
    · intro h b hb
      have hz : (bs.foldl busier b0).taskCount = 0 := by
        by_contra hne
        rw [if_pos (Nat.pos_of_ne_zero hne)] at h
        exact absurd h (by simp)
      have := k2 b hb
      omega
    · intro h
      have hm : bs.foldl busier b0 ∈ b0 :: bs := List.get?_mem k1
      rw [if_neg (by rw [h _ hm]; exact Nat.lt_irrefl 0)]
  · intro day hday
    rw [h12] at hday
    split at hday
    · simp only [Option.some.injEq] at hday
      subst hday
      rw [h11]
      exact ⟨i, k1, k2, k3⟩
    · exact absurd hday (by simp)

/-! ## The completion rate (C4) -/

set_option maxRecDepth 100000 in
/-- C4, evaluated: a week of 40 tasks of which 23 are completed has the completion rate 57,
although `23 / 40 * 100 = 57.5` rounds to 58.  The binary64 quotient `23 / 40` lies below
`0.575`, and its binary64 product with 100 is `57.49999999999999`. -/
theorem completionRate_23_of_40 :
    ∃ r, generateWeeklyReport 0 (List.replicate 23 doneTask ++ List.replicate 17 openTask)
        "2024-12-01" = .ok r ∧
      r.totalTasks = 40 ∧ r.completedTasks = 23 ∧ r.completionRate = 57 ∧
      roundedPercentage r.completedTasks r.totalTasks = 58 := by
  refine ⟨_, rfl, ?_, ?_, ?_, ?_⟩ <;> decide

/-- The binary64 values of 23 out of 40: the quotient is `5179139571476070 / 2 ^ 53` and
its product with 100 is `8092405580431359 / 2 ^ 47`, which is below
`57.5 = 8092405580431360 / 2 ^ 47`. -/
theorem binary64_values_23_of_40 :
    F64.div 23 40 = ⟨5179139571476070, -53⟩ ∧
      (F64.div 23 40).mul 100 = ⟨8092405580431359, -47⟩ ∧
      Math.round ⟨8092405580431359, -47⟩ = 57 ∧ Math.round ⟨8092405580431360, -47⟩ = 58 := by
  decide

/-- The completion rate is 0 when the week has no task, and the number of completed tasks
counts the tasks of `weekTasks` with `completed` true. -/
theorem completionRate_no_tasks (tz : Int) (allTasks : List Task) (weekStartStr : String) :
    ∃ r, generateWeeklyReport tz allTasks weekStartStr = .ok r ∧
      r.completedTasks = (r.weekTasks.filter fun task => task.completed).length ∧
      r.completionRate =
        (if r.totalTasks > 0 then Math.round ((F64.div r.completedTasks r.totalTasks).mul 100)
          else 0) ∧
      (r.totalTasks = 0 → r.completionRate = 0) := by
  obtain ⟨r, b0, bs, hr, _, _, _, _, _, h6, _, _, h9, _⟩ :=
    generateWeeklyReport_fields tz allTasks weekStartStr
  refine ⟨r, hr, h6, h9, ?_⟩
  intro h0
  rw [h9, h0]
  rfl

/-! ## Sums of durations (C6) -/

theorem foldl_jsAdd_none (tz : Int) (tasks : List Task) :
    tasks.foldl (fun sum task => jsAdd sum (calculateTaskDuration tz task)) none = none := by
  induction tasks with
  | nil => rfl
  | cons t ts ih =>
    rw [List.foldl_cons, show jsAdd none (calculateTaskDuration tz t) = none from rfl]
    exact ih

theorem foldl_jsAdd_some (tz : Int) (tasks : List Task) (acc : Int) :
    tasks.foldl (fun sum task => jsAdd sum (calculateTaskDuration tz task)) (some acc) =
      (durationTotal tz tasks).map fun total => acc + total := by
  induction tasks generalizing acc with
  | nil => simp [durationTotal]
  | cons t ts ih =>
    rw [List.foldl_cons]
    cases h : calculateTaskDuration tz t with
    | none =>
      rw [show jsAdd (some acc) none = none from rfl, foldl_jsAdd_none]
      simp [durationTotal, h]
    | some v =>
      rw [show jsAdd (some acc) (some v) = some (acc + v) from rfl, ih]
      by_cases hall : (ts.all fun task => (calculateTaskDuration tz task).isSome) = true
      · simp only [durationTotal, hall, List.all_cons, h, Option.isSome_some, Bool.true_and,
          if_true, Option.map_some', List.map_cons, List.sum_cons, Option.getD_some,
          Option.some.injEq]
        omega
      · simp only [durationTotal, hall, List.all_cons, h, Option.isSome_some, Bool.true_and,
          Bool.false_eq_true, if_false, Option.map_none']

/-- The running sum of the `reduce` is the sum of the durations. -/
theorem sumDuration_eq (tz : Int) (tasks : List Task) :
    sumDuration tz tasks = durationTotal tz tasks := by
  rw [sumDuration, foldl_jsAdd_some]
  cases durationTotal tz tasks <;> simp

/-- The sum of the durations does not depend on the order of the tasks. -/
theorem durationTotal_perm (tz : Int) {l l' : List Task} (h : l.Perm l') :
    durationTotal tz l = durationTotal tz l' := by
  have h1 : (l.all fun task => (calculateTaskDuration tz task).isSome) =
      (l'.all fun task => (calculateTaskDuration tz task).isSome) := by
    rw [Bool.eq_iff_iff, List.all_eq_true, List.all_eq_true]
    exact ⟨fun k x hx => k x (h.mem_iff.2 hx), fun k x hx => k x (h.mem_iff.1 hx)⟩
  have h2 := (h.map fun task => (calculateTaskDuration tz task).getD 0).sum_eq
  simp only [durationTotal, h1, h2]

/-- C6: for every task list and week start, `totalDuration` is the sum of
`calculateTaskDuration` over the tasks of `weekTasks`, and the `totalDuration` of every
bucket is the sum of `calculateTaskDuration` over the tasks of that bucket. -/
theorem totalDuration_is_sum (tz : Int) (allTasks : List Task) (weekStartStr : String) :
    ∃ r, generateWeeklyReport tz allTasks weekStartStr = .ok r ∧
      r.totalDuration = durationTotal tz r.weekTasks ∧
      r.daysOfWeek.length = 7 ∧
      ∀ b ∈ r.daysOfWeek, b.totalDuration = durationTotal tz b.tasks := by
  obtain ⟨r, b0, bs, hr, _, _, _, h4, _, _, h7, _⟩ :=
    generateWeeklyReport_fields tz allTasks weekStartStr
  refine ⟨r, hr, by rw [h7, sumDuration_eq], by rw [h4]; simp, ?_⟩
  intro b hb
  rw [h4, List.mem_map] at hb
  obtain ⟨i, _, rfl⟩ := hb
  simp only [dayBucket]
  rw [sumDuration_eq]
  exact durationTotal_perm tz (sort_perm _ _).symm

/-! ## The order inside a day (C8) -/

theorem digitVal_isDigit {c : Char} {n : Nat} (h : digitVal c = some n) : c.isDigit = true := by
  unfold digitVal at h
  split at h
  · assumption
  · exact absurd h (by simp)

theorem twoDigits_isDigit {a b : Char} {n : Nat} (h : twoDigits a b = some n) :
    a.isDigit = true ∧ b.isDigit = true := by
  unfold twoDigits at h
  split at h
  · rename_i x y hx hy
    exact ⟨digitVal_isDigit hx, digitVal_isDigit hy⟩
  · exact absurd h (by simp)

theorem isoDate_chars {cs : List Char} {day : Int} (h : isoDate cs = some day) :
    ∀ c ∈ cs, c.isDigit = true ∨ c = '-' := by
  unfold isoDate at h
  split at h
  · split at h
    · rename_i c y m d hc hy hm hd
      split at h
      · rename_i hcond
        have k1 := twoDigits_isDigit hc
        have k2 := twoDigits_isDigit hy
        have k3 := twoDigits_isDigit hm
        have k4 := twoDigits_isDigit hd
        intro ch hch
        simp only [List.mem_cons, List.mem_singleton, List.not_mem_nil, or_false] at hch
        rcases hch with e | e | e | e | e | e | e | e | e | e <;> subst e <;>
          simp [k1, k2, k3, k4, hcond.1, hcond.2.1]
      · exact absurd h (by simp)
    · exact absurd h (by simp)
  · exact absurd h (by simp)

theorem isoTime_chars {cs : List Char} {ms : Int} (h : isoTime cs = some ms) :
    ∀ c ∈ cs, c.isDigit = true ∨ c = ':' := by
  unfold isoTime at h
  split at h
  · split at h
    · rename_i hh m hc hm
      split at h
      · rename_i hcond
        have k1 := twoDigits_isDigit hc
        have k3 := twoDigits_isDigit hm
        intro ch hch
        simp only [List.mem_cons, List.mem_singleton, List.not_mem_nil, or_false] at hch
        rcases hch with e | e | e | e | e <;> subst e <;> simp [k1, k3, hcond.1]
      · exact absurd h (by simp)
    · exact absurd h (by simp)
  · split at h
    · rename_i hh m s hc hm hs
      split at h
      · rename_i hcond
        have k1 := twoDigits_isDigit hc
        have k3 := twoDigits_isDigit hm
        have k4 := twoDigits_isDigit hs
        intro ch hch
        simp only [List.mem_cons, List.mem_singleton, List.not_mem_nil, or_false] at hch
        rcases hch with e | e | e | e | e | e | e | e <;> subst e <;>
          simp [k1, k3, k4, hcond.1, hcond.2.1]
      · exact absurd h (by simp)
    · exact absurd h (by simp)
  · exact absurd h (by simp)

theorem not_isoDate_of_T {cs : List Char} (h : 'T' ∈ cs) : isoDate cs = none := by
  cases k : isoDate cs with
  | none => rfl
  | some day =>
    rcases isoDate_chars k 'T' h with e | e
    · exact absurd e (by decide)
    · exact absurd e (by decide)

theorem not_isoTime_of_T {cs : List Char} (h : 'T' ∈ cs) : isoTime cs = none := by
  cases k : isoTime cs with
  | none => rfl
  | some ms =>
    rcases isoTime_chars k 'T' h with e | e
    · exact absurd e (by decide)
    · exact absurd e (by decide)

/-- A template `date T time` is a valid date only for a date `YYYY-MM-DD` and a time
`HH:mm` or `HH:mm:ss`. -/
theorem parseDateChars_template_inv (tz : Int) (d t : List Char) (k : Int)
    (h : parseDateChars tz (d ++ 'T' :: t) = some k) :
    ∃ day ms, isoDate d = some day ∧ isoTime t = some ms ∧
      k = day * msPerDay + ms - tz * msPerMinute := by
  unfold parseDateChars at h
  split at h
  · rw [not_isoDate_of_T (by simp)] at h
    exact absurd h (by simp)
  · split at h
    · rcases Nat.lt_trichotomy d.length 10 with hl | hl | hl
      · have : 'T' ∈ (d ++ 'T' :: t).take 10 := by
          rw [List.take_append_eq_append_take]
          obtain ⟨n, hn⟩ : ∃ n, 10 - d.length = n + 1 := ⟨9 - d.length, by omega⟩
          rw [hn, List.take_succ_cons]
          simp
        rw [not_isoDate_of_T this] at h
        exact absurd h (by simp)
      · have h3 : (d ++ 'T' :: t).take 10 = d := by rw [← hl]; simp
        have h4 : (d ++ 'T' :: t).drop 11 = t := by
          have : 11 = d.length + 1 := by omega
          rw [this, ← List.drop_drop]
          simp
        rw [h3, h4] at h
        cases hd : isoDate d with
        | none => rw [hd] at h; exact absurd h (by simp)
        | some day =>
          cases ht : isoTime t with
          | none => rw [hd, ht] at h; exact absurd h (by simp)
          | some ms =>
            rw [hd, ht] at h
            simp only [Option.some.injEq, UTC, MakeDate] at h
            exact ⟨day, ms, rfl, rfl, h.symm⟩
      · have : 'T' ∈ (d ++ 'T' :: t).drop 11 := by
          rw [List.drop_append_of_le_length (by omega)]
          simp
        rw [not_isoTime_of_T this] at h
        cases hd : isoDate ((d ++ 'T' :: t).take 10) with
        | none => rw [hd] at h; exact absurd h (by simp)
        | some day => rw [hd] at h; exact absurd h (by simp)
    · exact absurd h (by simp)

theorem parseDate_template_inv (tz : Int) (d t : String) (k : Int)
    (h : parseDate tz (d ++ "T" ++ t) = some k) :
    ∃ day ms, isoDate d.toList = some day ∧ isoTime t.toList = some ms ∧
      k = day * msPerDay + ms - tz * msPerMinute := by
  have e : (d ++ "T" ++ t).toList = d.toList ++ 'T' :: t.toList := by
    simp [String.toList]
  rw [parseDate, e] at h
  exact parseDateChars_template_inv tz _ _ k h

/-- Two tasks whose dates fall on the same local day and which have the same start time
are not ordered by the comparator of the week's sort. -/
theorem compareStart_tie (tz : Int) (a b : Task) (va vb : Int)
    (ha : newDate tz a.date = some va) (hb : newDate tz b.date = some vb)
    (hday : Day (LocalTime tz va) = Day (LocalTime tz vb))
    (htime : orDefault a.startTime "00:00" = orDefault b.startTime "00:00") :
    isPositive (compareStart tz a b) = false := by
  cases hda : a.date with
  | none => rw [hda] at ha; exact absurd ha (by simp [newDate])
  | some da =>
    cases hdb : b.date with
    | none => rw [hdb] at hb; exact absurd hb (by simp [newDate])
    | some db =>
      rw [hda] at ha
      rw [hdb] at hb
      simp only [newDate] at ha hb
      simp only [compareStart, hda, hdb, templ, htime]
      cases ka : parseDate tz (da ++ "T" ++ orDefault b.startTime "00:00") with
      | none => rfl
      | some x =>
        cases kb : parseDate tz (db ++ "T" ++ orDefault b.startTime "00:00") with
        | none => rfl
        | some y =>
          obtain ⟨d1, m1, e1, f1, g1⟩ := parseDate_template_inv tz _ _ x ka
          obtain ⟨d2, m2, e2, f2, g2⟩ := parseDate_template_inv tz _ _ y kb
          rw [parseDate_dateOnly tz da d1 e1] at ha
          rw [parseDate_dateOnly tz db d2 e2] at hb
          rw [f1] at f2
          simp only [Option.some.injEq] at ha hb f2
          subst ha hb f2
          simp only [jsSub, isPositive, decide_eq_false_iff_not, not_lt]
          simp only [Day, LocalTime, msPerDay, msPerMinute] at *
          omega

theorem isPositive_compareTime (a b : Task) :
    isPositive (compareTime a b) =
      decide ((orDefault b.startTime "00:00").toList < (orDefault a.startTime "00:00").toList) := by
  simp only [compareTime, localeCompare, isPositive]
  rcases lt_trichotomy (orDefault a.startTime "00:00").toList
    (orDefault b.startTime "00:00").toList with h | h | h
  · rw [if_pos h, decide_eq_false (not_lt_of_lt h)]
    rfl
  · have h2 := String.toList_inj.1 h
    rw [if_neg (by rw [h]; exact lt_irrefl _), if_pos h2, h]
    exact (decide_eq_false (lt_irrefl _)).symm
  · have h3 : orDefault a.startTime "00:00" ≠ orDefault b.startTime "00:00" := by
      intro e
      rw [e] at h
      exact lt_irrefl _ h
    rw [if_neg (not_lt_of_lt h), if_neg h3, decide_eq_true h]
    rfl

theorem orDefault_of_wellFormed (task : Task) (time : String)
    (hw : wellFormedStartTime task = true) (ht : task.startTime = some time) :
    orDefault task.startTime "00:00" = time := by
  simp only [wellFormedStartTime, ht, Bool.and_eq_true, decide_eq_true_eq] at hw
  have hne : time ≠ "" := by
    intro e
    rw [e] at hw
    exact absurd hw.1 (by decide)
  simp [orDefault, ht, hne]

/-- C8: for every list of tasks with well-formed `HH:MM` start times and every valid week
start, the tasks of each day bucket are in ascending order of `startTime`, compared as
strings, and the tasks of a bucket that have the same `startTime` are in the order they
have in the input list. -/
theorem bucket_tasks_sorted_stable (tz : Int) (allTasks : List Task) (weekStartStr : String)
    (w : Int) (hW : parseDate tz weekStartStr = some w)
    (hwf : ∀ task ∈ allTasks, wellFormedStartTime task = true) :
    ∃ r, generateWeeklyReport tz allTasks weekStartStr = .ok r ∧
      ∀ i : Nat, i < 7 → ∃ b, r.daysOfWeek.get? i = some b ∧
        b.tasks.Pairwise (fun a c =>
          ∀ ta tc, a.startTime = some ta → c.startTime = some tc → ta ≤ tc) ∧
        ∀ time, b.tasks.filter (fun task => task.startTime == some time) =
          (allTasks.filter fun task =>
            spanOverlaps tz w task && dateOnDayOf tz (w + i * msPerDay) task).filter
            (fun task => task.startTime == some time) := by
  obtain ⟨r, hr, h1, h2⟩ := daysOfWeek_eq tz allTasks weekStartStr w hW
  refine ⟨r, hr, ?_⟩
  intro i hi
  refine ⟨dayBucket tz (some w) r.weekTasks i, ?_, ?_, ?_⟩
  · rw [h2, List.get?_eq_getElem?, List.getElem?_map, List.getElem?_range hi]
    rfl
  · rw [(dayBucket_eq tz w r.weekTasks i).2.1]
    have hs := sort_pairwise compareTime
      (fun task => (orDefault task.startTime "00:00").toList)
      (r.weekTasks.filter (dateOnDayOf tz (w + i * msPerDay)))
      (fun a _ b _ => isPositive_compareTime a b)
    refine hs.imp_of_mem ?_
    intro a c ha hc hac ta tc hta htc
    have ma : a ∈ allTasks := by
      rw [mem_sort, List.mem_filter, h1, mem_sort, List.mem_filter] at ha
      exact ha.1.1
    have mc : c ∈ allTasks := by
      rw [mem_sort, List.mem_filter, h1, mem_sort, List.mem_filter] at hc
      exact hc.1.1
    have hac2 : (orDefault a.startTime "00:00").toList ≤
        (orDefault c.startTime "00:00").toList := hac
    rw [orDefault_of_wellFormed a ta (hwf a ma) hta,
      orDefault_of_wellFormed c tc (hwf c mc) htc] at hac2
    exact String.le_iff_toList_le.2 hac2
  · intro time
    rw [(dayBucket_eq tz w r.weekTasks i).2.1]
    rw [filter_sort compareTime]
    · rw [h1, List.filter_filter, List.filter_filter, filter_sort (compareStart tz)]
      · rw [List.filter_filter]
        apply List.filter_congr
        intro x _
        cases spanOverlaps tz w x <;> cases dateOnDayOf tz (w + i * msPerDay) x <;>
          cases (x.startTime == some time) <;> rfl
      · intro a ha b hb pa pb
        simp only [Bool.and_eq_true, beq_iff_eq] at pa pb
        have ma := (List.mem_filter.1 ha).1
        have mb := (List.mem_filter.1 hb).1
        have da := pa.2
        have db := pb.2
        unfold dateOnDayOf at da db
        cases na : newDate tz a.date with
        | none => rw [na] at da; exact absurd da (by simp)
        | some va =>
          cases nb : newDate tz b.date with
          | none => rw [nb] at db; exact absurd db (by simp)
          | some vb =>
            rw [na] at da
            rw [nb] at db
            simp only [decide_eq_true_eq] at da db
            apply compareStart_tie tz a b va vb na nb (by rw [da, db])
            rw [orDefault_of_wellFormed a time (hwf a ma) pa.1,
              orDefault_of_wellFormed b time (hwf b mb) pb.1]
    · intro a _ b _ pa pb
      simp only [beq_iff_eq] at pa pb
      rw [isPositive_compareTime]
      simp [orDefault, pa, pb]

/-- The two tasks of the test `sorts tasks within days by start time`, in a zone at UTC. -/
theorem bucket_tasks_sorted_stable_witness :
    parseDate 0 "2024-12-01" = some 1733011200000 ∧
    (∀ task ∈ ([⟨"1", "Late Morning Task", none, some "2024-12-02", some "11:00",
          some "2024-12-02", some "12:00", false⟩,
        ⟨"2", "Early Morning Task", none, some "2024-12-02", some "09:00",
          some "2024-12-02", some "10:00", false⟩] : List Task),
      wellFormedStartTime task = true) ∧
    ∃ r, generateWeeklyReport 0
        [⟨"1", "Late Morning Task", none, some "2024-12-02", some "11:00",
            some "2024-12-02", some "12:00", false⟩,
          ⟨"2", "Early Morning Task", none, some "2024-12-02", some "09:00",
            some "2024-12-02", some "10:00", false⟩] "2024-12-01" = .ok r ∧
      ∀ i : Nat, i < 7 → ∃ b, r.daysOfWeek.get? i = some b ∧
        b.tasks.Pairwise (fun a c =>
          ∀ ta tc, a.startTime = some ta → c.startTime = some tc → ta ≤ tc) ∧
        ∀ time, b.tasks.filter (fun task => task.startTime == some time) =
          (([⟨"1", "Late Morning Task", none, some "2024-12-02", some "11:00",
                some "2024-12-02", some "12:00", false⟩,
              ⟨"2", "Early Morning Task", none, some "2024-12-02", some "09:00",
                some "2024-12-02", some "10:00", false⟩] : List Task).filter fun task =>
            spanOverlaps 0 1733011200000 task &&
              dateOnDayOf 0 (1733011200000 + i * msPerDay) task).filter
            (fun task => task.startTime == some time) :=
  ⟨by decide, by decide,
    bucket_tasks_sorted_stable 0 _ "2024-12-01" 1733011200000 (by decide) (by decide)⟩

/-! ## The seven days (C10) -/

/-- In every zone and for every valid week start `W`, the report has seven buckets, bucket
`i` stands for the instant `W + i` days and carries the name of the weekday on which that
instant falls in local time, and the week ends at the instant `W + 6` days. -/
theorem daysOfWeek_instants (tz : Int) (allTasks : List Task) (weekStartStr : String)
    (w : Int) (hW : parseDate tz weekStartStr = some w) :
    ∃ r, generateWeeklyReport tz allTasks weekStartStr = .ok r ∧
      r.daysOfWeek.length = 7 ∧ r.weekEndDate = some (w + 6 * msPerDay) ∧
      ∀ i : Nat, i < 7 → ∃ b, r.daysOfWeek.get? i = some b ∧
        b.fullDate = some (w + i * msPerDay) ∧
        b.dayName = dayNames.get? (WeekDay (LocalTime tz (w + i * msPerDay))).toNat := by
  obtain ⟨r, hr, h1, h2⟩ := daysOfWeek_eq tz allTasks weekStartStr w hW
  obtain ⟨r2, hr2, _, h3, _⟩ := weekTasks_eq tz allTasks weekStartStr w hW
  have e := report_unique hr2 hr
  subst e
  refine ⟨r2, hr, by rw [h2]; simp, h3, ?_⟩
  intro i hi
  refine ⟨dayBucket tz (some w) r2.weekTasks i, ?_, ?_, ?_⟩
  · rw [h2, List.get?_eq_getElem?, List.getElem?_map, List.getElem?_range hi]
    rfl
  · exact (dayBucket_eq tz w r2.weekTasks i).1
  · exact (dayBucket_eq tz w r2.weekTasks i).2.2.2.2

/-- In a zone at or east of UTC, a week start `YYYY-MM-DD` that is a Sunday gives the
buckets the names Sunday to Saturday, in this order. -/
theorem dayNames_east_of_UTC (tz : Int) (allTasks : List Task) (weekStartStr : String)
    (day : Int) (hW : isoDate weekStartStr.toList = some day) (hsun : (day + 4) % 7 = 0)
    (htz : 0 ≤ tz ∧ tz < 1440) :
    ∃ r, generateWeeklyReport tz allTasks weekStartStr = .ok r ∧
      r.daysOfWeek.map (fun b => b.dayName) = dayNames.map some := by
  have hp := parseDate_dateOnly tz weekStartStr day hW
  obtain ⟨r, hr, _, h2⟩ := daysOfWeek_eq tz allTasks weekStartStr _ hp
  refine ⟨r, hr, ?_⟩
  have key : ∀ i : Nat, i < 7 →
      (dayBucket tz (some (day * msPerDay)) r.weekTasks i).dayName = dayNames.get? i := by
    intro i hi
    rw [(dayBucket_eq tz (day * msPerDay) r.weekTasks i).2.2.2.2]
    congr 1
    simp only [WeekDay, Day, LocalTime, msPerDay, msPerMinute]
    omega
  have h7 : List.range 7 = [0, 1, 2, 3, 4, 5, 6] := by decide
  rw [h2, h7]
  simp only [List.map_cons, List.map_nil]
  rw [key 0 (by omega), key 1 (by omega), key 2 (by omega), key 3 (by omega),
    key 4 (by omega), key 5 (by omega), key 6 (by omega)]
  rfl

/-- C10, evaluated: in a zone five hours west of UTC, the week start 2024-12-01, a Sunday,
gives seven buckets whose names run from Saturday to Friday and whose dates run from
11/30/2024 to 12/06/2024: the week start is read as UTC midnight, which is the evening of
Saturday 30 November in local time, and the names are taken from the local weekday. -/
theorem dayNames_west_of_UTC :
    isoDate "2024-12-01".toList = some 20058 ∧ (20058 + 4) % 7 = 0 ∧
    ∃ r, generateWeeklyReport (-300) [] "2024-12-01" = .ok r ∧
      r.daysOfWeek.length = 7 ∧
      r.daysOfWeek.map (fun b => b.dayName) =
        [some "Saturday", some "Sunday", some "Monday", some "Tuesday", some "Wednesday",
          some "Thursday", some "Friday"] ∧
      r.daysOfWeek.map (fun b => b.date) =
        ["11/30/2024", "12/01/2024", "12/02/2024", "12/03/2024", "12/04/2024", "12/05/2024",
          "12/06/2024"] ∧
      r.weekStart = "11/30/2024" ∧ r.weekEnd = "12/06/2024" := by
  refine ⟨by decide, by decide, _, rfl, ?_, ?_, ?_, ?_, ?_⟩ <;> decide

/-! ## The range of the completion rate -/

theorem roundHalfEven_le (n d k : Nat) (hd : 0 < d) (h : n ≤ k * d) : roundHalfEven n d ≤ k := by
  have hq : n / d ≤ k := Nat.div_le_of_le_mul (by rw [Nat.mul_comm]; exact h)
  have hr : n % d < d := Nat.mod_lt _ hd
  have hn : d * (n / d) + n % d = n := Nat.div_add_mod n d
  by_cases hk : n / d = k
  · have hr0 : n % d = 0 := by
      rw [hk, Nat.mul_comm] at hn
      omega
    simp only [roundHalfEven, hr0, hk]
    rw [if_pos (by omega)]
  · have hlt : n / d < k := lt_of_le_of_ne hq hk
    simp only [roundHalfEven]
    split
    · omega
    · split
      · omega
      · split <;> omega

theorem bitLengthAux_le (fuel n m : Nat) (h : n < 2 ^ m) : bitLengthAux fuel n ≤ m := by
  induction fuel generalizing n m with
  | zero => simp [bitLengthAux]
  | succ f ih =>
    simp only [bitLengthAux]
    split
    · omega
    · rename_i hn
      cases m with
      | zero => simp at h; omega
      | succ m' =>
        have : n / 2 < 2 ^ m' := by
          rw [Nat.pow_succ] at h
          omega
        have := ih (n / 2) m' this
        omega

theorem lt_two_pow_bitLengthAux (fuel n : Nat) (h : n ≤ fuel) : n < 2 ^ bitLengthAux fuel n := by
  induction fuel generalizing n with
  | zero =>
    have : n = 0 := by omega
    subst this
    simp [bitLengthAux]
  | succ f ih =>
    simp only [bitLengthAux]
    split
    · rename_i hn
      subst hn
      simp
    · rename_i hn
      have := ih (n / 2) (by omega)
      rw [Nat.pow_succ]
      omega

theorem bitLength_le_of_lt (n m : Nat) (h : n < 2 ^ m) : bitLength n ≤ m :=
  bitLengthAux_le n n m h

theorem bitLength_mono {a b : Nat} (h : a ≤ b) : bitLength a ≤ bitLength b :=
  bitLength_le_of_lt a _ (lt_of_le_of_lt h (lt_two_pow_bitLengthAux b b (le_refl b)))

/-- The shape of a rounded number: the significand is the quotient at a scale `s` that
differs from `53 + bitLength d - bitLength n` by at most one. -/
theorem F64.nearest_eq (n d : Nat) (e : Int) (hn : n ≠ 0) :
    ∃ s : Int, 53 + bitLength d - bitLength n - 1 ≤ s ∧ s ≤ 53 + bitLength d - bitLength n ∧
      F64.nearest n d e = ⟨roundHalfEven (n * 2 ^ s.toNat) (d * 2 ^ (-s).toNat), e - s⟩ := by
  simp only [F64.nearest, if_neg hn]
  split
  · exact ⟨_, le_refl _, by omega, rfl⟩
  · exact ⟨_, by omega, le_refl _, rfl⟩

theorem Math.round_le (m : Nat) (e : Int) (k : Nat)
    (h : m * 2 ^ e.toNat ≤ k * 2 ^ (-e).toNat) : Math.round ⟨m, e⟩ ≤ k := by
  simp only [Math.round]
  have hp : 0 < 2 ^ (-e).toNat := Nat.pow_pos (by omega)
  have : (2 * m * 2 ^ e.toNat + 2 ^ (-e).toNat) / (2 * 2 ^ (-e).toNat) < k + 1 := by
    rw [Nat.div_lt_iff_lt_mul (by omega)]
    have e1 : 2 * m * 2 ^ e.toNat = 2 * (m * 2 ^ e.toNat) := by ring
    have e2 : (k + 1) * (2 * 2 ^ (-e).toNat) = 2 * (k * 2 ^ (-e).toNat) + 2 * 2 ^ (-e).toNat := by
      ring
    rw [e1, e2]
    omega
  omega

/-- The rounded percentage of `c` out of `t` computed in binary64 is at most 100. -/
theorem completionRate_le (c t : Nat) (ht : 0 < t) (hc : c ≤ t) :
    Math.round ((F64.div c t).mul 100) ≤ 100 := by
  by_cases hc0 : c = 0
  · subst hc0
    have z : (F64.div 0 t).mul 100 = ⟨0, 0⟩ := by
      simp [F64.div, F64.mul, F64.nearest]
    rw [z]
    decide
  obtain ⟨s1, l1, u1, e1⟩ := F64.nearest_eq c t 0 hc0
  have hb := bitLength_mono hc
  have hs1 : 52 ≤ s1 := by omega
  simp only [F64.div, F64.mul, e1]
  have hneg : (-s1).toNat = 0 := by omega
  rw [hneg, pow_zero, mul_one]
  obtain ⟨a, ha⟩ : ∃ a : Nat, s1 = a := ⟨s1.toNat, by omega⟩
  subst ha
  simp only [Int.toNat_ofNat]
  have hm1 : roundHalfEven (c * 2 ^ a) t ≤ 2 ^ a :=
    roundHalfEven_le _ _ _ ht (by rw [Nat.mul_comm]; exact Nat.mul_le_mul_left _ hc)
  generalize roundHalfEven (c * 2 ^ a) t = m1 at hm1
  by_cases hm0 : m1 * 100 = 0
  · rw [hm0]
    have z : F64.nearest 0 1 (0 - (a : Int)) = ⟨0, 0⟩ := by simp [F64.nearest]
    rw [z]
    decide
  obtain ⟨s2, l2, u2, e2⟩ := F64.nearest_eq (m1 * 100) 1 (0 - (a : Int)) hm0
  rw [e2]
  have hbl : bitLength (m1 * 100) ≤ a + 7 := by
    apply bitLength_le_of_lt
    have : m1 * 100 ≤ 2 ^ a * 100 := Nat.mul_le_mul_right _ hm1
    have h7 : 2 ^ (a + 7) = 2 ^ a * 128 := by rw [Nat.pow_add]
    omega
  have hb1 : bitLength 1 = 1 := by decide
  apply Math.round_le
  rcases le_or_lt 0 s2 with hs | hs
  · obtain ⟨b, hb2⟩ : ∃ b : Nat, s2 = b := ⟨s2.toNat, by omega⟩
    subst hb2
    have x1 : (-(b : Int)).toNat = 0 := by omega
    have x2 : (0 - (a : Int) - (b : Int)).toNat = 0 := by omega
    have x3 : (-(0 - (a : Int) - (b : Int))).toNat = a + b := by omega
    simp only [Int.toNat_ofNat, x1, x2, x3, pow_zero, mul_one]
    have : roundHalfEven (m1 * 100 * 2 ^ b) 1 ≤ 100 * 2 ^ a * 2 ^ b :=
      roundHalfEven_le _ _ _ (by omega) (by
        rw [mul_one]
        apply Nat.mul_le_mul_right
        rw [Nat.mul_comm 100]
        exact Nat.mul_le_mul_right _ hm1)
    rw [Nat.pow_add, ← Nat.mul_assoc]
    exact this
  · obtain ⟨j, hj⟩ : ∃ j : Nat, s2 = -(j : Int) := ⟨(-s2).toNat, by omega⟩
    subst hj
    have hja : j ≤ a := by omega
    have x1 : (-(j : Int)).toNat = 0 := by omega
    have x0 : (- -(j : Int)).toNat = j := by omega
    have x2 : (0 - (a : Int) - -(j : Int)).toNat = 0 := by omega
    have x3 : (-(0 - (a : Int) - -(j : Int))).toNat = a - j := by omega
    simp only [x0, x1, x2, x3, pow_zero, mul_one, one_mul]
    apply roundHalfEven_le _ _ _ (Nat.pow_pos (by omega))
    have : 100 * 2 ^ (a - j) * 2 ^ j = 100 * 2 ^ a := by
      rw [Nat.mul_assoc, ← Nat.pow_add, Nat.sub_add_cancel hja]
    rw [this, Nat.mul_comm]
    exact Nat.mul_le_mul_left _ hm1

/-- The completion rate of a report is an integer in `[0, 100]`. -/
theorem completionRate_range (tz : Int) (allTasks : List Task) (weekStartStr : String) :
    ∃ r, generateWeeklyReport tz allTasks weekStartStr = .ok r ∧ r.completionRate ≤ 100 := by
  obtain ⟨r, b0, bs, hr, _, _, _, _, h5, h6, _, _, h9, _⟩ :=
    generateWeeklyReport_fields tz allTasks weekStartStr
  refine ⟨r, hr, ?_⟩
  rw [h9]
  split
  · rename_i hpos
    apply completionRate_le _ _ hpos
    rw [h6, h5]
    exact List.length_filter_le _ _
  · omega

/-! ## The formatting helpers (C11, C12) -/

theorem numText_natCast (k : Nat) : numText (some (k : Int)) = toString k := rfl

/-- C11: for every non-negative integer number of minutes `n`, with `h = n div 60` and
`m = n mod 60`, `formatDuration(n)` is `<m>m` when `h = 0`, `<h>h` when `h > 0` and
`m = 0`, and `<h>h <m>m` when both are positive, the numbers in decimal. -/
theorem formatDuration_cases (n : Nat) :
    formatDuration (some (n : Int)) =
      if n / 60 = 0 then toString (n % 60) ++ "m"
      else if n % 60 = 0 then toString (n / 60) ++ "h"
      else toString (n / 60) ++ "h " ++ toString (n % 60) ++ "m" := by
  have e1 : (n : Int) / 60 = ((n / 60 : Nat) : Int) := by omega
  have e2 : (n : Int).tmod 60 = ((n % 60 : Nat) : Int) := by
    rw [Int.tmod_eq_emod (by omega) (by omega)]
    omega
  have t1 : ∀ k : Nat, truthyNum (some (k : Int)) = decide (k ≠ 0) := by
    intro k
    simp [truthyNum]
  simp only [formatDuration, Option.map]
  rw [e1, e2, t1, t1, numText_natCast, numText_natCast]
  by_cases h : n / 60 = 0
  · simp [h]
  · by_cases m : n % 60 = 0
    · simp [h, m]
    · simp [h, m]

/-- The examples of the specification for `formatDuration`. -/
theorem formatDuration_examples :
    formatDuration (some 125) = "2h 5m" ∧ formatDuration (some 60) = "1h" ∧
      formatDuration (some 30) = "30m" ∧ formatDuration (some 0) = "0m" ∧
      formatDuration (some 90) = "1h 30m" := by
  decide

theorem isDigit_cases (c : Char) (h : c.isDigit = true) :
    c = '0' ∨ c = '1' ∨ c = '2' ∨ c = '3' ∨ c = '4' ∨ c = '5' ∨ c = '6' ∨ c = '7' ∨
      c = '8' ∨ c = '9' := by
  have e := Char.ofNat_toNat c
  have hb : 48 ≤ c.toNat ∧ c.toNat ≤ 57 := by
    simp only [Char.isDigit, Bool.and_eq_true, decide_eq_true_eq] at h
    exact ⟨h.1, h.2⟩
  generalize c.toNat = n at e hb
  obtain ⟨h1, h2⟩ := hb
  subst e
  interval_cases n <;> simp

theorem parseInt_twoDigits (h1 h2 : Char) (hh : Nat) (hd : twoDigits h1 h2 = some hh) :
    parseInt [h1, h2] = some (hh : Int) ∧ h1 ≠ ':' ∧ h2 ≠ ':' := by
  obtain ⟨d1, d2⟩ := twoDigits_isDigit hd
  rcases isDigit_cases h1 d1 with e | e | e | e | e | e | e | e | e | e <;>
    rcases isDigit_cases h2 d2 with f | f | f | f | f | f | f | f | f | f <;>
    subst e f <;>
    (have hv := hd
     simp only [twoDigits, digitVal] at hv
     simp at hv
     subst hv
     decide)

theorem splitChars_of_not_mem (sep : Char) (cs : List Char) (h : sep ∉ cs) :
    splitChars sep cs = [cs] := by
  induction cs with
  | nil => rfl
  | cons c cs ih =>
    have hc : c ≠ sep := fun e => h (by rw [e]; exact List.mem_cons_self _ _)
    have ih2 := ih fun m => h (List.mem_cons_of_mem _ m)
    simp only [splitChars, hc, if_false, ih2]

theorem splitChars_time (h1 h2 : Char) (mm : List Char) (e1 : h1 ≠ ':') (e2 : h2 ≠ ':')
    (hm : ':' ∉ mm) : splitChars ':' (h1 :: h2 :: ':' :: mm) = [[h1, h2], mm] := by
  simp only [splitChars, e1, e2, if_false, if_true, splitChars_of_not_mem ':' mm hm]

/-- C12: for every time text `HH:MM` with `0 <= HH <= 23`, `formatTimeDisplay` returns
`<d>:MM <AM|PM>` with the minutes text unchanged, `AM` exactly when `HH < 12`, and the
display hour `d` equal to 12 for `HH` 0 or 12, to `HH` from 1 to 11 and to `HH - 12` from
13 on, so that `d` is in `1..12`; for the empty text it returns the empty text. -/
theorem formatTimeDisplay_twelve_hour (h1 h2 : Char) (mm : List Char) (hh : Nat)
    (hd : twoDigits h1 h2 = some hh) (h23 : hh ≤ 23) (hm : ':' ∉ mm) :
    formatTimeDisplay (some (String.mk (h1 :: h2 :: ':' :: mm))) =
        toString (if hh = 0 ∨ hh = 12 then 12 else if hh ≤ 11 then hh else hh - 12) ++ ":" ++
          String.mk mm ++ " " ++ (if hh < 12 then "AM" else "PM") ∧
      1 ≤ (if hh = 0 ∨ hh = 12 then 12 else if hh ≤ 11 then hh else hh - 12) ∧
      (if hh = 0 ∨ hh = 12 then 12 else if hh ≤ 11 then hh else hh - 12) ≤ 12 ∧
      formatTimeDisplay (some "") = "" := by
  obtain ⟨hp, e1, e2⟩ := parseInt_twoDigits h1 h2 hh hd
  refine ⟨?_, by split_ifs <;> omega, by split_ifs <;> omega, by decide⟩
  have ht : truthy (some (String.mk (h1 :: h2 :: ':' :: mm))) = true := by
    simp [truthy, String.ext_iff]
  have hl : (templ (some (String.mk (h1 :: h2 :: ':' :: mm)))).toList = h1 :: h2 :: ':' :: mm :=
    rfl
  simp only [formatTimeDisplay, ht, Bool.not_true, Bool.false_eq_true, if_false, hl,
    splitChars_time h1 h2 mm e1 e2 hm, List.headD_cons, hp]
  have hmin : templ (Option.map String.mk ([[h1, h2], mm].get? 1)) = String.mk mm := rfl
  rw [hmin]
  have hle : jsLe (some 12) (some (hh : Int)) = decide (12 ≤ hh) := by
    simp [jsLe]
  rw [hle]
  by_cases c0 : hh = 0
  · subst c0
    rfl
  · have n0 : (some (hh : Int) = some 0) = False := by
      simp only [Option.some.injEq, eq_iff_iff, iff_false]
      omega
    simp only [n0, if_false]
    by_cases c12 : hh ≤ 12
    · have np : isPositive (jsSub (some (hh : Int)) (some 12)) = false := by
        simp only [jsSub, isPositive, decide_eq_false_iff_not]
        omega
      rw [np]
      simp only [Bool.false_eq_true, if_false, numText_natCast]
      by_cases c : hh = 12
      · subst c
        rfl
      · have c11 : hh ≤ 11 := by omega
        have clt : hh < 12 := by omega
        have cge : ¬ 12 ≤ hh := by omega
        simp [c0, c, c11, clt, cge]
    · have pp : isPositive (jsSub (some (hh : Int)) (some 12)) = true := by
        simp only [jsSub, isPositive, decide_eq_true_eq]
        omega
      rw [pp]
      have es : jsSub (some (hh : Int)) (some 12) = some ((hh - 12 : Nat) : Int) := by
        simp only [jsSub, Option.some.injEq]
        omega
      rw [es]
      simp only [if_true, numText_natCast]
      have c : ¬ hh = 12 := by omega
      have c11 : ¬ hh ≤ 11 := by omega
      have clt : ¬ hh < 12 := by omega
      have cge : 12 ≤ hh := by omega
      simp [c0, c, c11, clt, cge]

/-- The time 13:30 is displayed as 1:30 PM. -/
theorem formatTimeDisplay_twelve_hour_witness :
    formatTimeDisplay (some (String.mk ['1', '3', ':', '3', '0'])) =
        toString (if 13 = 0 ∨ 13 = 12 then 12 else if 13 ≤ 11 then 13 else 13 - 12) ++ ":" ++
          String.mk ['3', '0'] ++ " " ++ (if 13 < 12 then "AM" else "PM") ∧
      1 ≤ (if 13 = 0 ∨ 13 = 12 then 12 else if 13 ≤ 11 then 13 else 13 - 12) ∧
      (if 13 = 0 ∨ 13 = 12 then 12 else if 13 ≤ 11 then 13 else 13 - 12) ≤ 12 ∧
      formatTimeDisplay (some "") = "" :=
  formatTimeDisplay_twelve_hour '1' '3' ['3', '0'] 13 (by decide) (by decide) (by decide)

/-- The examples of the tests for `formatTimeDisplay`. -/
theorem formatTimeDisplay_examples :
    formatTimeDisplay (some "09:00") = "9:00 AM" ∧ formatTimeDisplay (some "12:00") = "12:00 PM" ∧
      formatTimeDisplay (some "13:30") = "1:30 PM" ∧
      formatTimeDisplay (some "00:00") = "12:00 AM" ∧
      formatTimeDisplay (some "23:45") = "11:45 PM" ∧ formatTimeDisplay (some "") = "" := by
  decide

/-! ## The start of the week (C13) -/

theorem WeekDay_range (t : Int) : 0 ≤ WeekDay t ∧ WeekDay t ≤ 6 := by
  simp only [WeekDay]
  omega

/-- The date that `getWeekStart` formats: the given one moved back by its weekday. -/
theorem setDate_weekStart (tz t : Int) :
    setDate tz (some t) (jsSub (getDate tz (some t)) (getDay tz (some t))) =
      some (t - WeekDay (LocalTime tz t) * msPerDay) := by
  have h := setDate_getDate_add tz t (-WeekDay (LocalTime tz t))
  have e : jsAdd (getDate tz (some t)) (some (-WeekDay (LocalTime tz t))) =
      jsSub (getDate tz (some t)) (getDay tz (some t)) := by
    simp only [getDate, getDay, Option.map, jsAdd, jsSub, Option.some.injEq]
    omega
  rw [e] at h
  rw [h]
  congr 1
  simp only [msPerDay]
  omega

/-- C13: for every date `d`, `getWeekStart(d)` is the text `YYYY-MM-DD` (month and day
with two digits) of the Sunday on or before the local calendar day of `d`: that day is a
Sunday, is not after `d`, is at most 6 days before `d`, whatever month or year it falls
in, and it is the day of `d` when `d` is a Sunday. -/
theorem getWeekStart_sunday (tz t : Int) :
    getWeekStart tz (some t) =
        isoDateText (civilFromDays (Day (LocalTime tz t) - WeekDay (LocalTime tz t))) ∧
      (Day (LocalTime tz t) - WeekDay (LocalTime tz t) + 4) % 7 = 0 ∧
      Day (LocalTime tz t) - WeekDay (LocalTime tz t) ≤ Day (LocalTime tz t) ∧
      Day (LocalTime tz t) ≤ Day (LocalTime tz t) - WeekDay (LocalTime tz t) + 6 ∧
      ((Day (LocalTime tz t) + 4) % 7 = 0 →
        Day (LocalTime tz t) - WeekDay (LocalTime tz t) = Day (LocalTime tz t)) := by
  have hr := WeekDay_range (LocalTime tz t)
  refine ⟨?_, ?_, by omega, by omega, ?_⟩
  · have hd : Day (LocalTime tz (t - WeekDay (LocalTime tz t) * msPerDay)) =
        Day (LocalTime tz t) - WeekDay (LocalTime tz t) := by
      have e : t - WeekDay (LocalTime tz t) * msPerDay =
          t + -WeekDay (LocalTime tz t) * msPerDay := by ring
      rw [e, Day_LocalTime_add_days]
      ring
    simp only [getWeekStart, setDate_weekStart]
    simp only [getFullYear, getMonth, getDate, Option.map, jsAdd, YearFromTime, MonthFromTime,
      DateFromTime, hd, numText, isoDateText, sub_add_cancel]
  · simp only [WeekDay]
    omega
  · intro h
    have : WeekDay (LocalTime tz t) = 0 := by
      simp only [WeekDay]
      omega
    omega

/-- The examples of the tests in a zone at UTC, and a week that starts in the year
before. -/
theorem getWeekStart_examples :
    getWeekStart 0 (parseDate 0 "2024-12-04") = "2024-12-01" ∧
      getWeekStart 0 (parseDate 0 "2024-12-01") = "2024-12-01" ∧
      getWeekStart 0 (parseDate 0 "2025-01-01") = "2024-12-29" ∧
      getWeekStart 120 (parseDate 120 "2024-03-02T08:30") = "2024-02-25" := by
  decide

/-! ## Unresolvable instants (C15) -/

/-- A task whose start instant or end instant is not a valid date has the duration `NaN`:
`new Date` does not throw, so the `catch` branch that returns 0 is not taken, and
`Math.max(0, NaN)` is `NaN`. -/
theorem calculateTaskDuration_unresolved (tz : Int) (task : Task)
    (h : parseDate tz (templ task.date ++ "T" ++ templ task.startTime) = none ∨
      parseDate tz (templ task.endDate ++ "T" ++ templ task.endTime) = none) :
    calculateTaskDuration tz task = none := by
  simp only [calculateTaskDuration]
  rcases h with h | h
  · rw [h]
    cases parseDate tz (templ task.endDate ++ "T" ++ templ task.endTime) <;> rfl
  · rw [h]
    rfl

/-- C15, evaluated: for a task of the week that has neither `endDate` nor `endTime`,
`calculateTaskDuration` returns `NaN`, not 0, and with it the `totalDuration` of the
report, the `totalDuration` of the task's bucket and the average are `NaN`. -/
theorem calculateTaskDuration_openEnded :
    calculateTaskDuration 0 openEndedTask = none ∧
    ∃ r, generateWeeklyReport 0 [doneTask, openEndedTask] "2024-12-01" = .ok r ∧
      r.weekTasks = [doneTask, openEndedTask] ∧ r.totalTasks = 2 ∧
      r.totalDuration = none ∧ r.averageDailyDuration = none ∧
      r.daysOfWeek.map (fun b => b.totalDuration) =
        [some 0, none, some 0, some 0, some 0, some 0, some 0] := by
  refine ⟨by decide, _, rfl, ?_, ?_, ?_, ?_, ?_⟩ <;> decide

/-! ## Week totals and bucket totals (C17) -/

theorem sum_range_ite_le (n : Nat) (k : Option Nat) (c : Int) (hc : 0 ≤ c) :
    ((List.range n).map fun i => if (k == some i) = true then c else 0).sum ≤ c ∧
      0 ≤ ((List.range n).map fun i => if (k == some i) = true then c else 0).sum ∧
      (∀ j, j < n → k = some j →
        ((List.range n).map fun i => if (k == some i) = true then c else 0).sum = c) ∧
      ((∀ j, j < n → k ≠ some j) →
        ((List.range n).map fun i => if (k == some i) = true then c else 0).sum = 0) := by
  induction n with
  | zero =>
    refine ⟨by simpa using hc, by simp, ?_, by simp⟩
    intro j hj
    exact absurd hj (Nat.not_lt_zero _)
  | succ n ih =>
    obtain ⟨i1, i2, i3, i4⟩ := ih
    rw [List.range_succ, List.map_append, List.sum_append]
    simp only [List.map_cons, List.map_nil, List.sum_cons, List.sum_nil, add_zero]
    by_cases hk : k = some n
    · have hz := i4 (by
        intro j hj e
        rw [hk] at e
        simp only [Option.some.injEq] at e
        omega)
      rw [hz]
      simp only [hk, beq_self_eq_true, if_true, zero_add]
      refine ⟨le_refl _, hc, by simp, ?_⟩
      intro h
      exact absurd rfl (h n (Nat.lt_succ_self n))
    · have hb : (k == some n) = false := by simpa using hk
      simp only [hb, Bool.false_eq_true, if_false, add_zero]
      refine ⟨i1, i2, ?_, ?_⟩
      · intro j hj e
        have : j < n := by
          rcases Nat.lt_succ_iff_lt_or_eq.1 hj with h | h
          · exact h
          · rw [h] at e; exact absurd e hk
        exact i3 j this e
      · intro h
        exact i4 fun j hj => h j (Nat.lt_succ_of_lt hj)

theorem sum_filter_cons {α : Type} (idx : α → Option Nat) (f : α → Int) (x : α)
    (xs : List α) (i : Nat) :
    (((x :: xs).filter fun y => idx y == some i).map f).sum =
      (if (idx x == some i) = true then f x else 0) +
        ((xs.filter fun y => idx y == some i).map f).sum := by
  by_cases h : (idx x == some i) = true
  · simp [List.filter_cons, h]
  · simp [List.filter_cons, h]

/-- Sums over the disjoint classes of an index do not exceed the sum over the list, and
reach it when every element has an index below the bound. -/
theorem sum_classes_le {α : Type} (idx : α → Option Nat) (f : α → Int) (n : Nat)
    (l : List α) (hf : ∀ x ∈ l, 0 ≤ f x) :
    ((List.range n).map fun i => ((l.filter fun y => idx y == some i).map f).sum).sum ≤
        (l.map f).sum ∧
      ((∀ x ∈ l, ∃ i, i < n ∧ idx x = some i) →
        ((List.range n).map fun i => ((l.filter fun y => idx y == some i).map f).sum).sum =
          (l.map f).sum) := by
  induction l with
  | nil => simp
  | cons x xs ih =>
    obtain ⟨ih1, ih2⟩ := ih fun y hy => hf y (List.mem_cons_of_mem _ hy)
    have hx := hf x (List.mem_cons_self _ _)
    obtain ⟨s1, s2, s3, s4⟩ := sum_range_ite_le n (idx x) (f x) hx
    have e : ((List.range n).map fun i =>
        (((x :: xs).filter fun y => idx y == some i).map f).sum) =
        (List.range n).map fun i => (if (idx x == some i) = true then f x else 0) +
          ((xs.filter fun y => idx y == some i).map f).sum := by
      apply List.map_congr_left
      intro i _
      exact sum_filter_cons idx f x xs i
    rw [e, List.sum_map_add, List.map_cons, List.sum_cons]
    refine ⟨by omega, ?_⟩
    intro hall
    obtain ⟨j, hj, hjx⟩ := hall x (List.mem_cons_self _ _)
    rw [s3 j hj hjx, ih2 fun y hy => hall y (List.mem_cons_of_mem _ hy)]

theorem dateOnDayOf_eq_bucketIndex (tz w : Int) (i : Nat) (task : Task) :
    dateOnDayOf tz (w + i * msPerDay) task = (bucketIndex tz w task == some i) := by
  unfold dateOnDayOf bucketIndex
  cases newDate tz task.date with
  | none => rfl
  | some a =>
    simp only [Day_LocalTime_add_days]
    by_cases h : Day (LocalTime tz w) ≤ Day (LocalTime tz a)
    · simp only [h, if_true]
      rw [Bool.eq_iff_iff]
      simp only [decide_eq_true_eq, beq_iff_eq, Option.some.injEq]
      omega
    · simp only [h, if_false]
      rw [Bool.eq_iff_iff]
      simp only [decide_eq_true_eq, beq_iff_eq]
      constructor
      · intro e; omega
      · intro e; exact absurd e (by simp)

theorem bucketIndex_lt (tz w s : Int) (task : Task) (hs : newDate tz task.date = some s)
    (h1 : w ≤ s) (h2 : s ≤ w + 6 * msPerDay) :
    ∃ i, i < 7 ∧ bucketIndex tz w task = some i := by
  have d1 : Day (LocalTime tz w) ≤ Day (LocalTime tz s) := by
    simp only [Day, LocalTime, msPerDay, msPerMinute] at *
    omega
  have d2 : Day (LocalTime tz s) ≤ Day (LocalTime tz w) + 6 := by
    simp only [Day, LocalTime, msPerDay, msPerMinute] at *
    omega
  refine ⟨(Day (LocalTime tz s) - Day (LocalTime tz w)).toNat, by omega, ?_⟩
  simp only [bucketIndex, hs, d1, if_true]

theorem calculateTaskDuration_nonneg (tz : Int) (task : Task) :
    0 ≤ (calculateTaskDuration tz task).getD 0 := by
  simp only [calculateTaskDuration]
  cases jsSub (parseDate tz (templ task.endDate ++ "T" ++ templ task.endTime))
    (parseDate tz (templ task.date ++ "T" ++ templ task.startTime)) with
  | none => simp
  | some ms => simp

theorem durationTotal_eq_some (tz : Int) (tasks : List Task) (total : Int)
    (h : durationTotal tz tasks = some total) :
    (∀ task ∈ tasks, (calculateTaskDuration tz task).isSome = true) ∧
      total = (tasks.map fun task => (calculateTaskDuration tz task).getD 0).sum := by
  unfold durationTotal at h
  split at h
  · rename_i hall
    simp only [Option.some.injEq] at h
    exact ⟨fun task ht => List.all_eq_true.1 hall task ht, h.symm⟩
  · exact absurd h (by simp)

theorem durationTotal_of_all (tz : Int) (tasks : List Task)
    (h : ∀ task ∈ tasks, (calculateTaskDuration tz task).isSome = true) :
    durationTotal tz tasks =
      some (tasks.map fun task => (calculateTaskDuration tz task).getD 0).sum := by
  unfold durationTotal
  rw [if_pos (List.all_eq_true.2 h)]

theorem foldl_bucket_durations (bs : List DayBucket) (acc : Int)
    (h : ∀ b ∈ bs, b.totalDuration.isSome = true) :
    bs.foldl (fun a b => jsAdd a b.totalDuration) (some acc) =
      some (acc + (bs.map fun b => b.totalDuration.getD 0).sum) := by
  induction bs generalizing acc with
  | nil => simp
  | cons b bs ih =>
    obtain ⟨v, hv⟩ := Option.isSome_iff_exists.1 (h b (List.mem_cons_self _ _))
    rw [List.foldl_cons, hv, show jsAdd (some acc) (some v) = some (acc + v) from rfl,
      ih _ fun c hc => h c (List.mem_cons_of_mem _ hc)]
    simp only [List.map_cons, List.sum_cons, hv, Option.getD_some, Option.some.injEq]
    omega

theorem bucket_lists (tz w : Int) (r : WeeklyReport)
    (h2 : r.daysOfWeek = (List.range 7).map (dayBucket tz (some w) r.weekTasks)) :
    (r.daysOfWeek.map fun b => (b.taskCount : Int)) =
        (List.range 7).map (fun i =>
          ((r.weekTasks.filter fun y => bucketIndex tz w y == some i).map
            fun _ => (1 : Int)).sum) ∧
      (r.daysOfWeek.map fun b => b.totalDuration) =
        (List.range 7).map (fun i =>
          durationTotal tz (r.weekTasks.filter fun y => bucketIndex tz w y == some i)) := by
  have hf : ∀ i : Nat, r.weekTasks.filter (dateOnDayOf tz (w + i * msPerDay)) =
      r.weekTasks.filter fun y => bucketIndex tz w y == some i := fun i =>
    List.filter_congr fun t _ => dateOnDayOf_eq_bucketIndex tz w i t
  rw [h2, List.map_map, List.map_map]
  constructor
  · apply List.map_congr_left
    intro i _
    simp only [Function.comp, (dayBucket_eq tz w r.weekTasks i).2.2.1, hf]
    simp
  · apply List.map_congr_left
    intro i _
    simp only [Function.comp, (dayBucket_eq tz w r.weekTasks i).2.2.2.1, hf, sumDuration_eq]

/-- What holds of C17 on the code: for a valid week start the bucket counts sum to at most
`totalTasks`, with equality when every task of `weekTasks` has its `date` inside
`[W, W + 6 days]`; and when `totalDuration` is a number, the bucket durations sum to a
number that is at most `totalDuration`, with equality under the same condition. -/
theorem bucket_sums (tz : Int) (allTasks : List Task) (weekStartStr : String) (w : Int)
    (hW : parseDate tz weekStartStr = some w) :
    ∃ r, generateWeeklyReport tz allTasks weekStartStr = .ok r ∧
      bucketCountSum r ≤ r.totalTasks ∧
      ((∀ task ∈ r.weekTasks, ∃ s, newDate tz task.date = some s ∧ w ≤ s ∧
          s ≤ w + 6 * msPerDay) → bucketCountSum r = r.totalTasks) ∧
      ∀ total, r.totalDuration = some total →
        ∃ s, bucketDurationSum r = some s ∧ s ≤ total ∧
          ((∀ task ∈ r.weekTasks, ∃ s, newDate tz task.date = some s ∧ w ≤ s ∧
            s ≤ w + 6 * msPerDay) → s = total) := by
  obtain ⟨r, hr, _, h2⟩ := daysOfWeek_eq tz allTasks weekStartStr w hW
  obtain ⟨r2, _, _, hr2, _, _, _, _, h5, _, h7, _⟩ :=
    generateWeeklyReport_fields tz allTasks weekStartStr
  have e := report_unique hr2 hr
  subst e
  obtain ⟨hc, hd⟩ := bucket_lists tz w r2 h2
  have hidx : (∀ task ∈ r2.weekTasks, ∃ s, newDate tz task.date = some s ∧ w ≤ s ∧
      s ≤ w + 6 * msPerDay) → ∀ x ∈ r2.weekTasks, ∃ i, i < 7 ∧ bucketIndex tz w x = some i := by
    intro h x hx
    obtain ⟨s, hs, h1, h2⟩ := h x hx
    exact bucketIndex_lt tz w s x hs h1 h2
  have cnt := sum_classes_le (bucketIndex tz w) (fun _ => (1 : Int)) 7 r2.weekTasks
    (fun _ _ => zero_le_one)
  have len : (r2.weekTasks.map fun _ => (1 : Int)).sum = (r2.weekTasks.length : Int) := by
    simp
  have cs : ((bucketCountSum r2 : Nat) : Int) =
      ((List.range 7).map fun i =>
        ((r2.weekTasks.filter fun y => bucketIndex tz w y == some i).map
          fun _ => (1 : Int)).sum).sum := by
    rw [← hc, bucketCountSum, Nat.cast_list_sum, List.map_map]
    rfl
  refine ⟨r2, hr, ?_, ?_, ?_⟩
  · have := cnt.1
    rw [← cs, len, ← h5] at this
    exact_mod_cast this
  · intro h
    have := cnt.2 (hidx h)
    rw [← cs, len, ← h5] at this
    exact_mod_cast this
  · intro total ht
    rw [h7, sumDuration_eq] at ht
    obtain ⟨hall, htot⟩ := durationTotal_eq_some tz _ total ht
    have dur := sum_classes_le (bucketIndex tz w)
      (fun task => (calculateTaskDuration tz task).getD 0) 7 r2.weekTasks
      (fun x _ => calculateTaskDuration_nonneg tz x)
    have hb : ∀ i : Nat,
        durationTotal tz (r2.weekTasks.filter fun y => bucketIndex tz w y == some i) =
          some ((r2.weekTasks.filter fun y => bucketIndex tz w y == some i).map
            fun task => (calculateTaskDuration tz task).getD 0).sum := fun i =>
      durationTotal_of_all tz _ fun task hm => hall task (List.mem_filter.1 hm).1
    have hsome : ∀ b ∈ r2.daysOfWeek, b.totalDuration.isSome = true := by
      intro b hm
      have : b.totalDuration ∈ r2.daysOfWeek.map fun b => b.totalDuration :=
        List.mem_map_of_mem _ hm
      rw [hd, List.mem_map] at this
      obtain ⟨i, _, hi⟩ := this
      rw [← hi, hb i]
      rfl
    have hsum : (r2.daysOfWeek.map fun b => b.totalDuration.getD 0) =
        (List.range 7).map fun i =>
          ((r2.weekTasks.filter fun y => bucketIndex tz w y == some i).map
            fun task => (calculateTaskDuration tz task).getD 0).sum := by
      have := congrArg (List.map fun o : JsInt => o.getD 0) hd
      rw [List.map_map, List.map_map] at this
      rw [show (fun b : DayBucket => b.totalDuration.getD 0) =
        (fun o : JsInt => o.getD 0) ∘ fun b => b.totalDuration from rfl, this]
      apply List.map_congr_left
      intro i _
      simp only [Function.comp, hb i, Option.getD_some]
    refine ⟨_, foldl_bucket_durations r2.daysOfWeek 0 hsome, ?_, ?_⟩
    · rw [hsum, htot, zero_add]
      exact dur.1
    · intro h
      rw [hsum, htot, zero_add]
      exact dur.2 (hidx h)

/-- C17, evaluated: a week with a one-hour task and a task without end has bucket
durations that sum to `NaN` and a `totalDuration` that is `NaN`, so the sum is not at most
`totalDuration` (`NaN <= NaN` is false), while the bucket counts sum to `totalTasks`. -/
theorem bucket_durations_openEnded :
    ∃ r, generateWeeklyReport 0 [doneTask, openEndedTask] "2024-12-01" = .ok r ∧
      bucketCountSum r = 2 ∧ r.totalTasks = 2 ∧
      bucketDurationSum r = none ∧ r.totalDuration = none ∧
      jsLe (bucketDurationSum r) r.totalDuration = false := by
  refine ⟨_, rfl, ?_, ?_, ?_, ?_, ?_⟩ <;> decide

/-- A task that starts before the week and ends inside it is counted in the week totals
and placed in no bucket: the bucket counts sum to 0 and `totalTasks` is 1, the bucket
durations sum to 0 and `totalDuration` is 4380 minutes. -/
theorem bucket_sums_strict :
    ∃ r, generateWeeklyReport 0 [spanningTask] "2024-12-01" = .ok r ∧
      bucketCountSum r = 0 ∧ r.totalTasks = 1 ∧
      bucketDurationSum r = some 0 ∧ r.totalDuration = some 4380 := by
  refine ⟨_, rfl, ?_, ?_, ?_, ?_⟩ <;> decide

/-! ## The calendar parser (C16) -/

theorem length_tasksOfEvents (newId : Nat → String) (k : Nat) (events : List EventFields) :
    (tasksOfEvents newId k events).length = events.length := by
  induction events generalizing k with
  | nil => rfl
  | cons e es ih => simp only [tasksOfEvents, List.length_cons, ih]

/-- Lines without a begin marker of an event have no event block. -/
theorem eventBlocksFrom_none_of_no_begin (lines : List (List Char))
    (h : "BEGIN:VEVENT".toList ∉ lines) : eventBlocksFrom none lines = [] := by
  induction lines with
  | nil => rfl
  | cons line rest ih =>
    have h1 : line ≠ "BEGIN:VEVENT".toList := fun e => h (by rw [e]; exact List.mem_cons_self _ _)
    have h2 := ih fun m => h (List.mem_cons_of_mem _ m)
    simp only [eventBlocksFrom, h1, if_false, h2]
    split <;> rfl

/-- C16: the calendar parser fails with the format error for every text without a
container marker; for every text with a container marker and no event block it succeeds
with the empty sequence; and with a container marker it always succeeds, an incomplete
event being left out of the result, whose length is the number of complete events. -/
theorem parseIcsFile_container (newId : Nat → String) (text : String) :
    (hasContainerMarker text = false → parseIcsFile newId text = .error .formatError) ∧
      (hasContainerMarker text = true →
        eventBlocks (unfoldLines (icsLines text.toList)) = [] →
        parseIcsFile newId text = .ok []) ∧
      (hasContainerMarker text = true →
        ∃ tasks, parseIcsFile newId text = .ok tasks ∧
          tasks.length =
            ((eventBlocks (unfoldLines (icsLines text.toList))).filterMap completeEvent).length) := by
  refine ⟨?_, ?_, ?_⟩
  · intro h
    simp only [parseIcsFile, h, Bool.false_eq_true, if_false]
  · intro h hb
    simp only [parseIcsFile, h, if_true, hb, List.filterMap_nil, tasksOfEvents]
  · intro h
    refine ⟨tasksOfEvents newId 0
      ((eventBlocks (unfoldLines (icsLines text.toList))).filterMap completeEvent), ?_,
      length_tasksOfEvents _ _ _⟩
    simp only [parseIcsFile, h, if_true]

/-- The empty calendar of the tests: a container marker, no event block, no record. -/
theorem parseIcsFile_container_witness :
    hasContainerMarker "BEGIN:VCALENDAR\nVERSION:2.0\nEND:VCALENDAR" = true ∧
      eventBlocks (unfoldLines (icsLines "BEGIN:VCALENDAR\nVERSION:2.0\nEND:VCALENDAR".toList)) =
        [] ∧
      parseIcsFile (fun k => toString k) "BEGIN:VCALENDAR\nVERSION:2.0\nEND:VCALENDAR" = .ok [] :=
  ⟨by decide, by decide,
    (parseIcsFile_container (fun k => toString k)
      "BEGIN:VCALENDAR\nVERSION:2.0\nEND:VCALENDAR").2.1 (by decide) (by decide)⟩

/-- The tests `handles empty ICS file`, `throws error for invalid ICS content` and `skips
incomplete events` of the parser. -/
theorem parseIcsFile_examples (newId : Nat → String) :
    parseIcsFile newId "BEGIN:VCALENDAR\nVERSION:2.0\nEND:VCALENDAR" = .ok [] ∧
      parseIcsFile newId "This is not a valid ICS file" = .error .formatError ∧
      parseIcsFile newId
          ("BEGIN:VCALENDAR\nVERSION:2.0\nBEGIN:VEVENT\nDTSTART:20241201T100000\n" ++
            "SUMMARY:Event without end time\nEND:VEVENT\nBEGIN:VEVENT\n" ++
            "DTSTART:20241202T100000\nDTEND:20241202T110000\nSUMMARY:Complete Event\n" ++
            "END:VEVENT\nEND:VCALENDAR") =
        .ok [{ id := newId 0, event := "Complete Event", description := none,
               date := some "2024-12-02", startTime := some "10:00",
               endDate := some "2024-12-02", endTime := some "11:00", completed := false }] := by
  refine ⟨?_, ?_, ?_⟩ <;> rfl

/-! ## The text of `getWeekStart` read back as a date -/

theorem dayOfYear_leap (doe : Int) (h0 : 0 ≤ doe) (h1 : doe < 146097)
    (h : dayOfYear doe = 365) :
    (yearOfEra doe + 1) % 4 = 0 ∧ ((yearOfEra doe + 1) % 100 ≠ 0 ∨ yearOfEra doe + 1 = 400) := by
  simp only [yearOfEra, dayOfYear] at *
  generalize hcent : min 3 (doe / 36524) = cent at *
  generalize hdoc : doe - cent * 36524 = doc at *
  generalize hquad : doc / 1461 = quad at *
  generalize hdoq : doc - quad * 1461 = doq at *
  generalize hyoq : min 3 (doq / 365) = yoq at *
  have c1 : 0 ≤ cent ∧ cent ≤ 3 := by omega
  have c2 : 0 ≤ doc ∧ doc ≤ 36524 := by omega
  have c3 : 0 ≤ quad ∧ quad ≤ 24 := by omega
  have c4 : 0 ≤ doq ∧ doq ≤ 1460 := by omega
  have c5 : yoq = 3 := by omega
  constructor
  · omega
  · by_cases hq : quad = 24
    · right
      have : cent = 3 := by omega
      omega
    · left
      omega

/-- The calendar date of a day number has a month from 1 to 12 and a day from 1 to the
length of the month. -/
theorem civilFromDays_valid (z : Int) :
    1 ≤ (civilFromDays z).2.1 ∧ (civilFromDays z).2.1 ≤ 12 ∧ 1 ≤ (civilFromDays z).2.2 ∧
      (0 ≤ (civilFromDays z).1 →
        (civilFromDays z).2.2 ≤
          daysInMonth (civilFromDays z).1.toNat (civilFromDays z).2.1.toNat) := by
  have hd0 : 0 ≤ z + 719468 - (z + 719468) / 146097 * 146097 := by omega
  have hd1 : z + 719468 - (z + 719468) / 146097 * 146097 < 146097 := by omega
  obtain ⟨k1, k2, k3, k4, _⟩ := yearOfEra_dayOfYear _ hd0 hd1
  have kl := dayOfYear_leap _ hd0 hd1
  simp only [civilFromDays]
  generalize yearOfEra (z + 719468 - (z + 719468) / 146097 * 146097) = yoe at *
  generalize dayOfYear (z + 719468 - (z + 719468) / 146097 * 146097) = doy at *
  generalize (z + 719468) / 146097 = era at *
  generalize hmp : (5 * doy + 2) / 153 = mp
  have m1 : 0 ≤ mp ∧ mp ≤ 11 := by omega
  obtain ⟨m0, m11⟩ := m1
  interval_cases mp <;> simp only [daysInMonth, isLeapYear] <;> norm_num <;>
    (try omega)

theorem twoDigits_digitChar :
    ∀ a : Fin 10, ∀ b : Fin 10,
      twoDigits (Nat.digitChar a) (Nat.digitChar b) = some (10 * a.val + b.val) := by
  decide

theorem toDigits_two (n : Nat) (h : n < 100) (h10 : 10 ≤ n) :
    Nat.toDigits 10 n = [Nat.digitChar (n / 10), Nat.digitChar (n % 10)] := by
  obtain ⟨k, rfl⟩ : ∃ k, n = k + 1 := ⟨n - 1, by omega⟩
  have e1 : (k + 1) / 10 ≠ 0 := by omega
  have e2 : (k + 1) / 10 / 10 = 0 := by omega
  have e3 : (k + 1) / 10 % 10 = (k + 1) / 10 := by omega
  simp only [Nat.toDigits, Nat.toDigitsCore, e1, e2, e3, if_false, if_true]

theorem toDigits_one (n : Nat) (h : n < 10) : Nat.toDigits 10 n = [Nat.digitChar n] := by
  have e1 : n / 10 = 0 := by omega
  have e2 : n % 10 = n := by omega
  simp only [Nat.toDigits, Nat.toDigitsCore, e1, e2, if_true]

theorem toDigits_four (n : Nat) (h : n < 10000) (h1000 : 1000 ≤ n) :
    Nat.toDigits 10 n =
      [Nat.digitChar (n / 1000), Nat.digitChar (n / 100 % 10), Nat.digitChar (n / 10 % 10),
        Nat.digitChar (n % 10)] := by
  obtain ⟨k, rfl⟩ : ∃ k, n = k + 3 := ⟨n - 3, by omega⟩
  have e1 : (k + 3) / 10 ≠ 0 := by omega
  have e2 : (k + 3) / 10 / 10 ≠ 0 := by omega
  have e3 : (k + 3) / 10 / 10 / 10 ≠ 0 := by omega
  have e4 : (k + 3) / 10 / 10 / 10 / 10 = 0 := by omega
  have f1 : (k + 3) / 10 / 10 / 10 % 10 = (k + 3) / 1000 := by omega
  have f2 : (k + 3) / 10 / 10 % 10 = (k + 3) / 100 % 10 := by omega
  simp only [Nat.toDigits, Nat.toDigitsCore, e1, e2, e3, e4, f1, f2, if_false, if_true]

theorem twoDigits_of_lt (a b : Nat) (ha : a < 10) (hb : b < 10) :
    twoDigits (Nat.digitChar a) (Nat.digitChar b) = some (10 * a + b) :=
  twoDigits_digitChar ⟨a, ha⟩ ⟨b, hb⟩

theorem toString_natCast (n : Nat) : (toString (n : Int)).toList = Nat.toDigits 10 n := rfl

theorem padStart_two (n : Nat) (h : n < 100) :
    (padStart (toString (n : Int)) 2 '0').toList =
      [Nat.digitChar (n / 10), Nat.digitChar (n % 10)] := by
  simp only [padStart, toString_natCast]
  by_cases h10 : n < 10
  · have e1 : n / 10 = 0 := by omega
    have e2 : n % 10 = n := by omega
    rw [toDigits_one n h10, e1, e2]
    rfl
  · rw [toDigits_two n h (by omega)]
    rfl

theorem daysInMonth_le (y m : Nat) : daysInMonth y m ≤ 31 := by
  simp only [daysInMonth]
  split_ifs <;> omega

/-- The text `YYYY-MM-DD` of a calendar date with a year of four digits is read by the
date parser as that date. -/
theorem isoDate_isoDateText (y m d : Nat) (hy : 1000 ≤ y ∧ y ≤ 9999) (hm : 1 ≤ m ∧ m ≤ 12)
    (hd : 1 ≤ d ∧ d ≤ daysInMonth y m) :
    isoDate (isoDateText ((y : Int), (m : Int), (d : Int))).toList =
      some (daysFromCivil y m d) := by
  have hd31 := daysInMonth_le y m
  have ht : (isoDateText ((y : Int), (m : Int), (d : Int))).toList =
      [Nat.digitChar (y / 1000), Nat.digitChar (y / 100 % 10), Nat.digitChar (y / 10 % 10),
        Nat.digitChar (y % 10), '-', Nat.digitChar (m / 10), Nat.digitChar (m % 10), '-',
        Nat.digitChar (d / 10), Nat.digitChar (d % 10)] := by
    have e : (isoDateText ((y : Int), (m : Int), (d : Int))).toList =
        (toString (y : Int)).toList ++ '-' :: ((padStart (toString (m : Int)) 2 '0').toList ++
          '-' :: (padStart (toString (d : Int)) 2 '0').toList) := by
      simp [isoDateText, String.toList]
    rw [e, toString_natCast, toDigits_four y (by omega) hy.1, padStart_two m (by omega),
      padStart_two d (by omega)]
    rfl
  rw [ht]
  have y1 := twoDigits_of_lt (y / 1000) (y / 100 % 10) (by omega) (by omega)
  have y2 := twoDigits_of_lt (y / 10 % 10) (y % 10) (by omega) (by omega)
  have m1 := twoDigits_of_lt (m / 10) (m % 10) (by omega) (by omega)
  have d1 := twoDigits_of_lt (d / 10) (d % 10) (by omega) (by omega)
  have ey : 100 * (10 * (y / 1000) + y / 100 % 10) + (10 * (y / 10 % 10) + y % 10) = y := by
    omega
  have em : 10 * (m / 10) + m % 10 = m := by omega
  have ed : 10 * (d / 10) + d % 10 = d := by omega
  simp only [isoDate, y1, y2, m1, d1, ey, em, ed]
  rw [if_pos ⟨trivial, trivial, hm.1, hm.2, hd.1, hd.2⟩]

/-- For a date whose week starts in a year from 1000 to 9999, the text that `getWeekStart`
returns is read by `new Date` as midnight (UTC) of the Sunday on or before the date. -/
theorem parseDate_getWeekStart (tz t : Int)
    (hy : 1000 ≤ (civilFromDays (Day (LocalTime tz t) - WeekDay (LocalTime tz t))).1 ∧
      (civilFromDays (Day (LocalTime tz t) - WeekDay (LocalTime tz t))).1 ≤ 9999) :
    parseDate tz (getWeekStart tz (some t)) =
      some ((Day (LocalTime tz t) - WeekDay (LocalTime tz t)) * msPerDay) := by
  rw [(getWeekStart_sunday tz t).1]
  obtain ⟨v1, v2, v3, v4⟩ :=
    civilFromDays_valid (Day (LocalTime tz t) - WeekDay (LocalTime tz t))
  have rt := daysFromCivil_civilFromDays (Day (LocalTime tz t) - WeekDay (LocalTime tz t))
  generalize civilFromDays (Day (LocalTime tz t) - WeekDay (LocalTime tz t)) = c at *
  obtain ⟨y, m, d⟩ := c
  simp only at hy v1 v2 v3 v4 rt
  obtain ⟨yn, rfl⟩ : ∃ n : Nat, y = n := ⟨y.toNat, by omega⟩
  obtain ⟨mn, rfl⟩ : ∃ n : Nat, m = n := ⟨m.toNat, by omega⟩
  obtain ⟨dn, rfl⟩ : ∃ n : Nat, d = n := ⟨d.toNat, by omega⟩
  simp only [Int.toNat_ofNat] at v4
  have h := isoDate_isoDateText yn mn dn (by omega) (by omega)
    ⟨by omega, by exact_mod_cast v4 (by omega)⟩
  rw [parseDate_dateOnly tz _ _ h, rt]

/-! ## The host of a fixed offset

On the host `Host.fixed tz` the functions of a host are the functions of the fixed offset
`tz`. -/

theorem LocalTime_fixed (tz t : Int) : (Host.fixed tz).LocalTime t = LocalTime tz t := rfl

theorem UTC_fixed (tz t : Int) : (Host.fixed tz).UTC t = UTC tz t := by
  simp [Host.UTC, Host.possibleInstants, Host.fixed, Host.LocalTime, Host.offsetAt, UTC]

theorem getDate_fixed (tz : Int) : (Host.fixed tz).getDate = getDate tz := rfl

theorem getDay_fixed (tz : Int) : (Host.fixed tz).getDay = getDay tz := rfl

theorem toDateString_fixed (tz : Int) : (Host.fixed tz).toDateString = toDateString tz := rfl

theorem formatDateForReport_fixed (tz : Int) :
    (Host.fixed tz).formatDateForReport = formatDateForReport tz := rfl

theorem setDate_fixed (tz : Int) : (Host.fixed tz).setDate = setDate tz := by
  funext d dt
  cases d <;> cases dt <;> simp [Host.setDate, setDate, UTC_fixed, LocalTime_fixed]

theorem parseDateChars_fixed (tz : Int) (cs : List Char) :
    (Host.fixed tz).parseDateChars cs = parseDateChars tz cs := by
  simp only [Host.parseDateChars, parseDateChars, UTC_fixed]

theorem parseDate_fixed (tz : Int) : (Host.fixed tz).parseDate = parseDate tz := by
  funext text
  simp only [Host.parseDate, parseDate, parseDateChars_fixed]
  cases parseDateChars tz text.toList <;> rfl

theorem newDate_fixed (tz : Int) : (Host.fixed tz).newDate = newDate tz := by
  funext v
  cases v with
  | none => rfl
  | some text => simp only [Host.newDate, newDate, parseDate_fixed]

theorem calculateTaskDuration_fixed (tz : Int) :
    (Host.fixed tz).calculateTaskDuration = calculateTaskDuration tz := by
  funext task
  simp only [Host.calculateTaskDuration, calculateTaskDuration, parseDate_fixed]

theorem taskInWeek_fixed (tz : Int) : (Host.fixed tz).taskInWeek = taskInWeek tz := by
  funext weekStart weekEnd task
  simp only [Host.taskInWeek, taskInWeek, newDate_fixed]

theorem compareStart_fixed (tz : Int) : (Host.fixed tz).compareStart = compareStart tz := by
  funext a b
  simp only [Host.compareStart, compareStart, parseDate_fixed]

theorem sumDuration_fixed (tz : Int) : (Host.fixed tz).sumDuration = sumDuration tz := by
  funext tasks
  simp only [Host.sumDuration, sumDuration, calculateTaskDuration_fixed]

theorem dayBucket_fixed (tz : Int) : (Host.fixed tz).dayBucket = dayBucket tz := by
  funext weekStart sortedTasks i
  simp only [Host.dayBucket, dayBucket, setDate_fixed, getDate_fixed, getDay_fixed,
    toDateString_fixed, formatDateForReport_fixed, newDate_fixed, sumDuration_fixed]

/-- The report of the host `Host.fixed tz` is the report of the fixed offset `tz`. -/
theorem generateWeeklyReport_fixed (tz : Int) (allTasks : List Task) (weekStartStr : String) :
    (Host.fixed tz).generateWeeklyReport allTasks weekStartStr =
      generateWeeklyReport tz allTasks weekStartStr := by
  simp only [Host.generateWeeklyReport, generateWeeklyReport, setDate_fixed, getDate_fixed,
    formatDateForReport_fixed, parseDate_fixed, taskInWeek_fixed, compareStart_fixed,
    dayBucket_fixed, sumDuration_fixed]

/-- The function returns a report on every host and for every input, and these are its
fields. -/
theorem report_fields (h : Host) (allTasks : List Task) (weekStartStr : String) :
    ∃ r b0 bs, h.generateWeeklyReport allTasks weekStartStr = .ok r ∧
      r.weekStartDate = h.parseDate weekStartStr ∧
      r.weekEndDate = h.setDate (h.parseDate weekStartStr)
        (jsAdd (h.getDate (h.parseDate weekStartStr)) (some 6)) ∧
      r.weekTasks = sort h.compareStart
        (allTasks.filter (h.taskInWeek r.weekStartDate r.weekEndDate)) ∧
      r.daysOfWeek = (List.range 7).map (h.dayBucket r.weekStartDate r.weekTasks) ∧
      r.totalTasks = r.weekTasks.length ∧
      r.completedTasks = (r.weekTasks.filter fun task => task.completed).length ∧
      r.totalDuration = h.sumDuration r.weekTasks ∧
      r.averageDailyDuration =
        (if r.totalTasks > 0 then r.totalDuration.map fun minutes => F64.div minutes.toNat 7
          else some ⟨0, 0⟩) ∧
      r.completionRate =
        (if r.totalTasks > 0 then Math.round ((F64.div r.completedTasks r.totalTasks).mul 100)
          else 0) ∧
      r.daysOfWeek = b0 :: bs ∧
      r.busiestDay =
        (if (bs.foldl busier b0).taskCount > 0 then some (bs.foldl busier b0) else none) := by
  have h7 : List.range 7 = [0, 1, 2, 3, 4, 5, 6] := by decide
  simp only [Host.generateWeeklyReport, h7, List.map, reduce]
  exact ⟨_, _, _, rfl, rfl, rfl, rfl, rfl, rfl, rfl, rfl, rfl, rfl, rfl, rfl⟩

/-! ## Durations on a host (C5) -/

theorem host_parseDateChars_dateTime (h : Host) (d t : List Char) (day ms : Int)
    (hd : isoDate d = some day) (ht : isoTime t = some ms) :
    h.parseDateChars (d ++ 'T' :: t) = some (h.instantOf day ms) := by
  have hl := isoDate_length hd
  have h1 : (d ++ 'T' :: t).length ≠ 10 := by
    simp only [List.length_append, List.length_cons]; omega
  have h2 : (d ++ 'T' :: t).get? 10 = some 'T' := by
    rw [← hl, List.get?_eq_getElem?, List.getElem?_append_right (le_refl _)]
    simp
  have h3 : (d ++ 'T' :: t).take 10 = d := by
    rw [← hl]; simp
  have h4 : (d ++ 'T' :: t).drop 11 = t := by
    have : 11 = d.length + 1 := by omega
    rw [this, ← List.drop_drop]
    simp
  simp only [Host.parseDateChars, h1, if_false, h2, if_true, h3, h4, hd, ht, MakeDate,
    Host.instantOf]

/-- The instant of a template `date T time` with a date `YYYY-MM-DD` and a time `HH:mm`
or `HH:mm:ss`, on a host: the instant of this local time. -/
theorem host_parseDate_dateTime (h : Host) (d t : String) (day ms : Int)
    (hd : isoDate d.toList = some day) (ht : isoTime t.toList = some ms) :
    h.parseDate (d ++ "T" ++ t) = some (h.instantOf day ms) := by
  have : (d ++ "T" ++ t).toList = d.toList ++ 'T' :: t.toList := by
    simp [String.toList]
  rw [Host.parseDate, this, host_parseDateChars_dateTime h _ _ day ms hd ht]

/-- C5: on every host, for a task with well-formed `date`, `startTime`, `endDate` and
`endTime`, `calculateTaskDuration` returns the number `n` of whole minutes from the start
instant to the end instant when the end instant is not before the start instant, and 0 when
the end instant is before the start instant; the result is never negative.  The instants
are those of the local times in the zone of the host, so that an hour skipped or repeated
by a change of the clocks counts as the time that really passes. -/
theorem calculateTaskDuration_elapsed_minutes (h : Host) (task : Task)
    (date startTime endDate endTime : String) (d1 t1 d2 t2 : Int)
    (h1 : task.date = some date) (h2 : task.startTime = some startTime)
    (h3 : task.endDate = some endDate) (h4 : task.endTime = some endTime)
    (hd1 : isoDate date.toList = some d1) (ht1 : isoTime startTime.toList = some t1)
    (hd2 : isoDate endDate.toList = some d2) (ht2 : isoTime endTime.toList = some t2) :
    ∃ n, h.calculateTaskDuration task = some n ∧ 0 ≤ n ∧
      (h.instantOf d1 t1 ≤ h.instantOf d2 t2 →
        n * msPerMinute ≤ h.instantOf d2 t2 - h.instantOf d1 t1 ∧
        h.instantOf d2 t2 - h.instantOf d1 t1 < (n + 1) * msPerMinute) ∧
      (h.instantOf d2 t2 < h.instantOf d1 t1 → n = 0) := by
  have s := host_parseDate_dateTime h date startTime d1 t1 hd1 ht1
  have e := host_parseDate_dateTime h endDate endTime d2 t2 hd2 ht2
  simp only [Host.calculateTaskDuration, h1, h2, h3, h4, templ, s, e, jsSub, Option.map]
  generalize h.instantOf d1 t1 = a
  generalize h.instantOf d2 t2 = b
  refine ⟨_, rfl, le_max_left _ _, ?_, ?_⟩
  · intro k
    simp only [msPerMinute] at *
    omega
  · intro k
    simp only [msPerMinute] at *
    omega

/-- In New York, the task from 01:00 to 03:00 of the day the clocks go forward: the start
is 06:00 UTC and the end 07:00 UTC. -/
theorem calculateTaskDuration_elapsed_minutes_witness :
    newYork.instantOf 19792 3600000 = 1710050400000 ∧
    newYork.instantOf 19792 10800000 = 1710054000000 ∧
    ∃ n, newYork.calculateTaskDuration springTask = some n ∧ 0 ≤ n ∧
      (newYork.instantOf 19792 3600000 ≤ newYork.instantOf 19792 10800000 →
        n * msPerMinute ≤ newYork.instantOf 19792 10800000 - newYork.instantOf 19792 3600000 ∧
        newYork.instantOf 19792 10800000 - newYork.instantOf 19792 3600000 <
          (n + 1) * msPerMinute) ∧
      (newYork.instantOf 19792 10800000 < newYork.instantOf 19792 3600000 → n = 0) :=
  ⟨by decide, by decide,
    calculateTaskDuration_elapsed_minutes newYork springTask "2024-03-10" "01:00" "2024-03-10"
      "03:00" 19792 3600000 19792 10800000 rfl rfl rfl rfl (by decide) (by decide)
      (by decide) (by decide)⟩

/-- The durations across the two changes of the clocks of New York in 2024 are the minutes
that pass, 60 and 210; on a host at a fixed offset the same tasks last 120 and 150 minutes. -/
theorem calculateTaskDuration_daylight_saving :
    newYork.calculateTaskDuration springTask = some 60 ∧
    newYork.calculateTaskDuration autumnTask = some 210 ∧
    (Host.fixed (-300)).calculateTaskDuration springTask = some 120 ∧
    (Host.fixed (-300)).calculateTaskDuration autumnTask = some 150 := by
  refine ⟨?_, ?_, ?_, ?_⟩ <;> decide

/-! ## The order of the week's tasks on a host (C7) -/

theorem host_startKey (h : Host) (task : Task) (k : Int)
    (hk : h.startInstant task = some k) :
    h.parseDate (templ task.date ++ "T" ++ orDefault task.startTime "00:00") = some k := by
  unfold Host.startInstant at hk
  cases hd : task.date with
  | none => rw [hd] at hk; exact absurd hk (by simp)
  | some date =>
    rw [hd] at hk
    simp only at hk
    cases h1 : isoDate date.toList with
    | none => rw [h1] at hk; exact absurd hk (by simp)
    | some day =>
      cases h2 : isoTime (orDefault task.startTime "00:00").toList with
      | none => rw [h1, h2] at hk; exact absurd hk (by simp)
      | some ms =>
        rw [h1, h2] at hk
        simp only [Option.some.injEq] at hk
        rw [← hk]
        exact host_parseDate_dateTime h date _ day ms h1 h2

theorem host_compareStart (h : Host) (a b : Task) (ka kb : Int)
    (ha : h.startInstant a = some ka) (hb : h.startInstant b = some kb) :
    h.compareStart a b = some (ka - kb) := by
  simp only [Host.compareStart, host_startKey h a ka ha, host_startKey h b kb hb, jsSub]

/-- C7: on every host, for every list of tasks with well-formed dates and times and every
week start, `weekTasks` is a permutation of the tasks that pass the window filter (the
filter between `weekStartDate` and `weekEndDate`), in ascending order of the combined
(date, startTime) instant (a missing startTime counting as 00:00), and the tasks of one
instant are in the order they have in the input list. -/
theorem weekTasks_sorted_by_instant (h : Host) (allTasks : List Task) (weekStartStr : String)
    (hwf : ∀ task ∈ allTasks, (h.startInstant task).isSome = true) :
    ∃ r, h.generateWeeklyReport allTasks weekStartStr = .ok r ∧
      r.weekStartDate = h.parseDate weekStartStr ∧
      r.weekEndDate = h.setDate (h.parseDate weekStartStr)
        (jsAdd (h.getDate (h.parseDate weekStartStr)) (some 6)) ∧
      r.weekTasks.Perm (allTasks.filter (h.taskInWeek r.weekStartDate r.weekEndDate)) ∧
      r.weekTasks.Pairwise (fun a b =>
        ∀ ka kb, h.startInstant a = some ka → h.startInstant b = some kb → ka ≤ kb) ∧
      ∀ k, r.weekTasks.filter (fun task => h.startInstant task == some k) =
        (allTasks.filter (h.taskInWeek r.weekStartDate r.weekEndDate)).filter
          (fun task => h.startInstant task == some k) := by
  obtain ⟨r, b0, bs, hr, h1, h2, h3, _⟩ := report_fields h allTasks weekStartStr
  have hwf2 : ∀ task ∈ allTasks.filter (h.taskInWeek r.weekStartDate r.weekEndDate),
      ∃ k, h.startInstant task = some k := fun task ht =>
    Option.isSome_iff_exists.1 (hwf task (List.mem_filter.1 ht).1)
  refine ⟨r, hr, h1, h2, ?_, ?_, ?_⟩
  · rw [h3]
    exact sort_perm _ _
  · have hs := sort_pairwise h.compareStart (fun task => (h.startInstant task).getD 0)
      (allTasks.filter (h.taskInWeek r.weekStartDate r.weekEndDate)) (by
        intro a ha b hb
        obtain ⟨ka, hka⟩ := hwf2 a ha
        obtain ⟨kb, hkb⟩ := hwf2 b hb
        rw [host_compareStart h a b ka kb hka hkb]
        simp only [hka, hkb, isPositive, Option.getD_some, sub_pos])
    rw [← h3] at hs
    refine hs.imp ?_
    intro a b hab ka kb hka hkb
    simpa [hka, hkb] using hab
  · intro k
    have hf := filter_sort h.compareStart (fun task => h.startInstant task == some k)
      (allTasks.filter (h.taskInWeek r.weekStartDate r.weekEndDate)) (by
        intro a _ b _ ha hb
        have hka : h.startInstant a = some k := by simpa using ha
        have hkb : h.startInstant b = some k := by simpa using hb
        rw [host_compareStart h a b k k hka hkb]
        simp [isPositive])
    rw [← h3] at hf
    exact hf

/-- In New York, in the week of 10 March 2024: a task at the skipped local time 02:30,
which is the instant 07:30 UTC, and after it in the input two tasks at 03:00, the instant
07:00 UTC. -/
theorem weekTasks_sorted_by_instant_witness :
    newYork.startInstant skippedHourTask = some 1710055800000 ∧
    newYork.startInstant threeTask = some 1710054000000 ∧
    newYork.startInstant threeTaskB = some 1710054000000 ∧
    ∃ r, newYork.generateWeeklyReport [skippedHourTask, threeTask, threeTaskB] "2024-03-10" =
        .ok r ∧
      r.weekStartDate = newYork.parseDate "2024-03-10" ∧
      r.weekEndDate = newYork.setDate (newYork.parseDate "2024-03-10")
        (jsAdd (newYork.getDate (newYork.parseDate "2024-03-10")) (some 6)) ∧
      r.weekTasks.Perm ([skippedHourTask, threeTask, threeTaskB].filter
        (newYork.taskInWeek r.weekStartDate r.weekEndDate)) ∧
      r.weekTasks.Pairwise (fun a b =>
        ∀ ka kb, newYork.startInstant a = some ka → newYork.startInstant b = some kb →
          ka ≤ kb) ∧
      ∀ k, r.weekTasks.filter (fun task => newYork.startInstant task == some k) =
        ([skippedHourTask, threeTask, threeTaskB].filter
          (newYork.taskInWeek r.weekStartDate r.weekEndDate)).filter
          (fun task => newYork.startInstant task == some k) :=
  ⟨by decide, by decide, by decide,
    weekTasks_sorted_by_instant newYork [skippedHourTask, threeTask, threeTaskB] "2024-03-10"
      (by decide)⟩

/-- The week's tasks of this input: the two tasks at 03:00 in their input order, then the
task at 02:30; on a host at a fixed offset the task at 02:30 comes first. -/
theorem weekTasks_skipped_hour :
    (∃ r, newYork.generateWeeklyReport [skippedHourTask, threeTask, threeTaskB] "2024-03-10" =
        .ok r ∧ r.weekTasks = [threeTask, threeTaskB, skippedHourTask]) ∧
    ∃ r, (Host.fixed (-300)).generateWeeklyReport [skippedHourTask, threeTask, threeTaskB]
        "2024-03-10" = .ok r ∧ r.weekTasks = [skippedHourTask, threeTask, threeTaskB] := by
  refine ⟨⟨_, rfl, ?_⟩, ⟨_, rfl, ?_⟩⟩ <;> decide

/-! ## Malformed dates on a host (C14) -/

theorem host_parseable_of_taskInWeek (h : Host) (weekStart weekEnd : JsDate) (task : Task)
    (hin : h.taskInWeek weekStart weekEnd task = true) : h.dateParseable task = true := by
  unfold Host.taskInWeek at hin
  unfold Host.dateParseable
  split at hin
  · exact absurd hin (by simp)
  · rename_i ht
    cases hn : h.newDate task.date with
    | none =>
      rw [hn] at hin
      simp [jsLe] at hin
    | some s => simpa using ht

theorem host_mem_dayBucket_tasks (h : Host) (weekStart : JsDate) (sortedTasks : List Task)
    (i : Nat) (task : Task) (hm : task ∈ (h.dayBucket weekStart sortedTasks i).tasks) :
    task ∈ sortedTasks := by
  simp only [Host.dayBucket] at hm
  rw [mem_sort] at hm
  exact (List.mem_filter.1 hm).1

/-- The report depends on the input only through the tasks with a parseable `date`. -/
theorem report_filter_parseable (h : Host) (allTasks : List Task) (weekStartStr : String) :
    h.generateWeeklyReport (allTasks.filter h.dateParseable) weekStartStr =
      h.generateWeeklyReport allTasks weekStartStr := by
  have key : ∀ weekStart weekEnd : JsDate,
      (allTasks.filter h.dateParseable).filter (h.taskInWeek weekStart weekEnd) =
        allTasks.filter (h.taskInWeek weekStart weekEnd) := by
    intro weekStart weekEnd
    rw [List.filter_filter]
    apply List.filter_congr
    intro task _
    cases hin : h.taskInWeek weekStart weekEnd task with
    | false => rfl
    | true => simp [host_parseable_of_taskInWeek h weekStart weekEnd task hin]
  simp only [Host.generateWeeklyReport, key]

/-- C14: on every host, `generateWeeklyReport` returns a report for every task list and
week start; a task whose `date` is absent (or empty) or is not read as a date by the engine
is in neither `weekTasks` nor any bucket, and the report is the one of the input without
these tasks (so they contribute to none of `totalTasks`, `completedTasks` and
`totalDuration`, and the other tasks are treated as if these were not in the input). -/
theorem unparseable_dates_ignored (h : Host) (allTasks : List Task) (weekStartStr : String) :
    ∃ r, h.generateWeeklyReport allTasks weekStartStr = .ok r ∧
      (∀ task ∈ allTasks, (truthy task.date = false ∨ h.newDate task.date = none) →
        task ∉ r.weekTasks ∧ ∀ b ∈ r.daysOfWeek, task ∉ b.tasks) ∧
      h.generateWeeklyReport
          (allTasks.filter fun task => truthy task.date && (h.newDate task.date).isSome)
          weekStartStr = .ok r := by
  obtain ⟨r, b0, bs, hr, _, _, h3, h4, _⟩ := report_fields h allTasks weekStartStr
  refine ⟨r, hr, ?_, by rw [← hr]; exact report_filter_parseable h allTasks weekStartStr⟩
  intro task _ hbad
  have hw : task ∉ r.weekTasks := by
    intro hm
    rw [h3, mem_sort, List.mem_filter] at hm
    have hp := host_parseable_of_taskInWeek h _ _ task hm.2
    simp only [Host.dateParseable, Bool.and_eq_true] at hp
    rcases hbad with hbad | hbad
    · rw [hbad] at hp
      exact absurd hp.1 (by simp)
    · rw [hbad] at hp
      exact absurd hp.2 (by simp)
  refine ⟨hw, ?_⟩
  intro b hb hm
  rw [h4, List.mem_map] at hb
  obtain ⟨i, _, rfl⟩ := hb
  exact hw (host_mem_dayBucket_tasks h _ _ i task hm)

/-- What counts as unparseable is the engine's affair.  A task dated 30 February 2024 and a
task without a date, next to a task of 1 March, in the week of 25 February 2024: an engine
that reads the two standard shapes only leaves both out, an engine that counts the days on
into March has the first of them in the week, in the bucket of Friday 1 March. -/
theorem unparseable_depends_on_engine :
    (Host.fixed 0).newDate februaryTask.date = none ∧
    carryingHost.newDate februaryTask.date = some 1709251200000 ∧
    (∃ r, (Host.fixed 0).generateWeeklyReport [februaryTask, undatedTask] "2024-02-25" =
        .ok r ∧ r.weekTasks = [] ∧ r.totalTasks = 0 ∧ r.completedTasks = 0) ∧
    ∃ r, carryingHost.generateWeeklyReport [februaryTask, undatedTask] "2024-02-25" = .ok r ∧
      r.weekTasks = [februaryTask] ∧ r.totalTasks = 1 ∧ r.completedTasks = 0 ∧
      r.daysOfWeek.map (fun b => b.taskCount) = [0, 0, 0, 0, 0, 1, 0] := by
  refine ⟨by decide, by decide, ⟨_, rfl, ?_, ?_, ?_⟩, ⟨_, rfl, ?_, ?_, ?_, ?_⟩⟩ <;> decide

/-! ## The window filter across a change of the clocks (C1) -/

/-- The end of the week on a host: `setDate` keeps the local time of day, so the end is six
days after the start less the time by which the clocks went forward in between. -/
theorem weekEnd_spring_forward :
    newYork.parseDate "2024-03-10" = some 1710028800000 ∧
    newYork.setDate (some 1710028800000) (jsAdd (newYork.getDate (some 1710028800000)) (some 6)) =
      some (1710028800000 + 6 * msPerDay - 60 * msPerMinute) ∧
    (Host.fixed (-300)).setDate (some 1710028800000)
        (jsAdd ((Host.fixed (-300)).getDate (some 1710028800000)) (some 6)) =
      some (1710028800000 + 6 * msPerDay) := by
  refine ⟨?_, ?_, ?_⟩ <;> decide

/-- C1, evaluated: in New York, for the week of 10 March 2024, in which the clocks go
forward, a task dated 16 March 2024 meets the window condition (its start, 16 March 00:00
UTC, is the week start plus six days) and is not in `weekTasks`: the end of the week is an
hour short of six days.  On a host that stays five hours behind UTC the same task is in
`weekTasks`. -/
theorem weekTasks_spring_forward :
    newYork.parseDate "2024-03-10" = some 1710028800000 ∧
    newYork.newDate lastDayTask.date = some (1710028800000 + 6 * msPerDay) ∧
    newYork.spanOverlaps 1710028800000 lastDayTask = true ∧
    (∃ r, newYork.generateWeeklyReport [lastDayTask] "2024-03-10" = .ok r ∧
      r.weekEndDate = some (1710028800000 + 6 * msPerDay - 60 * msPerMinute) ∧
      r.weekTasks = [] ∧ r.totalTasks = 0 ∧
      r.daysOfWeek.map (fun b => b.taskCount) = [0, 0, 0, 0, 0, 0, 0]) ∧
    ∃ r, (Host.fixed (-300)).generateWeeklyReport [lastDayTask] "2024-03-10" = .ok r ∧
      r.weekEndDate = some (1710028800000 + 6 * msPerDay) ∧
      r.weekTasks = [lastDayTask] ∧ r.totalTasks = 1 := by
  refine ⟨by decide, by decide, by decide, ⟨_, rfl, ?_, ?_, ?_, ?_⟩, ⟨_, rfl, ?_, ?_, ?_⟩⟩ <;>
    decide

/-! ## The accuracy of a binary64 quotient -/

theorem roundHalfEven_near (n d : Nat) (hd : 0 < d) :
    2 * (roundHalfEven n d * d) ≤ 2 * n + d ∧ 2 * n ≤ 2 * (roundHalfEven n d * d) + d := by
  have hr : n % d < d := Nat.mod_lt _ hd
  have hn : d * (n / d) + n % d = n := Nat.div_add_mod n d
  have e2 : (n / d + 1) * d = d * (n / d) + d := by ring
  have e1 : n / d * d = d * (n / d) := by ring
  simp only [roundHalfEven]
  split
  · rw [e1]; omega
  · split
    · rw [e2]; omega
    · split
      · rw [e1]; omega
      · rw [e2]; omega

theorem roundHalfEven_of_dvd (n d : Nat) (hd : 0 < d) (h : d ∣ n) :
    roundHalfEven n d * d = n := by
  obtain ⟨k, rfl⟩ := h
  have h0 : d * k % d = 0 := Nat.mul_mod_right d k
  have h1 : d * k / d = k := Nat.mul_div_cancel_left k hd
  simp only [roundHalfEven, h0, h1]
  rw [if_pos (by omega)]
  ring

theorem two_pow_bitLength_le (n : Nat) (hn : 0 < n) : 2 ^ bitLength n ≤ 2 * n := by
  by_contra hc
  have hlt : 2 * n < 2 ^ bitLength n := by omega
  have hpos : 0 < bitLength n := by
    by_contra h0
    have : bitLength n = 0 := by omega
    rw [this] at hlt
    simp at hlt
    omega
  obtain ⟨k, hk⟩ : ∃ k, bitLength n = k + 1 := ⟨bitLength n - 1, by omega⟩
  rw [hk, Nat.pow_succ] at hlt
  have := bitLength_le_of_lt n k (by omega)
  omega

theorem lt_two_pow_bitLength (n : Nat) : n < 2 ^ bitLength n :=
  lt_two_pow_bitLengthAux n n (le_refl n)

theorem scaled_bounds (n d : Nat) (hn : 0 < n) (hd : 0 < d) :
    2 ^ 52 * (d * 2 ^ (-(53 + (bitLength d : Int) - bitLength n)).toNat) ≤
        n * 2 ^ (53 + (bitLength d : Int) - bitLength n).toNat ∧
      n * 2 ^ (53 + (bitLength d : Int) - bitLength n).toNat <
        2 ^ 54 * (d * 2 ^ (-(53 + (bitLength d : Int) - bitLength n)).toNat) := by
  have a1 := two_pow_bitLength_le n hn
  have a2 := lt_two_pow_bitLength n
  have b1 := two_pow_bitLength_le d hd
  have b2 := lt_two_pow_bitLength d
  generalize bitLength n = a at *
  generalize bitLength d = b at *
  rcases le_or_lt (a : Int) (53 + b) with hs | hs
  · obtain ⟨k, hk⟩ : ∃ k : Nat, 53 + b = a + k := ⟨53 + b - a, by omega⟩
    have x1 : (53 + (b : Int) - a).toNat = k := by omega
    have x2 : (-(53 + (b : Int) - a)).toNat = 0 := by omega
    rw [x1, x2, pow_zero, mul_one]
    have e1 : 2 ^ (53 + b) = 2 ^ a * 2 ^ k := by rw [hk, Nat.pow_add]
    have e2 : 2 ^ (53 + b) = 2 ^ 53 * 2 ^ b := by rw [Nat.pow_add]
    have hk0 : 0 < 2 ^ k := Nat.pow_pos (by omega)
    have m1 : 2 ^ a * 2 ^ k ≤ 2 * n * 2 ^ k := Nat.mul_le_mul_right _ a1
    have m2 : n * 2 ^ k < 2 ^ a * 2 ^ k := Nat.mul_lt_mul_of_pos_right a2 hk0
    have m3 : 2 ^ 53 * d < 2 ^ 53 * 2 ^ b := Nat.mul_lt_mul_of_pos_left b2 (by norm_num)
    have m4 : 2 ^ 53 * 2 ^ b ≤ 2 ^ 53 * (2 * d) := Nat.mul_le_mul_left _ b1
    have e3 : 2 * n * 2 ^ k = 2 * (n * 2 ^ k) := by ring
    have e4 : (2 : Nat) ^ 53 = 2 * 2 ^ 52 := by norm_num
    have e5 : (2 : Nat) ^ 54 = 2 * 2 ^ 53 := by norm_num
    have e6 : 2 ^ 53 * (2 * d) = 2 * (2 ^ 53 * d) := by ring
    have e7 : 2 * 2 ^ 52 * d = 2 * (2 ^ 52 * d) := by ring
    have e8 : 2 * 2 ^ 53 * d = 2 * (2 ^ 53 * d) := by ring
    rw [e5, e8]
    rw [e4, e7] at m3
    generalize 2 ^ 52 * d = u at *
    generalize 2 ^ 53 * d = v at *
    generalize n * 2 ^ k = w at *
    omega
  · obtain ⟨k, hk⟩ : ∃ k : Nat, a = 53 + b + k := ⟨a - 53 - b, by omega⟩
    have x1 : (53 + (b : Int) - a).toNat = 0 := by omega
    have x2 : (-(53 + (b : Int) - a)).toNat = k := by omega
    rw [x1, x2, pow_zero, mul_one]
    have e1 : 2 ^ a = 2 ^ 53 * (2 ^ b * 2 ^ k) := by rw [hk, Nat.pow_add, Nat.pow_add, Nat.mul_assoc]
    have hk0 : 0 < 2 ^ k := Nat.pow_pos (by omega)
    have m1 : d * 2 ^ k < 2 ^ b * 2 ^ k := Nat.mul_lt_mul_of_pos_right b2 hk0
    have m2 : 2 ^ b * 2 ^ k ≤ 2 * d * 2 ^ k := Nat.mul_le_mul_right _ b1
    have e2 : 2 * d * 2 ^ k = 2 * (d * 2 ^ k) := by ring
    rw [e2] at m2
    rw [e1] at a1 a2
    generalize d * 2 ^ k = u at *
    generalize 2 ^ b * 2 ^ k = v at *
    omega

/-- The shape of a rounded quotient: the significand is the rounded quotient at a scale at
which the quotient lies between `2 ^ 52` and `2 ^ 53`. -/
theorem F64.nearest_normal (n d : Nat) (e : Int) (hn : 0 < n) (hd : 0 < d) :
    ∃ s : Int,
      F64.nearest n d e = ⟨roundHalfEven (n * 2 ^ s.toNat) (d * 2 ^ (-s).toNat), e - s⟩ ∧
      2 ^ 52 * (d * 2 ^ (-s).toNat) ≤ n * 2 ^ s.toNat ∧
      n * 2 ^ s.toNat < 2 ^ 53 * (d * 2 ^ (-s).toNat) := by
  obtain ⟨lo, hi⟩ := scaled_bounds n d hn hd
  simp only [F64.nearest, if_neg (by omega : ¬ n = 0)]
  generalize (53 + (bitLength d : Int) - bitLength n) = s0 at *
  have p52 : (2 : Nat) ^ 52 = 4503599627370496 := by norm_num
  have p53 : (2 : Nat) ^ 53 = 9007199254740992 := by norm_num
  have p54 : (2 : Nat) ^ 54 = 18014398509481984 := by norm_num
  split
  · rename_i hge
    refine ⟨s0 - 1, rfl, ?_⟩
    rcases le_or_lt 1 s0 with hs | hs
    · obtain ⟨k, hk⟩ : ∃ k : Nat, s0 = k + 1 := ⟨(s0 - 1).toNat, by omega⟩
      subst hk
      have x1 : ((k : Int) + 1 - 1).toNat = k := by omega
      have x2 : (-((k : Int) + 1 - 1)).toNat = 0 := by omega
      have x3 : ((k : Int) + 1).toNat = k + 1 := by omega
      have x4 : (-((k : Int) + 1)).toNat = 0 := by omega
      have q : n * 2 ^ (k + 1) = 2 * (n * 2 ^ k) := by rw [Nat.pow_succ]; ring
      rw [x3, x4, pow_zero, mul_one, q, p53] at hge
      rw [x3, x4, pow_zero, mul_one, q, p54] at hi
      rw [x1, x2, pow_zero, mul_one, p52, p53]
      generalize n * 2 ^ k = w at *
      omega
    · obtain ⟨k, hk⟩ : ∃ k : Nat, s0 = -(k : Int) := ⟨(-s0).toNat, by omega⟩
      subst hk
      have x1 : (-(k : Int) - 1).toNat = 0 := by omega
      have x2 : (-(-(k : Int) - 1)).toNat = k + 1 := by omega
      have x3 : (-(k : Int)).toNat = 0 := by omega
      have x4 : (- -(k : Int)).toNat = k := by omega
      have q : d * 2 ^ (k + 1) = 2 * (d * 2 ^ k) := by rw [Nat.pow_succ]; ring
      rw [x3, x4, pow_zero, mul_one, p53] at hge
      rw [x3, x4, pow_zero, mul_one, p54] at hi
      rw [x1, x2, pow_zero, mul_one, q, p52, p53]
      generalize d * 2 ^ k = u at *
      omega
  · rename_i hlt
    exact ⟨s0, rfl, lo, by omega⟩

theorem abs_scaled_le (y dq nq : ℚ) (h1 : 2 * y ≤ dq) (h2 : -dq ≤ 2 * y)
    (h3 : 2 ^ 52 * dq ≤ nq) : |y| * 2 ^ 53 ≤ nq := by
  have e : (2 : ℚ) ^ 53 = 2 * 2 ^ 52 := by norm_num
  have ha : |y| * 2 ≤ dq := by
    rcases abs_cases y with ⟨k, _⟩ | ⟨k, _⟩ <;> rw [k] <;> linarith
  calc |y| * 2 ^ 53 = 2 ^ 52 * (|y| * 2) := by rw [e]; ring
    _ ≤ 2 ^ 52 * dq := by
      apply mul_le_mul_of_nonneg_left ha
      norm_num
    _ ≤ nq := h3

/-- A binary64 quotient of two positive integers is the rational quotient up to a relative
error of `2 ^ -53`. -/
theorem F64.div_near (n d : Nat) (hn : 0 < n) (hd : 0 < d) :
    |(F64.div n d).toRat - (n : ℚ) / d| * 2 ^ 53 ≤ (n : ℚ) / d := by
  obtain ⟨s, he, lo, hi⟩ := F64.nearest_normal n d 0 hn hd
  have hdq : (0 : ℚ) < d := by exact_mod_cast hd
  rw [F64.div, he]
  rcases le_or_lt 0 s with hs | hs
  · obtain ⟨k, hk⟩ : ∃ k : Nat, s = k := ⟨s.toNat, by omega⟩
    subst hk
    have x1 : ((k : Int)).toNat = k := by omega
    have x2 : (-(k : Int)).toNat = 0 := by omega
    rw [x1, x2, pow_zero, mul_one] at lo hi ⊢
    obtain ⟨r1, r2⟩ := roundHalfEven_near (n * 2 ^ k) d hd
    generalize roundHalfEven (n * 2 ^ k) d = R at *
    have hP : (0 : ℚ) < 2 ^ k := by positivity
    have q1 : (2 : ℚ) * (R * d) ≤ 2 * (n * 2 ^ k) + d := by exact_mod_cast r1
    have q2 : (2 : ℚ) * (n * 2 ^ k) ≤ 2 * (R * d) + d := by exact_mod_cast r2
    have q3 : (2 : ℚ) ^ 52 * d ≤ n * 2 ^ k := by exact_mod_cast lo
    have key := abs_scaled_le ((R : ℚ) * d - n * 2 ^ k) d (n * 2 ^ k) (by linarith)
      (by linarith) q3
    have e : (F64.toRat ⟨R, 0 - (k : Int)⟩) - (n : ℚ) / d =
        ((R : ℚ) * d - n * 2 ^ k) / (2 ^ k * d) := by
      simp only [F64.toRat, zero_sub, zpow_neg, zpow_natCast]
      field_simp
      ring
    rw [e, abs_div, abs_of_pos (mul_pos hP hdq), div_mul_eq_mul_div,
      div_le_div_iff₀ (mul_pos hP hdq) hdq]
    calc |(R : ℚ) * d - n * 2 ^ k| * 2 ^ 53 * d ≤ (n * 2 ^ k) * d :=
          mul_le_mul_of_nonneg_right key hdq.le
      _ = n * (2 ^ k * d) := by ring
  · obtain ⟨k, hk⟩ : ∃ k : Nat, s = -(k : Int) := ⟨(-s).toNat, by omega⟩
    subst hk
    have x1 : (-(k : Int)).toNat = 0 := by omega
    have x2 : (- -(k : Int)).toNat = k := by omega
    rw [x1, x2, pow_zero, mul_one] at lo hi ⊢
    have hD : 0 < d * 2 ^ k := Nat.mul_pos hd (Nat.pow_pos (by omega))
    obtain ⟨r1, r2⟩ := roundHalfEven_near n (d * 2 ^ k) hD
    generalize roundHalfEven n (d * 2 ^ k) = R at *
    have hP : (0 : ℚ) < 2 ^ k := by positivity
    have q1 : (2 : ℚ) * (R * (d * 2 ^ k)) ≤ 2 * n + d * 2 ^ k := by exact_mod_cast r1
    have q2 : (2 : ℚ) * n ≤ 2 * (R * (d * 2 ^ k)) + d * 2 ^ k := by exact_mod_cast r2
    have q3 : (2 : ℚ) ^ 52 * (d * 2 ^ k) ≤ n := by exact_mod_cast lo
    have key := abs_scaled_le ((R : ℚ) * (d * 2 ^ k) - n) (d * 2 ^ k) n (by linarith)
      (by linarith) q3
    have e : (F64.toRat ⟨R, 0 - -(k : Int)⟩) - (n : ℚ) / d =
        ((R : ℚ) * (d * 2 ^ k) - n) / d := by
      simp only [F64.toRat, zero_sub, neg_neg, zpow_natCast]
      field_simp
      ring
    rw [e, abs_div, abs_of_pos hdq, div_mul_eq_mul_div, div_le_div_iff₀ hdq hdq]
    exact mul_le_mul_of_nonneg_right key hdq.le

/-- A binary64 quotient is the rational quotient when this is an integer below `2 ^ 53`. -/
theorem F64.div_exact (n d : Nat) (hn : 0 < n) (hd : 0 < d) (hdvd : d ∣ n)
    (hlt : n < 2 ^ 53 * d) : (F64.div n d).toRat = (n : ℚ) / d := by
  obtain ⟨s, he, lo, hi⟩ := F64.nearest_normal n d 0 hn hd
  have hdq : (0 : ℚ) < d := by exact_mod_cast hd
  have hs : 0 ≤ s := by
    by_contra hneg
    obtain ⟨k, hk⟩ : ∃ k : Nat, s = -((k : Int) + 1) := ⟨(-s - 1).toNat, by omega⟩
    subst hk
    have x1 : (-((k : Int) + 1)).toNat = 0 := by omega
    have x2 : (- -((k : Int) + 1)).toNat = k + 1 := by omega
    rw [x1, x2, pow_zero, mul_one] at lo
    have p : d * 2 ^ (k + 1) = 2 * (d * 2 ^ k) := by rw [Nat.pow_succ]; ring
    have hk1 : d ≤ d * 2 ^ k := Nat.le_mul_of_pos_right d (Nat.pow_pos (by omega))
    have p52 : (2 : Nat) ^ 52 = 4503599627370496 := by norm_num
    have p53 : (2 : Nat) ^ 53 = 9007199254740992 := by norm_num
    rw [p, p52] at lo
    rw [p53] at hlt
    generalize d * 2 ^ k = u at *
    omega
  obtain ⟨k, hk⟩ : ∃ k : Nat, s = k := ⟨s.toNat, by omega⟩
  subst hk
  have x1 : ((k : Int)).toNat = k := by omega
  have x2 : (-(k : Int)).toNat = 0 := by omega
  rw [F64.div, he, x1, x2, pow_zero, mul_one]
  have hr := roundHalfEven_of_dvd (n * 2 ^ k) d hd (Dvd.dvd.mul_right hdvd _)
  have hq : ((roundHalfEven (n * 2 ^ k) d : Nat) : ℚ) * d = n * 2 ^ k := by exact_mod_cast hr
  have hP : (0 : ℚ) < 2 ^ k := by positivity
  simp only [F64.toRat, zero_sub, zpow_neg, zpow_natCast]
  field_simp
  linarith

/-! ## The average on a host (C9) -/

theorem host_calculateTaskDuration_nonneg (h : Host) (task : Task) (n : Int)
    (hn : h.calculateTaskDuration task = some n) : 0 ≤ n := by
  simp only [Host.calculateTaskDuration] at hn
  cases hd : jsSub (h.parseDate (templ task.endDate ++ "T" ++ templ task.endTime))
      (h.parseDate (templ task.date ++ "T" ++ templ task.startTime)) with
  | none => rw [hd] at hn; exact absurd hn (by simp)
  | some ms =>
    rw [hd] at hn
    simp only [Option.map_some', Option.some.injEq] at hn
    rw [← hn]
    exact le_max_left _ _

theorem host_sum_nonneg (h : Host) (tasks : List Task) (acc total : Int) (ha : 0 ≤ acc)
    (hs : tasks.foldl (fun sum task => jsAdd sum (h.calculateTaskDuration task)) (some acc) =
      some total) : 0 ≤ total := by
  induction tasks generalizing acc with
  | nil =>
    simp only [List.foldl_nil, Option.some.injEq] at hs
    omega
  | cons t ts ih =>
    rw [List.foldl_cons] at hs
    cases hc : h.calculateTaskDuration t with
    | none =>
      rw [hc, show jsAdd (some acc) none = none from rfl] at hs
      have : ∀ l : List Task,
          l.foldl (fun sum task => jsAdd sum (h.calculateTaskDuration task)) none = none := by
        intro l
        induction l with
        | nil => rfl
        | cons x xs ihx =>
          rw [List.foldl_cons, show jsAdd none (h.calculateTaskDuration x) = none from rfl]
          exact ihx
      rw [this] at hs
      exact absurd hs (by simp)
    | some v =>
      rw [hc, show jsAdd (some acc) (some v) = some (acc + v) from rfl] at hs
      exact ih (acc + v) (by have := host_calculateTaskDuration_nonneg h t v hc; omega) hs

/-- The quotient of 60 by 7 in binary64 is not the rational number 60/7. -/
theorem F64_div_60_7 :
    F64.div 60 7 = ⟨4825285315039817, -49⟩ ∧
    (F64.div 60 7).toRat = 4825285315039817 / 562949953421312 ∧
    (F64.div 60 7).toRat ≠ 60 / 7 := by
  have e : F64.div 60 7 = ⟨4825285315039817, -49⟩ := by decide
  refine ⟨e, ?_, ?_⟩
  · rw [e]
    norm_num [F64.toRat]
  · rw [e]
    norm_num [F64.toRat]

/-- C9, the claim as stated fails: the week of one task of 60 minutes has the total 60 and
an average whose value is not the rational number 60/7. -/
theorem averageDailyDuration_not_exact :
    ∃ r, (Host.fixed 0).generateWeeklyReport [doneTask] "2024-12-01" = .ok r ∧
      r.totalDuration = some 60 ∧
      r.averageDailyDuration.map F64.toRat ≠
        r.totalDuration.map fun minutes => (minutes : ℚ) / 7 := by
  refine ⟨_, rfl, by decide, ?_⟩
  have e : ∀ r, (Host.fixed 0).generateWeeklyReport [doneTask] "2024-12-01" = .ok r →
      r.averageDailyDuration = some (F64.div 60 7) ∧ r.totalDuration = some 60 := by
    intro r hr
    have hr2 : Except.ok r = (Host.fixed 0).generateWeeklyReport [doneTask] "2024-12-01" :=
      hr.symm
    injection hr2 with hr3
    subst hr3
    exact ⟨by decide, by decide⟩
  obtain ⟨e1, e2⟩ := e _ rfl
  rw [e1, e2]
  simp only [Option.map_some', ne_eq, Option.some.injEq]
  have := F64_div_60_7.2.2
  norm_num at this ⊢
  exact this

/-- C9, amended: on every host, for every task list and week start, `averageDailyDuration`
is the quotient `totalDuration / 7` as binary64 computes it, whether or not the week has
tasks: `NaN` when `totalDuration` is, and otherwise the rational number `totalDuration / 7`
up to a relative error of `2 ^ -53`, exactly this number when `totalDuration` is a multiple
of 7 below `7 * 2 ^ 53`; `totalDuration` is never negative, and in a week without tasks
both are 0. -/
theorem averageDailyDuration_binary64 (h : Host) (allTasks : List Task)
    (weekStartStr : String) :
    ∃ r, h.generateWeeklyReport allTasks weekStartStr = .ok r ∧
      r.averageDailyDuration = r.totalDuration.map (fun minutes => F64.div minutes.toNat 7) ∧
      (∀ minutes avg, r.totalDuration = some minutes → r.averageDailyDuration = some avg →
        0 ≤ minutes ∧
        |avg.toRat - (minutes : ℚ) / 7| * 2 ^ 53 ≤ (minutes : ℚ) / 7 ∧
        ((7 : Int) ∣ minutes → minutes < 7 * 2 ^ 53 → avg.toRat = (minutes : ℚ) / 7)) ∧
      (r.totalTasks = 0 → r.totalDuration = some 0 ∧ r.averageDailyDuration = some ⟨0, 0⟩) := by
  obtain ⟨r, b0, bs, hr, _, _, _, _, h5, _, h7, h8, _⟩ := report_fields h allTasks weekStartStr
  have hz : r.totalTasks = 0 → r.totalDuration = some 0 := by
    intro h0
    have hl : r.weekTasks = [] := by
      apply List.eq_nil_of_length_eq_zero
      omega
    rw [h7, hl]
    rfl
  have havg : r.averageDailyDuration =
      r.totalDuration.map (fun minutes => F64.div minutes.toNat 7) := by
    rw [h8]
    split
    · rfl
    · rename_i h0
      rw [hz (by omega)]
      rfl
  refine ⟨r, hr, havg, ?_, ?_⟩
  · intro minutes avg hm ha
    have hnn : 0 ≤ minutes := by
      rw [h7] at hm
      exact host_sum_nonneg h _ 0 minutes (le_refl 0) hm
    rw [havg, hm, Option.map_some', Option.some.injEq] at ha
    obtain ⟨n, hn⟩ : ∃ n : Nat, minutes = n := ⟨minutes.toNat, by omega⟩
    subst hn
    subst ha
    simp only [Int.toNat_ofNat, Int.cast_natCast]
    refine ⟨hnn, ?_, ?_⟩
    · rcases Nat.eq_zero_or_pos n with h0 | hpos
      · subst h0
        have e : F64.div 0 7 = ⟨0, 0⟩ := by decide
        rw [e]
        simp [F64.toRat]
      · exact_mod_cast F64.div_near n 7 hpos (by norm_num)
    · intro hdvd hlt
      rcases Nat.eq_zero_or_pos n with h0 | hpos
      · subst h0
        have e : F64.div 0 7 = ⟨0, 0⟩ := by decide
        rw [e]
        simp [F64.toRat]
      · have hd : (7 : Nat) ∣ n := by exact_mod_cast hdvd
        have hl : n < 2 ^ 53 * 7 := by
          have : (n : Int) < 7 * 2 ^ 53 := hlt
          have p53 : (2 : Nat) ^ 53 = 9007199254740992 := by norm_num
          rw [p53]
          norm_num at this
          omega
        exact_mod_cast F64.div_exact n 7 hpos (by norm_num) hd hl
  · intro h0
    refine ⟨hz h0, ?_⟩
    rw [h8, if_neg (by omega)]

end WeeklyManager
